import Mathlib

/-!
The validators and the line tokenizer of sctest.

A shallow embedding of `src/sct_utils.c` and of the line parser of
`src/sct_core.c`.

Modelling conventions.

* A C string (`char *` pointing at a NUL-terminated buffer) is the list of the
  characters that precede the terminating NUL; reading `*p` at the end of the
  list is reading the NUL.  A possibly-NULL `char *` is an `Option`.
* Offsets (`int start`, `int end`, `int index`) are natural numbers; lines are
  shorter than `2^31` bytes, so no `int` arithmetic of the parser wraps.
* `malloc` succeeds.  What `malloc` returns is *not* cleared: the memory that a
  256-byte table occupies (and the bytes around it) is a parameter
  `mem : Int → Nat`, indexed relative to the start of the block.
-/

namespace Sctest

/-! ## Characters -/

/-- The space character. -/
def SPACE : Char := Char.ofNat 32

/-- The horizontal tab. -/
def TAB : Char := Char.ofNat 9

/-- The single quote. -/
def SQUOTE : Char := Char.ofNat 39

/-- The double quote. -/
def DQUOTE : Char := Char.ofNat 34

/-- The backslash. -/
def BACKSLASH : Char := Char.ofNat 92

/-! ## `sct_utils.c`: character tables -/

/-- A region of memory seen from the start of an allocated block: the block
itself is the indices `0 .. 255`; other indices are whatever lies around it. -/
abbrev Mem := Int → Nat

/-- The assignment `result[i] = v`. -/
def mem_set (m : Mem) (i : Int) (v : Nat) : Mem :=
  fun j => if j = i then v else m j

/-- The call `memset(result, v, n)`: fills the first `n` bytes of the block. -/
def memset (m : Mem) (v : Nat) (n : Nat) : Mem :=
  fun j => if 0 ≤ j ∧ j < (n : Int) then v else m j

/-- The value of a byte used as an array index, as in `mask[s[i]]`.  Plain
`char` is signed on the target, so a byte from 128 up is a negative index. -/
def char_index (c : Char) : Int :=
  if c.toNat < 128 then (c.toNat : Int) else (c.toNat : Int) - 256

/-- The conversion `(char)i` of a loop counter `0 ≤ i < 256`. -/
def int_to_char (i : Int) : Int :=
  if i < 128 then i else i - 256

/-- The libc `isalpha` in the "C" locale (the program sets no locale before it
builds its tables): the 52 ASCII letters. -/
def isalpha (v : Int) : Bool :=
  (decide (65 ≤ v) && decide (v ≤ 90)) || (decide (97 ≤ v) && decide (v ≤ 122))

/-- The ten assignments `result['0'] = 1; ... result['9'] = 1;`. -/
def set_digits (m : Mem) : Mem :=
  mem_set (mem_set (mem_set (mem_set (mem_set (mem_set (mem_set (mem_set (mem_set
    (mem_set m 48 1) 49 1) 50 1) 51 1) 52 1) 53 1) 54 1) 55 1) 56 1) 57 1

/-- The loop `for (i = 0; i < 256; i++) if (isalpha((char)i)) result[i] = 1;`. -/
def set_alpha (m : Mem) : Mem :=
  fun j => if 0 ≤ j ∧ j < 256 ∧ isalpha (int_to_char j) = true then 1 else m j

/-- The loop `for (i = 0; i < len; i++) result[chars[i]] = v;`. -/
def set_chars (m : Mem) (chars : List Char) (v : Nat) : Mem :=
  chars.foldl (fun acc c => mem_set acc (char_index c) v) m

/-- The function `build_match_mask`.  `mem` is the content of the block that
`malloc(256)` returned.  With `allow_all` false the only byte cleared is
`result[0]`, because the length given to `memset` is `sizeof(*result)`, the
size of one `char`. -/
def build_match_mask (mem : Mem) (allow_all allow_alpha allow_numeric : Bool)
    (allow_chars disallow_chars : Option (List Char)) : Mem :=
  let result : Mem :=
    if allow_all then memset mem 1 256
    else
      let r0 := memset mem 0 1
      let r1 := if allow_numeric then set_digits r0 else r0
      let r2 := if allow_alpha then set_alpha r1 else r1
      match allow_chars with
      | some cs => set_chars r2 cs 1
      | none => r2
  match disallow_chars with
  | some ds => set_chars result ds 0
  | none => result

/-- The function `match_mask`: every character of `s` has a non-zero entry. -/
def match_mask (s : List Char) (mask : Mem) : Bool :=
  s.all (fun c => decide (mask (char_index c) ≠ 0))

/-- The four global tables `g_ip4_mask`, `g_hostname_mask`, `g_ip6_mask`,
`g_filename_mask`. -/
structure utils_state where
  g_ip4_mask : Mem
  g_hostname_mask : Mem
  g_ip6_mask : Mem
  g_filename_mask : Mem

/-- The function `scu_initialize_utils`; the four arguments are the contents of
the four blocks that the four `malloc` calls return. -/
def scu_initialize_utils (m4 mh m6 mf : Mem) : utils_state :=
  { g_ip4_mask := build_match_mask m4 false false true (some ".".toList) (some [])
    g_hostname_mask := build_match_mask mh false true true (some "-_.".toList) (some [])
    g_ip6_mask := build_match_mask m6 false false true (some ":abcdefABCDEF".toList) (some [])
    g_filename_mask := build_match_mask mf true true true (some []) (some "<>|&".toList) }

/-- The loop of `scu_is_empty_str`, `while (s) { ... s++; }`.  The condition
tests the pointer, not the character, so the loop only ends at the first
character that is neither a space nor a tab, and the terminating NUL is such a
character. -/
def scu_is_empty_str_loop : List Char → Bool
  | [] => false
  | c :: cs => if c ≠ SPACE ∧ c ≠ TAB then false else scu_is_empty_str_loop cs

/-- The function `scu_is_empty_str`. -/
def scu_is_empty_str : Option (List Char) → Bool
  | none => true
  | some [] => true
  | some (c :: cs) => scu_is_empty_str_loop (c :: cs)

/-- The function `scu_validate_filename`. -/
def scu_validate_filename (st : utils_state) (s : List Char) : Bool :=
  !scu_is_empty_str (some s) && match_mask s st.g_filename_mask

/-- The function `scu_is_hostname`. -/
def scu_is_hostname (st : utils_state) (s : List Char) : Bool :=
  !scu_is_empty_str (some s) && match_mask s st.g_hostname_mask

/-- The function `scu_is_ip4_name`. -/
def scu_is_ip4_name (st : utils_state) (s : List Char) : Bool :=
  !scu_is_empty_str (some s) && match_mask s st.g_ip4_mask

/-- The function `scu_is_ip6_name`. -/
def scu_is_ip6_name (st : utils_state) (s : List Char) : Bool :=
  !scu_is_empty_str (some s) && match_mask s st.g_ip6_mask

/-- The function `scu_validate_hostname_or_ip`. -/
def scu_validate_hostname_or_ip (st : utils_state) (s : List Char) : Bool :=
  scu_is_hostname st s || scu_is_ip4_name st s || scu_is_ip6_name st s

/-! ## `sct_utils.c`: strings and the filesystem -/

/-- The function `scu_strdup`: NULL for a NULL or empty string. -/
def scu_strdup : Option (List Char) → Option (List Char)
  | none => none
  | some [] => none
  | some (c :: cs) => some (c :: cs)

/-- The function `scu_strndup`: NULL for a NULL or empty string and for
`n = 0`; otherwise the first `n` characters (`strncpy` stops at the NUL). -/
def scu_strndup (s : Option (List Char)) (n : Nat) : Option (List Char) :=
  match s with
  | none => none
  | some [] => none
  | some (c :: cs) => if n = 0 then none else some ((c :: cs).take n)

/-- The function `is_quote_char` of `sct_utils.c`. -/
def is_quote_char (c : Char) : Bool :=
  c = SQUOTE || c = DQUOTE

/-- The function `scu_dequote`. -/
def scu_dequote : Option (List Char) → Option (List Char)
  | none => none
  | some [] => none
  | some (c :: cs) =>
    let len := (c :: cs).length
    if 1 < len ∧ is_quote_char c = true ∧ some c = (c :: cs)[len - 1]? then
      if len - 2 ≠ 0 then scu_strndup (some cs) (len - 2) else none
    else scu_strdup (some (c :: cs))

/-- What `stat` reports about the type of an existing path. -/
inductive file_type where
  | regular
  | directory
  | other
  deriving DecidableEq, Repr

/-- A state of the filesystem: `stat(path)` fails (`none`) or gives the type. -/
abbrev filesystem := List Char → Option file_type

/-- The function `is_regular_file`. -/
def is_regular_file (t : file_type) : Bool := t = file_type.regular

/-- The function `is_directory`. -/
def is_directory (t : file_type) : Bool := t = file_type.directory

/-- The function `scu_file_exists`; the pair is the result and the new value of
`*err_printed`. -/
def scu_file_exists (fs : filesystem) (fn : Option (List Char)) (err_printed : Bool) :
    Bool × Bool :=
  match scu_dequote fn with
  | none => (false, true)
  | some rfn =>
    match fs rfn with
    | none => (false, true)
    | some finfo => (is_regular_file finfo, err_printed)

/-- The function `scu_file_or_dir_exists`. -/
def scu_file_or_dir_exists (fs : filesystem) (fn : Option (List Char)) (err_printed : Bool) :
    Bool × Bool :=
  match scu_dequote fn with
  | none => (false, true)
  | some rfn =>
    match fs rfn with
    | none => (false, true)
    | some finfo => (is_regular_file finfo || is_directory finfo, err_printed)

/-- The function `scu_directory_exists`. -/
def scu_directory_exists (fs : filesystem) (fn : Option (List Char)) (err_printed : Bool) :
    Bool × Bool :=
  match scu_dequote fn with
  | none => (false, true)
  | some rfn =>
    match fs rfn with
    | none => (false, true)
    | some finfo => (is_directory finfo, err_printed)

/-! ## `sct_core.h`: arguments -/

/-- The enumeration `sct_arg_kind_t`. -/
inductive sct_arg_kind_t where
  | SA_FILENAME
  | SA_NEW_FILENAME
  | SA_FILE_OR_DIR_NAME
  | SA_DIRNAME
  | SA_TEXT
  | SA_INETNAME
  deriving DecidableEq, Repr

/-- The structure `sct_arg_t`. -/
structure sct_arg_t where
  kind : sct_arg_kind_t
  optional : Bool
  value : Option (List Char)
  deriving DecidableEq, Repr

/-- The function `validate_arg`; the pair is the result and the new value of
`*err_printed`. -/
def validate_arg (st : utils_state) (fs : filesystem) (arg : sct_arg_t) (err_printed : Bool) :
    Bool × Bool :=
  match arg.value with
  | none => (arg.optional, err_printed)
  | some v =>
    match arg.kind with
    | sct_arg_kind_t.SA_FILENAME => scu_file_exists fs (some v) err_printed
    | sct_arg_kind_t.SA_NEW_FILENAME => (scu_validate_filename st v, err_printed)
    | sct_arg_kind_t.SA_FILE_OR_DIR_NAME => scu_file_or_dir_exists fs (some v) err_printed
    | sct_arg_kind_t.SA_DIRNAME => scu_directory_exists fs (some v) err_printed
    | sct_arg_kind_t.SA_TEXT => (true, err_printed)
    | sct_arg_kind_t.SA_INETNAME => (scu_validate_hostname_or_ip st v, err_printed)

/-! ## `sct_core.c`: basic line parser -/

/-- The structure `arg_word_t` (without the `next` link: a list of words is a
Lean list).  `end_` is the field `end`, a reserved word here. -/
structure arg_word_t where
  index : Nat
  text : Option (List Char)
  start : Nat
  end_ : Nat
  deriving DecidableEq, Repr

/-- The structure `parsed_words_t`. -/
structure parsed_words_t where
  words : List arg_word_t
  word_count : Nat
  deriving DecidableEq, Repr

/-- The function `is_whitespace`. -/
def is_whitespace (c : Char) : Bool :=
  c = SPACE || c = TAB

/-- The function `skip_whitespace` on the string at `*p`: how far `*p` moves,
that is the number of leading spaces and tabs. -/
def skip_whitespace : List Char → Nat
  | [] => 0
  | c :: cs => if is_whitespace c then skip_whitespace cs + 1 else 0

/-- The loop of `find_quoted_word_break`; the list is the string at `p` and
`off` is `p - start`.  The result is `end - start`, or `none` for `false`. -/
def find_quoted_loop (qt : Char) : List Char → Nat → Option Nat
  | [], _ => none
  | [c], off =>
    if c = BACKSLASH then none
    else if c = qt then some (off + 1)
    else none
  | c :: d :: rest, off =>
    if c = BACKSLASH then
      if d = qt then find_quoted_loop qt rest (off + 2)
      else find_quoted_loop qt (d :: rest) (off + 1)
    else if c = qt then
      if is_whitespace d then some (off + 1)
      else find_quoted_loop qt (d :: rest) (off + 1)
    else find_quoted_loop qt (d :: rest) (off + 1)

/-- The function `find_quoted_word_break` on the string at `start`: the
distance `end - start` when it returns true, `none` when it returns false. -/
def find_quoted_word_break : List Char → Option Nat
  | [] => none
  | qt :: rest => find_quoted_loop qt rest 1

/-- The function `find_whitespace_word_break` (it always returns true): the
distance `end - start`, the number of leading characters that are neither a
space nor a tab. -/
def find_whitespace_word_break : List Char → Nat
  | [] => 0
  | c :: cs => if is_whitespace c then 0 else find_whitespace_word_break cs + 1

/-- The function `find_word_break`. -/
def find_word_break : List Char → Option Nat
  | [] => some 0
  | c :: cs =>
    if c = SQUOTE ∨ c = DQUOTE then find_quoted_word_break (c :: cs)
    else some (find_whitespace_word_break (c :: cs))

/-- The first loop of `reverse_word_order`: moves the words of `p` one by one
to the front of `result`. -/
def reverse_loop : List arg_word_t → List arg_word_t → List arg_word_t
  | [], result => result
  | w :: next, result => reverse_loop next (w :: result)

/-- The second loop of `reverse_word_order`: `p->index = idx++`. -/
def renumber : List arg_word_t → Nat → List arg_word_t
  | [], _ => []
  | w :: next, idx => { w with index := idx } :: renumber next (idx + 1)

/-- The function `reverse_word_order`. -/
def reverse_word_order (words : parsed_words_t) : parsed_words_t :=
  if words.words = [] then words
  else { words with words := renumber (reverse_loop words.words []) 0 }

/-- The word that one iteration of the loop of `parse_words` pushes for the
span `[start, end_)` of `line`.  Its `index` is not assigned before
`reverse_word_order`; it stands as 0 until then. -/
def new_word (line : List Char) (start end_ : Nat) : arg_word_t :=
  { index := 0
    text := scu_strndup (some (line.drop start)) (end_ - start)
    start := start
    end_ := end_ }

/-- The loop `while (*p) { ... }` of `parse_words`, at most `fuel` iterations
(`none`: more iterations were needed).  `p` is the offset `p - line`; the
Boolean is the final value of `succeeded`. -/
def parse_words_loop (line : List Char) (ignore_parse_errors : Bool) :
    Nat → Nat → parsed_words_t → Option (Bool × parsed_words_t)
  | 0, _, _ => none
  | fuel + 1, p, words =>
    if line.drop p = [] then some (true, words)
    else
      let start := p + skip_whitespace (line.drop p)
      if line.drop start = [] then some (true, words)
      else
        let push (end_ : Nat) : Option (Bool × parsed_words_t) :=
          parse_words_loop line ignore_parse_errors fuel end_
            { words := new_word line start end_ :: words.words
              word_count := words.word_count + 1 }
        match find_word_break (line.drop start) with
        | some n => push (start + n)
        | none =>
          if ignore_parse_errors then
            push (start + find_whitespace_word_break (line.drop start))
          else some (false, words)

/-- The function `parse_words`; `none` is the NULL result.  Every iteration of
the loop that does not leave it moves `p` forward, so `length line + 1`
iterations are enough (`parse_words_loop_fuel`). -/
def parse_words (line : List Char) (ignore_parse_errors : Bool) : Option parsed_words_t :=
  if scu_is_empty_str (some line) then none
  else
    match parse_words_loop line ignore_parse_errors (line.length + 1) 0
        { words := [], word_count := 0 } with
    | some (true, words) => some (reverse_word_order words)
    | _ => none

/-! ## `sct_core.c`: the command registry -/

/-- The constant `SCT_MAX_ARGS`. -/
def SCT_MAX_ARGS : Nat := 2

/-- The type `sct_exec_cb_t`, a pointer to a callback: NULL or the identity of
a function. -/
abbrev sct_exec_cb_t := Option Nat

/-- The structure `sct_command_t` (without the `next` link).  `args` is the
array `args[SCT_MAX_ARGS]`. -/
structure sct_command_t where
  name : Option (List Char)
  exec_fn : sct_exec_cb_t
  args : List sct_arg_t
  argc : Nat
  deriving DecidableEq, Repr

/-- The structure `sct_core_t` behind `g_core`, with the command blocks it
points to.  `heap` holds the blocks that `create_and_install_command` has
allocated, in allocation order, and a pointer to a command is its position in
`heap`.  `commands` is the linked list `g_core->commands` as the sequence of
pointers met by following `next`; `cmd_idx` is the array of pointers
`g_core->cmd_idx`. -/
structure sct_core_t where
  heap : List sct_command_t
  commands : List Nat
  cmd_idx : List Nat
  cmd_count : Nat
  deriving DecidableEq, Repr

/-- An argument block after `memset(..., 0, ...)`. -/
def zero_arg : sct_arg_t :=
  { kind := sct_arg_kind_t.SA_FILENAME, optional := false, value := none }

/-- A command block after `memset(command, 0, sz)`. -/
def zero_command : sct_command_t :=
  { name := none, exec_fn := none, args := List.replicate SCT_MAX_ARGS zero_arg, argc := 0 }

/-- The command that the pointer `p` points to. -/
def deref (core : sct_core_t) (p : Nat) : sct_command_t :=
  core.heap.getD p zero_command

/-- The library function `strcmp` on two strings.  C fixes the sign of the
result only: negative, zero or positive as the first string is less than,
equal to or greater than the second, the bytes compared as unsigned values. -/
def strcmp : List Char → List Char → Int
  | [], [] => 0
  | [], _ :: _ => -1
  | _ :: _, [] => 1
  | a :: as, b :: bs =>
    if a = b then strcmp as bs
    else if a.toNat < b.toNat then -1
    else 1

/-- The name of the command at `p` as `strcmp` reads it.  A NULL name (stored
for an empty name by `scu_strdup`) makes `strcmp` undefined in C; it is read as
the empty string here. -/
def name_at (core : sct_core_t) (p : Nat) : List Char :=
  ((deref core p).name).getD []

/-- The function `cmp_cmds` on two entries of the index. -/
def cmp_cmds (core : sct_core_t) (a b : Nat) : Int :=
  strcmp (name_at core a) (name_at core b)

/-- The library function `qsort` on an array of pointers.  The C library
promises an arrangement of the same entries that ascends under `cmp` and leaves
the order of entries that compare equal open; insertion sort stands for it. -/
def qsort (cmp : Nat → Nat → Int) (base : List Nat) : List Nat :=
  base.insertionSort (fun a b => cmp a b ≤ 0)

/-- The function `create_and_install_command`: the new registry and the
pointer to the new command (`malloc` succeeds).  The new block is pushed on the
list, the count goes up by one, and the index is written again from the list
and sorted. -/
def create_and_install_command (core : sct_core_t) (name : List Char) : sct_core_t × Nat :=
  let command := core.heap.length
  let core1 : sct_core_t :=
    { heap := core.heap ++ [{ zero_command with name := scu_strdup (some name) }]
      commands := command :: core.commands
      cmd_idx := core.cmd_idx
      cmd_count := core.cmd_count + 1 }
  ({ core1 with cmd_idx := qsort (cmp_cmds core1) core1.commands }, command)

/-- The loop of `get_command_by_name` over the entries `cmd_idx[i]`. -/
def get_command_by_name_loop (core : sct_core_t) (name : List Char) : List Nat → Option Nat
  | [] => none
  | p :: rest =>
    if strcmp (name_at core p) name = 0 then some p
    else get_command_by_name_loop core name rest

/-- The function `get_command_by_name`: the pointer found, or `none` for NULL.
The loop reads the first `cmd_count` entries of the index. -/
def get_command_by_name (core : sct_core_t) (name : List Char) : Option Nat :=
  get_command_by_name_loop core name (core.cmd_idx.take core.cmd_count)

/-- The loop of `reset_command_args` on the array `args`: the first `argc`
entries lose their value. -/
def reset_args : Nat → List sct_arg_t → List sct_arg_t
  | 0, args => args
  | _ + 1, [] => []
  | argc + 1, a :: rest => { a with value := none } :: reset_args argc rest

/-- The function `reset_command_args` on the command at `cmd`. -/
def reset_command_args (core : sct_core_t) (cmd : Nat) : sct_core_t :=
  { core with
    heap := core.heap.set cmd
      { deref core cmd with args := reset_args (deref core cmd).argc (deref core cmd).args } }

/-- The function `sct_initialize`: `g_core` after `memset(g_core, 0, ...)`. -/
def sct_initialize : sct_core_t :=
  { heap := [], commands := [], cmd_idx := [], cmd_count := 0 }

/-- The first loop of `sct_add_command` from entry `i` on, with the current
value of `had_opt`: false when the loop returns false (a required argument
after an optional one). -/
def check_optional_order : List sct_arg_t → Bool → Bool
  | [], _ => true
  | a :: rest, had_opt =>
    if a.optional then check_optional_order rest true
    else if had_opt then false
    else check_optional_order rest had_opt

/-- The last loop of `sct_add_command`, `command->args[i] = args[i]`, from
entry `i` on.  A store past the end of the array `command->args` is outside
the array; it is dropped here. -/
def copy_args : List sct_arg_t → List sct_arg_t → Nat → List sct_arg_t
  | dst, [], _ => dst
  | dst, a :: rest, i => copy_args (dst.set i a) rest (i + 1)

/-- The function `sct_add_command`: the new registry and the result.  `args` is
the array of the `argc` specifications, so `argc` is its length. -/
def sct_add_command (core : sct_core_t) (name : List Char) (args : List sct_arg_t)
    (exec_fn : sct_exec_cb_t) : sct_core_t × Bool :=
  if check_optional_order args false = false then (core, false)
  else if (get_command_by_name core name).isSome then (core, false)
  else
    let installed := create_and_install_command core name
    let core1 := installed.1
    let command := installed.2
    ({ core1 with
       heap := core1.heap.set command
         { deref core1 command with
           exec_fn := exec_fn
           argc := args.length
           args := copy_args (deref core1 command).args args 0 } }, true)

/-! ## `sct_core.c`: command parser and dispatcher -/

/-- The loop of `command_from_words` over the words after the first, on the
array `args` of a command with `argc` slots.  `arg_idx` is an `int`; a
negative one would store before the array and is dropped here. -/
def bind_words (argc : Nat) : List arg_word_t → List sct_arg_t → List sct_arg_t
  | [], args => args
  | word :: rest, args =>
    let arg_idx : Int := (word.index : Int) - 1
    if arg_idx ≥ (argc : Int) then args
    else if arg_idx < 0 then bind_words argc rest args
    else
      bind_words argc rest
        (args.modify (fun arg => { arg with value := scu_strdup word.text }) arg_idx.toNat)

/-- The function `command_from_words`: the new registry (the values of the
command found are written again) and the pointer to the command, `none` for
NULL.  A NULL text of the first word would make `strcmp` undefined; it is
read as the empty string. -/
def command_from_words (core : sct_core_t) (words : parsed_words_t) :
    sct_core_t × Option Nat :=
  if words.word_count > 0 then
    match words.words with
    | [] => (core, none)
    | first :: rest =>
      match get_command_by_name core (first.text.getD []) with
      | none => (core, none)
      | some command =>
        let core1 := reset_command_args core command
        ({ core1 with
           heap := core1.heap.set command
             { deref core1 command with
               args := bind_words (deref core1 command).argc rest (deref core1 command).args } },
          some command)
  else (core, none)

/-- The loop of `parse_final_command` over the slots `args[i]`, `i < argc`,
given as the list of these slots: whether all were valid, and `err_printed`. -/
def validate_args (st : utils_state) (fs : filesystem) :
    List sct_arg_t → Bool → Bool × Bool
  | [], err_printed => (true, err_printed)
  | arg :: rest, err_printed =>
    let r := validate_arg st fs arg err_printed
    if r.1 = false then (false, r.2)
    else validate_args st fs rest r.2

/-- What the dispatcher does that can be seen from outside: a line written by
`parse_final_command` itself, a line handed to `add_history`, a call of a
callback with the array `args` and `argc`.  The lines that the validators
write on their own (`Empty name.`, `perror`) are not listed; `err_printed`
stands for them. -/
inductive sct_event where
  | print (msg : String)
  | history (line : List Char)
  | exec (fn : sct_exec_cb_t) (args : List sct_arg_t) (argc : Nat)
  deriving DecidableEq, Repr

/-- The function `parse_final_command`: the new registry, the pointer returned
(`none` for NULL) and what was printed. -/
def parse_final_command (st : utils_state) (fs : filesystem) (core : sct_core_t)
    (line : List Char) : sct_core_t × Option Nat × List sct_event :=
  match parse_words line false with
  | none => (core, none, [sct_event.print "Error while parsing command.\n"])
  | some words =>
    match command_from_words core words with
    | (core1, none) => (core1, none, [sct_event.print "Unrecognized command.\n"])
    | (core1, some command) =>
      let r := validate_args st fs ((deref core1 command).args.take (deref core1 command).argc)
        false
      if r.1 = true then (core1, some command, [])
      else if r.2 = true then (core1, none, [])
      else (core1, none, [sct_event.print "Invalid argument(s).\n"])

/-- The function `sct_run` on the lines that `readline` returns one after the
other (`none` is NULL, the end of input).  `terminates` tells, for a call of a
callback, whether `sct_request_terminate` has been called when it returns;
callbacks leave the registry and the filesystem as they are.  The result is
the final registry, what happened, and the lines not read. -/
def sct_run (st : utils_state) (fs : filesystem)
    (terminates : sct_exec_cb_t → List sct_arg_t → Nat → Bool) :
    sct_core_t → Bool → List (Option (List Char)) →
      sct_core_t × List sct_event × List (Option (List Char))
  | core, _, [] => (core, [], [])
  | core, g_request_terminate, line :: rest =>
    if g_request_terminate then (core, [], line :: rest)
    else if scu_is_empty_str line then (core, [], rest)
    else
      let r := parse_final_command st fs core (line.getD [])
      match r.2.1 with
      | some command =>
        let c := deref r.1 command
        let next := sct_run st fs terminates r.1 (terminates c.exec_fn c.args c.argc) rest
        (next.1, sct_event.history (line.getD []) :: (r.2.2 ++
          sct_event.exec c.exec_fn c.args c.argc :: next.2.1), next.2.2)
      | none =>
        let next := sct_run st fs terminates r.1 false rest
        (next.1, sct_event.history (line.getD []) :: (r.2.2 ++ next.2.1), next.2.2)

/-- The function `sct_init_builtin_commands`; the callbacks `ls_exec`,
`cd_exec`, `pwd_exec`, `grep_exec`, `ping_exec`, `cp_exec` are 1 to 6. -/
def sct_init_builtin_commands (core : sct_core_t) : sct_core_t :=
  let a0 : sct_arg_t := { kind := sct_arg_kind_t.SA_FILE_OR_DIR_NAME, optional := true, value := none }
  let a1 : sct_arg_t := zero_arg
  let core := (sct_add_command core "ls".toList [a0] (some 1)).1
  let a0 := { a0 with kind := sct_arg_kind_t.SA_DIRNAME, optional := false }
  let core := (sct_add_command core "cd".toList [a0] (some 2)).1
  let core := (sct_add_command core "pwd".toList [] (some 3)).1
  let a0 := { a0 with kind := sct_arg_kind_t.SA_TEXT }
  let a1 := { a1 with kind := sct_arg_kind_t.SA_FILENAME, optional := false, value := none }
  let core := (sct_add_command core "grep".toList [a0, a1] (some 4)).1
  let a0 := { a0 with kind := sct_arg_kind_t.SA_INETNAME }
  let core := (sct_add_command core "ping".toList [a0] (some 5)).1
  let a0 := { a0 with kind := sct_arg_kind_t.SA_FILENAME }
  let a1 := { a1 with kind := sct_arg_kind_t.SA_NEW_FILENAME }
  (sct_add_command core "cp".toList [a0, a1] (some 6)).1

/-! ## `sct_core.c`: TAB completions -/

/-- The enumeration `complete_kind_t`. -/
inductive complete_kind_t where
  | CK_FILENAME
  | CK_COMMAND_NAME
  | CK_NONE
  deriving DecidableEq, Repr

/-- The loop of `word_index_from_str_pos` over the words from `word` on; `pos`
is an `int`. -/
def word_index_from_str_pos_loop (word_count : Nat) (pos : Int) : List arg_word_t → Nat
  | [] => word_count
  | word :: next =>
    if pos < (word.end_ : Int) then word.index
    else word_index_from_str_pos_loop word_count pos next

/-- The function `word_index_from_str_pos`. -/
def word_index_from_str_pos (words : parsed_words_t) (pos : Int) : Nat :=
  word_index_from_str_pos_loop words.word_count pos words.words

/-- The `switch` of `resolve_comletion_kind` on the kind of the slot. -/
def kind_to_complete_kind : sct_arg_kind_t → complete_kind_t
  | sct_arg_kind_t.SA_FILENAME => complete_kind_t.CK_FILENAME
  | sct_arg_kind_t.SA_NEW_FILENAME => complete_kind_t.CK_FILENAME
  | sct_arg_kind_t.SA_FILE_OR_DIR_NAME => complete_kind_t.CK_FILENAME
  | sct_arg_kind_t.SA_DIRNAME => complete_kind_t.CK_FILENAME
  | _ => complete_kind_t.CK_NONE

/-- The function `resolve_comletion_kind` (the name is spelled so in the
source) on the line buffer `rl_line_buffer`: the new registry
(`command_from_words` writes the values of the command found again) and the
kind.  A slot `args[arg_idx]` with `arg_idx < argc` lies inside the array in
every registry whose commands have `argc ≤ SCT_MAX_ARGS`; outside the array the
read is not defined in C and gives `CK_NONE` here. -/
def resolve_comletion_kind (core : sct_core_t) (rl_line_buffer : List Char) (start : Int) :
    sct_core_t × complete_kind_t :=
  match parse_words rl_line_buffer true with
  | none => (core, complete_kind_t.CK_COMMAND_NAME)
  | some words =>
    let word_idx := word_index_from_str_pos words start
    if word_idx > 0 then
      match command_from_words core words with
      | (core1, some command) =>
        let arg_idx := word_idx - 1
        if arg_idx ≥ (deref core1 command).argc then (core1, complete_kind_t.CK_NONE)
        else
          match (deref core1 command).args[arg_idx]? with
          | some arg => (core1, kind_to_complete_kind arg.kind)
          | none => (core1, complete_kind_t.CK_NONE)
      | (core1, none) => (core1, complete_kind_t.CK_NONE)
    else (core, complete_kind_t.CK_COMMAND_NAME)

/-- The library function `strncmp` on two strings and a count: the sign of the
result, as for `strcmp`, over at most `n` characters. -/
def strncmp : List Char → List Char → Nat → Int
  | _, _, 0 => 0
  | [], [], _ + 1 => 0
  | [], _ :: _, _ + 1 => -1
  | _ :: _, [], _ + 1 => 1
  | a :: as, b :: bs, n + 1 =>
    if a = b then strncmp as bs n
    else if a.toNat < b.toNat then -1
    else 1

/-- The two `static` variables of `command_names_provider`. -/
structure provider_state where
  list_index : Nat
  len : Nat
  deriving DecidableEq, Repr

/-- The loop of `command_names_provider` over the entries `cmd_idx[list_index]`
that are left, given as a list: the new value of `list_index` and the result
(`none` is NULL). -/
def command_names_provider_loop (core : sct_core_t) (text : List Char) (len : Nat) :
    List Nat → Nat → Nat × Option (List Char)
  | [], list_index => (list_index, none)
  | p :: rest, list_index =>
    if strncmp (name_at core p) text len = 0 then
      (list_index + 1, scu_strdup (some (name_at core p)))
    else command_names_provider_loop core text len rest (list_index + 1)

/-- The function `command_names_provider`: the new values of the static
variables and the result (`none` is NULL). -/
def command_names_provider (core : sct_core_t) (st : provider_state) (text : List Char)
    (state : Int) : provider_state × Option (List Char) :=
  let st1 : provider_state :=
    if state = 0 then { list_index := 0, len := text.length } else st
  let r := command_names_provider_loop core text st1.len
    ((core.cmd_idx.take core.cmd_count).drop st1.list_index) st1.list_index
  ({ st1 with list_index := r.1 }, r.2)

/-! ## Auxiliary definitions for the statements -/

/-- The characters that `scu_initialize_utils` removes from the filename table. -/
def filename_denylist : List Char := "<>|&".toList

/-- A block of memory that holds zero everywhere. -/
def zero_mem : Mem := fun _ => 0

/-- A block of memory that holds one everywhere. -/
def ones_mem : Mem := fun _ => 1

/-- A block of memory that holds zero except for one stale byte at offset 36,
the code of `$`. -/
def stale_mem : Mem := fun i => if i = 36 then 1 else 0

/-- The filesystem in which `a|b` is a regular file and nothing else exists. -/
def fs_with_pipe_file : filesystem :=
  fun path => if path = "a|b".toList then some file_type.regular else none

/-- An ASCII letter. -/
def ascii_letter (c : Char) : Prop :=
  (65 ≤ c.toNat ∧ c.toNat ≤ 90) ∨ (97 ≤ c.toNat ∧ c.toNat ≤ 122)

/-- An ASCII digit. -/
def ascii_digit (c : Char) : Prop :=
  48 ≤ c.toNat ∧ c.toNat ≤ 57

instance (c : Char) : Decidable (ascii_letter c) := by
  unfold ascii_letter
  infer_instance

instance (c : Char) : Decidable (ascii_digit c) := by
  unfold ascii_digit
  infer_instance

/-- In the string `s` the character at offset `k` is the quote `qt`, the
character before it is not a backslash, and the character after it is a space,
a tab or the end of the string. -/
def closing_at (qt : Char) (s : List Char) (k : Nat) : Prop :=
  s[k]? = some qt ∧ s[k - 1]? ≠ some BACKSLASH ∧
    (s[k + 1]? = none ∨ ∃ d, s[k + 1]? = some d ∧ is_whitespace d = true)

/-- The word `w` is the word that an iteration of the loop of `parse_words`
pushes when it stops at the offset `w.start` of `line`: the character there is
not a space or tab, and the word is `n` characters long, where `n` is what
`find_word_break` gives or, when that fails and errors are ignored, what
`find_whitespace_word_break` gives. -/
def is_word_at (line : List Char) (ig : Bool) (w : arg_word_t) : Prop :=
  ∃ n c, 1 ≤ n ∧ w.start + n ≤ line.length ∧ w = new_word line w.start (w.start + n) ∧
    (line)[w.start]? = some c ∧ is_whitespace c = false ∧
    (find_word_break (line.drop w.start) = some n ∨
      (ig = true ∧ find_word_break (line.drop w.start) = none ∧
        n = find_whitespace_word_break (line.drop w.start)))

instance closing_at_decidable (qt : Char) (s : List Char) (k : Nat) :
    Decidable (closing_at qt s k) :=
  decidable_of_iff
    (s[k]? = some qt ∧ s[k - 1]? ≠ some BACKSLASH ∧ (s[k + 1]?).all is_whitespace = true)
    (by
      unfold closing_at
      cases s[k + 1]? <;> simp)

/-- The hostname class of the specification: ASCII letters, digits, `-`, `_`
and `.`. -/
def spec_hostname_char (c : Char) : Prop :=
  ascii_letter c ∨ ascii_digit c ∨ c = '-' ∨ c = '_' ∨ c = '.'

/-- The IPv4 class of the specification: digits and `.`. -/
def spec_ip4_char (c : Char) : Prop :=
  ascii_digit c ∨ c = '.'

/-- The IPv6 class of the specification: digits, `a`-`f`, `A`-`F` and `:`. -/
def spec_ip6_char (c : Char) : Prop :=
  ascii_digit c ∨ (97 ≤ c.toNat ∧ c.toNat ≤ 102) ∨ (65 ≤ c.toNat ∧ c.toNat ≤ 70) ∨ c = ':'

/-- The `HostOrIp` rule of the specification: a non-empty value whose
characters all lie in one of the three classes. -/
def spec_host_or_ip (s : List Char) : Prop :=
  s ≠ [] ∧ ((∀ c ∈ s, spec_hostname_char c) ∨ (∀ c ∈ s, spec_ip4_char c) ∨
    (∀ c ∈ s, spec_ip6_char c))

instance (c : Char) : Decidable (spec_hostname_char c) := by
  unfold spec_hostname_char
  infer_instance

instance (c : Char) : Decidable (spec_ip4_char c) := by
  unfold spec_ip4_char
  infer_instance

instance (c : Char) : Decidable (spec_ip6_char c) := by
  unfold spec_ip6_char
  infer_instance

instance (s : List Char) : Decidable (spec_host_or_ip s) := by
  unfold spec_host_or_ip
  infer_instance

/-- The state of the registry is consistent: the index has `cmd_count` entries,
holds the pointers of the command list in some order, ascends strictly under
`cmp_cmds`; every pointer of the list points to an allocated block, and every
command has a non-empty name. -/
def registry_ok (core : sct_core_t) : Prop :=
  core.cmd_idx.length = core.cmd_count ∧
    core.cmd_idx.Perm core.commands ∧
    core.cmd_idx.Pairwise (fun a b => cmp_cmds core a b < 0) ∧
    (∀ p ∈ core.commands, p < core.heap.length) ∧
    (∀ p ∈ core.commands, ∃ n, (deref core p).name = some n ∧ n ≠ [])

/-- The registry states that `sct_initialize` followed by calls of
`sct_add_command` can produce, the calls being made with a non-empty name and
at most `SCT_MAX_ARGS` specifications; a call may succeed or not. -/
inductive reachable : sct_core_t → Prop where
  | init : reachable sct_initialize
  | add (core : sct_core_t) (name : List Char) (args : List sct_arg_t)
      (exec_fn : sct_exec_cb_t) :
      reachable core → name ≠ [] → args.length ≤ SCT_MAX_ARGS →
      reachable (sct_add_command core name args exec_fn).1

/-- In the list of specifications a required one follows an optional one. -/
def required_after_optional (args : List sct_arg_t) : Prop :=
  ∃ (i j : Nat) (a b : sct_arg_t), i < j ∧ args[i]? = some a ∧ args[j]? = some b ∧
    a.optional = true ∧ b.optional = false

/-- The calls of callbacks among the events. -/
def exec_events : List sct_event → List sct_event
  | [] => []
  | sct_event.exec fn args argc :: rest => sct_event.exec fn args argc :: exec_events rest
  | _ :: rest => exec_events rest

/-- The registry after `sct_initialize` and the registration of `cp` with the
specifications of an existing file and a new file, both required. -/
def registry_with_cp : sct_core_t :=
  (sct_add_command sct_initialize "cp".toList
    [{ kind := sct_arg_kind_t.SA_FILENAME, optional := false, value := none },
     { kind := sct_arg_kind_t.SA_NEW_FILENAME, optional := false, value := none }] (some 6)).1

/-- The filesystem in which `a b.txt` is a regular file and nothing else
exists. -/
def fs_with_ab_file : filesystem :=
  fun path => if path = "a b.txt".toList then some file_type.regular else none

/-- The string `s` stands between a pair of quotes: it is longer than one
character, its first character is `'` or `"`, and its last character is the
same as its first. -/
def enclosed_in_quotes (s : List Char) : Prop :=
  1 < s.length ∧ (s[0]? = some SQUOTE ∨ s[0]? = some DQUOTE) ∧ s[s.length - 1]? = s[0]?

instance (s : List Char) : Decidable (enclosed_in_quotes s) := by
  unfold enclosed_in_quotes
  infer_instance

/-- Every command of the list has at most `SCT_MAX_ARGS` slots, and its array
has `SCT_MAX_ARGS` entries. -/
def args_in_bounds (core : sct_core_t) : Prop :=
  ∀ p ∈ core.commands,
    (deref core p).argc ≤ SCT_MAX_ARGS ∧ (deref core p).args.length = SCT_MAX_ARGS

/-- The completion kind in the words of the specification.  The buffer is
tokenized leniently; `k` is the place of the first word whose end exceeds
`pos`, or the number of words when there is none.  With `k = 0` the kind is
the command name; otherwise word 0 must be the name of a command of the
registry, `k - 1` must be below its number of slots, and the kind of the slot
`k - 1` decides. -/
def spec_completion_kind (core : sct_core_t) (buffer : List Char) (pos : Int) :
    complete_kind_t :=
  let words : List arg_word_t :=
    match parse_words buffer true with
    | some pw => pw.words
    | none => []
  let k := words.findIdx (fun w => decide (pos < (w.end_ : Int)))
  if k = 0 then complete_kind_t.CK_COMMAND_NAME
  else
    match words.head? with
    | none => complete_kind_t.CK_NONE
    | some w0 =>
      match core.commands.find? (fun p => decide ((deref core p).name = w0.text)) with
      | none => complete_kind_t.CK_NONE
      | some p =>
        if k - 1 ≥ (deref core p).argc then complete_kind_t.CK_NONE
        else
          match ((deref core p).args.take (deref core p).argc)[k - 1]? with
          | none => complete_kind_t.CK_NONE
          | some spec =>
            if spec.kind = sct_arg_kind_t.SA_FILENAME ∨
                spec.kind = sct_arg_kind_t.SA_NEW_FILENAME ∨
                spec.kind = sct_arg_kind_t.SA_FILE_OR_DIR_NAME ∨
                spec.kind = sct_arg_kind_t.SA_DIRNAME then complete_kind_t.CK_FILENAME
            else complete_kind_t.CK_NONE

/-- One completion session: the names that `command_names_provider` returns
when it is called with `state` first and with a non-zero state after that,
until it returns NULL.  `fuel` bounds the number of calls (`none`: more calls
were needed). -/
def provider_session (core : sct_core_t) (text : List Char) :
    Nat → provider_state → Int → Option (List (List Char))
  | 0, _, _ => none
  | fuel + 1, st, state =>
    match command_names_provider core st text state with
    | (_, none) => some []
    | (st1, some name) => (provider_session core text fuel st1 1).map (fun l => name :: l)

/-- The names of the commands of the registry. -/
def registered_name (core : sct_core_t) (n : List Char) : Prop :=
  ∃ p ∈ core.commands, (deref core p).name = some n

instance (core : sct_core_t) : Decidable (args_in_bounds core) := by
  unfold args_in_bounds
  infer_instance

/-! ## Facts about the character tables -/

theorem filename_mask_eval (m4 mh m6 mf : Mem) (i : Int) :
    (scu_initialize_utils m4 mh m6 mf).g_filename_mask i =
      if i = 38 ∨ i = 124 ∨ i = 62 ∨ i = 60 then 0
      else if 0 ≤ i ∧ i < 256 then 1 else mf i := by
  have h1 : char_index '<' = 60 := by decide
  have h2 : char_index '>' = 62 := by decide
  have h3 : char_index '|' = 124 := by decide
  have h4 : char_index '&' = 38 := by decide
  have hl : "<>|&".toList = ['<', '>', '|', '&'] := rfl
  simp only [scu_initialize_utils, build_match_mask, set_chars, memset, mem_set, hl,
    List.foldl, h1, h2, h3, h4]
  split_ifs with ha hb hc hd he <;> simp_all [memset]

theorem char_index_of_ascii (c : Char) (h : c.toNat < 128) :
    char_index c = (c.toNat : Int) := by
  simp [char_index, h]

theorem mem_filename_denylist (c : Char) :
    c ∈ filename_denylist ↔ c = '<' ∨ c = '>' ∨ c = '|' ∨ c = '&' := by
  have hl : filename_denylist = ['<', '>', '|', '&'] := rfl
  simp [hl]

theorem filename_mask_denied (m4 mh m6 mf : Mem) (c : Char) (hc : c ∈ filename_denylist) :
    (scu_initialize_utils m4 mh m6 mf).g_filename_mask (char_index c) = 0 := by
  have h1 : char_index '<' = 60 := by decide
  have h2 : char_index '>' = 62 := by decide
  have h3 : char_index '|' = 124 := by decide
  have h4 : char_index '&' = 38 := by decide
  rw [filename_mask_eval]
  rcases (mem_filename_denylist c).1 hc with h | h | h | h <;> subst h <;> simp [h1, h2, h3, h4]

theorem toNat_ne_of_ne (c d : Char) (h : c ≠ d) : c.toNat ≠ d.toNat := by
  intro e
  apply h
  have := congrArg Char.ofNat e
  simpa [Char.ofNat_toNat] using this

theorem filename_mask_allowed (m4 mh m6 mf : Mem) (c : Char) (hascii : c.toNat < 128)
    (hc : c ∉ filename_denylist) :
    (scu_initialize_utils m4 mh m6 mf).g_filename_mask (char_index c) = 1 := by
  rw [filename_mask_eval, char_index_of_ascii c hascii]
  rw [mem_filename_denylist] at hc
  push_neg at hc
  obtain ⟨n1, n2, n3, n4⟩ := hc
  have e1 := toNat_ne_of_ne _ _ n1
  have e2 := toNat_ne_of_ne _ _ n2
  have e3 := toNat_ne_of_ne _ _ n3
  have e4 := toNat_ne_of_ne _ _ n4
  have t1 : ('<' : Char).toNat = 60 := by decide
  have t2 : ('>' : Char).toNat = 62 := by decide
  have t3 : ('|' : Char).toNat = 124 := by decide
  have t4 : ('&' : Char).toNat = 38 := by decide
  rw [t1] at e1
  rw [t2] at e2
  rw [t3] at e3
  rw [t4] at e4
  have k : ¬ (((c.toNat : Int) = 38) ∨ ((c.toNat : Int) = 124) ∨ ((c.toNat : Int) = 62) ∨
      ((c.toNat : Int) = 60)) := by omega
  rw [if_neg k, if_pos (by omega)]

theorem scu_is_empty_str_cons (c : Char) (cs : List Char) :
    scu_is_empty_str (some (c :: cs)) = false := by
  have key : ∀ l : List Char, scu_is_empty_str_loop l = false := by
    intro l
    induction l with
    | nil => rfl
    | cons a as ih =>
      simp only [scu_is_empty_str_loop]
      split_ifs <;> simp [ih]
  simp [scu_is_empty_str, key]

theorem scu_is_empty_str_of_ne_nil (s : List Char) (h : s ≠ []) :
    scu_is_empty_str (some s) = false := by
  cases s with
  | nil => exact absurd rfl h
  | cons c cs => exact scu_is_empty_str_cons c cs

theorem scu_validate_filename_eq (st : utils_state) (s : List Char) (h : s ≠ []) :
    scu_validate_filename st s = match_mask s st.g_filename_mask := by
  simp [scu_validate_filename, scu_is_empty_str_of_ne_nil s h]

theorem mem_set_apply (m : Mem) (i : Int) (v : Nat) (j : Int) :
    mem_set m i v j = if j = i then v else m j := rfl

theorem set_alpha_apply (m : Mem) (j : Int) :
    set_alpha m j = if (65 ≤ j ∧ j ≤ 90) ∨ (97 ≤ j ∧ j ≤ 122) then 1 else m j := by
  simp only [set_alpha, isalpha, int_to_char, Bool.or_eq_true, Bool.and_eq_true,
    decide_eq_true_eq]
  split_ifs <;> first | rfl | omega

theorem set_digits_apply (m : Mem) (j : Int) :
    set_digits m j = if 48 ≤ j ∧ j ≤ 57 then 1 else m j := by
  by_cases hd : 48 ≤ j ∧ j ≤ 57
  · rw [if_pos hd]
    obtain ⟨h1, h2⟩ := hd
    interval_cases j <;> rfl
  · rw [if_neg hd]
    simp only [set_digits, mem_set_apply]
    iterate 10 rw [if_neg (by omega)]

theorem set_chars_apply (m : Mem) (cs : List Char) (v : Nat) (j : Int) :
    set_chars m cs v j = if j ∈ cs.map char_index then v else m j := by
  induction cs generalizing m with
  | nil => simp [set_chars]
  | cons c cs ih =>
    have e : set_chars m (c :: cs) v = set_chars (mem_set m (char_index c) v) cs v := rfl
    rw [e, ih, mem_set_apply]
    simp only [List.map_cons, List.mem_cons]
    split_ifs with h1 h2 h3 h4 <;> first | rfl | (exfalso; tauto)

theorem ip4_mask_eval (m4 mh m6 mf : Mem) (i : Int) :
    (scu_initialize_utils m4 mh m6 mf).g_ip4_mask i =
      if i = 46 ∨ (48 ≤ i ∧ i ≤ 57) then 1 else if i = 0 then 0 else m4 i := by
  have hl : (".".toList).map char_index = [46] := by decide
  simp only [scu_initialize_utils, build_match_mask, Bool.false_eq_true, if_false, if_true,
    set_chars_apply, hl, set_digits_apply, List.map_nil, List.not_mem_nil, List.mem_singleton]
  unfold memset
  split_ifs <;> first | rfl | omega

theorem hostname_mask_eval (m4 mh m6 mf : Mem) (i : Int) :
    (scu_initialize_utils m4 mh m6 mf).g_hostname_mask i =
      if i = 45 ∨ i = 95 ∨ i = 46 ∨ (65 ≤ i ∧ i ≤ 90) ∨ (97 ≤ i ∧ i ≤ 122) ∨
          (48 ≤ i ∧ i ≤ 57) then 1
      else if i = 0 then 0 else mh i := by
  have hl : ("-_.".toList).map char_index = [45, 95, 46] := by decide
  simp only [scu_initialize_utils, build_match_mask, Bool.false_eq_true, if_false, if_true,
    set_chars_apply, hl, set_digits_apply, set_alpha_apply, List.map_nil, List.not_mem_nil,
    List.mem_cons, or_false]
  unfold memset
  split_ifs <;> first | rfl | omega

theorem ip6_mask_eval (m4 mh m6 mf : Mem) (i : Int) :
    (scu_initialize_utils m4 mh m6 mf).g_ip6_mask i =
      if i = 58 ∨ (97 ≤ i ∧ i ≤ 102) ∨ (65 ≤ i ∧ i ≤ 70) ∨ (48 ≤ i ∧ i ≤ 57) then 1
      else if i = 0 then 0 else m6 i := by
  have hl : (":abcdefABCDEF".toList).map char_index =
      [58, 97, 98, 99, 100, 101, 102, 65, 66, 67, 68, 69, 70] := by decide
  simp only [scu_initialize_utils, build_match_mask, Bool.false_eq_true, if_false, if_true,
    set_chars_apply, hl, set_digits_apply, List.map_nil, List.not_mem_nil, List.mem_cons,
    or_false]
  unfold memset
  split_ifs <;> first | rfl | omega

theorem char_eq_iff_toNat (c d : Char) : c = d ↔ c.toNat = d.toNat := by
  constructor
  · intro h
    rw [h]
  · intro h
    by_contra hne
    exact toNat_ne_of_ne c d hne h

theorem hostname_mask_cleared (c : Char) (hb : c.toNat < 256) :
    (scu_initialize_utils zero_mem zero_mem zero_mem zero_mem).g_hostname_mask (char_index c) ≠ 0 ↔
      spec_hostname_char c := by
  have t1 : ('-' : Char).toNat = 45 := by decide
  have t2 : ('_' : Char).toNat = 95 := by decide
  have t3 : ('.' : Char).toNat = 46 := by decide
  rw [hostname_mask_eval]
  simp only [spec_hostname_char, ascii_letter, ascii_digit, char_eq_iff_toNat, t1, t2, t3,
    char_index, zero_mem]
  split_ifs <;> simp <;> omega

theorem ip4_mask_cleared (c : Char) (hb : c.toNat < 256) :
    (scu_initialize_utils zero_mem zero_mem zero_mem zero_mem).g_ip4_mask (char_index c) ≠ 0 ↔
      spec_ip4_char c := by
  have t3 : ('.' : Char).toNat = 46 := by decide
  rw [ip4_mask_eval]
  simp only [spec_ip4_char, ascii_digit, char_eq_iff_toNat, t3, char_index, zero_mem]
  split_ifs <;> simp <;> omega

theorem ip6_mask_cleared (c : Char) (hb : c.toNat < 256) :
    (scu_initialize_utils zero_mem zero_mem zero_mem zero_mem).g_ip6_mask (char_index c) ≠ 0 ↔
      spec_ip6_char c := by
  have t3 : (':' : Char).toNat = 58 := by decide
  rw [ip6_mask_eval]
  simp only [spec_ip6_char, ascii_digit, char_eq_iff_toNat, t3, char_index, zero_mem]
  split_ifs <;> simp <;> omega

/-- With zero-filled blocks (the state in which the repository's test passes)
`scu_validate_hostname_or_ip` is the `HostOrIp` rule of the specification on
every string of bytes. -/
theorem scu_validate_hostname_or_ip_on_cleared_tables (s : List Char)
    (hb : ∀ c ∈ s, c.toNat < 256) :
    scu_validate_hostname_or_ip (scu_initialize_utils zero_mem zero_mem zero_mem zero_mem) s =
      true ↔ spec_host_or_ip s := by
  unfold spec_host_or_ip
  by_cases hne : s = []
  · subst hne
    simp [scu_validate_hostname_or_ip, scu_is_hostname, scu_is_ip4_name, scu_is_ip6_name,
      scu_is_empty_str]
  · have he := scu_is_empty_str_of_ne_nil s hne
    simp only [scu_validate_hostname_or_ip, scu_is_hostname, scu_is_ip4_name, scu_is_ip6_name, he,
      Bool.not_false, Bool.true_and, Bool.or_eq_true, match_mask, List.all_eq_true,
      decide_eq_true_eq, ne_eq, hne, not_false_eq_true, true_and]
    constructor
    · rintro ((h | h) | h)
      · exact Or.inl fun c hc => (hostname_mask_cleared c (hb c hc)).1 (h c hc)
      · exact Or.inr (Or.inl fun c hc => (ip4_mask_cleared c (hb c hc)).1 (h c hc))
      · exact Or.inr (Or.inr fun c hc => (ip6_mask_cleared c (hb c hc)).1 (h c hc))
    · rintro (h | h | h)
      · exact Or.inl (Or.inl fun c hc => (hostname_mask_cleared c (hb c hc)).2 (h c hc))
      · exact Or.inl (Or.inr fun c hc => (ip4_mask_cleared c (hb c hc)).2 (h c hc))
      · exact Or.inr fun c hc => (ip6_mask_cleared c (hb c hc)).2 (h c hc)

/-! ## Claims on the validators -/

/-- C1: evaluation of the code at the failing input.  `build_match_mask` clears
one byte of the allocated table, not 256, so an entry that no rule sets keeps
what the allocator left there; when the block of the IPv4 table has a non-zero
byte at the entry of `$`, the value `8.$8.8.8` passes
`scu_validate_hostname_or_ip`, although it is outside the three classes; with
zero-filled blocks the same value is rejected. -/
theorem C1_dollar_accepted_on_uncleared_table :
    scu_validate_hostname_or_ip (scu_initialize_utils stale_mem zero_mem zero_mem zero_mem)
        "8.$8.8.8".toList = true ∧
      ¬ spec_host_or_ip "8.$8.8.8".toList ∧
      scu_validate_hostname_or_ip (scu_initialize_utils zero_mem zero_mem zero_mem zero_mem)
        "8.$8.8.8".toList = false := by
  decide

/-- C2, counterexample: the value `a;b` passes `scu_validate_filename`, although
`;` is neither alphanumeric nor one of `.`, `-`, `_`. -/
theorem C2_semicolon_accepted :
    scu_validate_filename (scu_initialize_utils zero_mem zero_mem zero_mem zero_mem)
      "a;b".toList = true := by
  decide

/-- C2, amended: `scu_validate_filename` returns true only for a non-empty value
with none of `<`, `>`, `|`, `&`; and it accepts every non-empty value of ASCII
characters that has none of these four, whatever the other characters are. -/
theorem C2_filename_denylist_only (m4 mh m6 mf : Mem) (s : List Char) :
    (scu_validate_filename (scu_initialize_utils m4 mh m6 mf) s = true →
        s ≠ [] ∧ ∀ c ∈ s, c ∉ filename_denylist) ∧
      (s ≠ [] → (∀ c ∈ s, c.toNat < 128 ∧ c ∉ filename_denylist) →
        scu_validate_filename (scu_initialize_utils m4 mh m6 mf) s = true) := by
  constructor
  · intro hv
    have hne : s ≠ [] := by
      rintro rfl
      simp [scu_validate_filename, scu_is_empty_str] at hv
    refine ⟨hne, ?_⟩
    intro c hc hd
    rw [scu_validate_filename_eq _ s hne] at hv
    simp only [match_mask, List.all_eq_true, decide_eq_true_eq] at hv
    exact hv c hc (filename_mask_denied m4 mh m6 mf c hd)
  · intro hne hall
    rw [scu_validate_filename_eq _ s hne]
    simp only [match_mask, List.all_eq_true, decide_eq_true_eq]
    intro c hc
    rw [filename_mask_allowed m4 mh m6 mf c (hall c hc).1 (hall c hc).2]
    decide

/-- C2, amended, at the value `a;b` and at the value `a<b`. -/
theorem C2_filename_denylist_only_witness :
    scu_validate_filename (scu_initialize_utils ones_mem zero_mem ones_mem zero_mem)
        "a;b".toList = true ∧
      ¬ scu_validate_filename (scu_initialize_utils ones_mem zero_mem ones_mem zero_mem)
        "a<b".toList = true :=
  ⟨(C2_filename_denylist_only ones_mem zero_mem ones_mem zero_mem "a;b".toList).2
      (by decide) (by decide),
    fun h => (C2_filename_denylist_only ones_mem zero_mem ones_mem zero_mem "a<b".toList).1 h
      |>.2 '<' (by decide) (by decide)⟩

/-- C3: evaluation of the code at the failing input.  For the kind
`SA_FILENAME` `validate_arg` only asks the filesystem: the value `a|b`, the
name of an existing regular file, is accepted with its `|`. -/
theorem C3_existing_file_with_pipe_accepted :
    (validate_arg (scu_initialize_utils zero_mem zero_mem zero_mem zero_mem) fs_with_pipe_file
        { kind := sct_arg_kind_t.SA_FILENAME, optional := false, value := some "a|b".toList }
        false).1 = true ∧
      '|' ∈ "a|b".toList := by
  decide

/-- C4: `scu_validate_filename` rejects the empty string and every string with
one of `<`, `>`, `|`, `&`, and accepts every non-empty string of ASCII letters,
digits, `.`, `-` and `_`; this holds whatever the allocated blocks held. -/
theorem C4_filename_shape (m4 mh m6 mf : Mem) (s : List Char) :
    scu_validate_filename (scu_initialize_utils m4 mh m6 mf) [] = false ∧
      ((∃ c ∈ s, c = '<' ∨ c = '>' ∨ c = '|' ∨ c = '&') →
        scu_validate_filename (scu_initialize_utils m4 mh m6 mf) s = false) ∧
      (s ≠ [] →
        (∀ c ∈ s, ascii_letter c ∨ ascii_digit c ∨ c = '.' ∨ c = '-' ∨ c = '_') →
        scu_validate_filename (scu_initialize_utils m4 mh m6 mf) s = true) := by
  refine ⟨by simp [scu_validate_filename, scu_is_empty_str], ?_, ?_⟩
  · rintro ⟨c, hc, hd⟩
    have hne : s ≠ [] := List.ne_nil_of_mem hc
    rw [scu_validate_filename_eq _ s hne]
    have hz := filename_mask_denied m4 mh m6 mf c ((mem_filename_denylist c).2 hd)
    rw [Bool.eq_false_iff]
    intro hm
    simp only [match_mask, List.all_eq_true, decide_eq_true_eq] at hm
    exact hm c hc hz
  · intro hne hall
    rw [scu_validate_filename_eq _ s hne]
    simp only [match_mask, List.all_eq_true, decide_eq_true_eq]
    intro c hc
    have t1 : ('<' : Char).toNat = 60 := by decide
    have t2 : ('>' : Char).toNat = 62 := by decide
    have t3 : ('|' : Char).toNat = 124 := by decide
    have t4 : ('&' : Char).toNat = 38 := by decide
    have t5 : ('.' : Char).toNat = 46 := by decide
    have t6 : ('-' : Char).toNat = 45 := by decide
    have t7 : ('_' : Char).toNat = 95 := by decide
    have hn : c.toNat < 128 ∧ c.toNat ≠ 60 ∧ c.toNat ≠ 62 ∧ c.toNat ≠ 124 ∧ c.toNat ≠ 38 := by
      rcases hall c hc with h | h | h | h | h
      · unfold ascii_letter at h
        omega
      · unfold ascii_digit at h
        omega
      · subst h
        omega
      · subst h
        omega
      · subst h
        omega
    have hd : c ∉ filename_denylist := by
      rw [mem_filename_denylist]
      rintro (h | h | h | h) <;> subst h <;> omega
    rw [filename_mask_allowed m4 mh m6 mf c hn.1 hd]
    decide

/-- C4 at the names `my-file_1.txt` and `a&b`. -/
theorem C4_filename_shape_witness :
    scu_validate_filename (scu_initialize_utils ones_mem zero_mem ones_mem zero_mem)
        "my-file_1.txt".toList = true ∧
      scu_validate_filename (scu_initialize_utils ones_mem zero_mem ones_mem zero_mem)
        "a&b".toList = false :=
  ⟨(C4_filename_shape ones_mem zero_mem ones_mem zero_mem "my-file_1.txt".toList).2.2
      (by decide) (by decide),
    (C4_filename_shape ones_mem zero_mem ones_mem zero_mem "a&b".toList).2.1
      ⟨'&', by decide, by decide⟩⟩

/-! ## Facts about the scanning functions -/

theorem skip_whitespace_le (s : List Char) : skip_whitespace s ≤ s.length := by
  induction s with
  | nil => simp [skip_whitespace]
  | cons c cs ih =>
    simp only [skip_whitespace]
    split_ifs <;> simp
    omega

theorem skip_whitespace_stop (s : List Char) (c : Char) (cs : List Char)
    (h : s.drop (skip_whitespace s) = c :: cs) : is_whitespace c = false := by
  induction s with
  | nil => simp at h
  | cons a as ih =>
    simp only [skip_whitespace] at h
    split_ifs at h with hw
    · exact ih (by simpa using h)
    · simp only [List.drop_zero, List.cons.injEq] at h
      rw [← h.1]
      simpa using hw

theorem skip_whitespace_skipped (s : List Char) (i : Nat) (h : i < skip_whitespace s) :
    ∃ c, s[i]? = some c ∧ is_whitespace c = true := by
  induction s generalizing i with
  | nil => simp [skip_whitespace] at h
  | cons a as ih =>
    simp only [skip_whitespace] at h
    split_ifs at h with hw
    · cases i with
      | zero => exact ⟨a, by simp, hw⟩
      | succ j =>
        obtain ⟨c, hc, hcw⟩ := ih j (by omega)
        exact ⟨c, by simpa using hc, hcw⟩
    · omega

theorem find_whitespace_word_break_le (s : List Char) :
    find_whitespace_word_break s ≤ s.length := by
  induction s with
  | nil => simp [find_whitespace_word_break]
  | cons c cs ih =>
    simp only [find_whitespace_word_break]
    split_ifs <;> simp
    omega

theorem find_whitespace_word_break_pos (c : Char) (cs : List Char)
    (h : is_whitespace c = false) : 1 ≤ find_whitespace_word_break (c :: cs) := by
  simp [find_whitespace_word_break, h]

theorem find_whitespace_word_break_take (s : List Char) :
    s.take (find_whitespace_word_break s) = s.takeWhile (fun c => !is_whitespace c) := by
  induction s with
  | nil => simp [find_whitespace_word_break]
  | cons c cs ih =>
    simp only [find_whitespace_word_break]
    by_cases hw : is_whitespace c = true
    · simp [hw, List.takeWhile]
    · simp [hw, List.takeWhile, ih]

theorem find_whitespace_word_break_stop (s : List Char) :
    s[find_whitespace_word_break s]? = none ∨
      ∃ d, s[find_whitespace_word_break s]? = some d ∧ is_whitespace d = true := by
  induction s with
  | nil => simp [find_whitespace_word_break]
  | cons c cs ih =>
    simp only [find_whitespace_word_break]
    by_cases hw : is_whitespace c = true
    · right
      exact ⟨c, by simp [hw], hw⟩
    · simpa [hw] using ih

theorem find_quoted_loop_bound (qt : Char) (l : List Char) (off n : Nat)
    (h : find_quoted_loop qt l off = some n) : off < n ∧ n ≤ off + l.length := by
  induction l, off using find_quoted_loop.induct qt with
  | case1 x => simp [find_quoted_loop] at h
  | case2 off => simp [find_quoted_loop] at h
  | case3 off hq =>
    simp [find_quoted_loop, hq] at h
    subst h
    simp
  | case4 c off hc hq => simp [find_quoted_loop, hc, hq] at h
  | case5 rest off ih =>
    simp [find_quoted_loop] at h
    have := ih h
    simp only [List.length_cons]
    omega
  | case6 d rest off hd ih =>
    simp [find_quoted_loop, hd] at h
    have := ih h
    simp only [List.length_cons] at this ⊢
    omega
  | case7 d rest off hw hq =>
    simp [find_quoted_loop, hq, hw] at h
    simp only [List.length_cons]
    omega
  | case8 d rest off hw hq ih =>
    simp [find_quoted_loop, hq, hw] at h
    have := ih h
    simp only [List.length_cons] at this ⊢
    omega
  | case9 c d rest off hc hq ih =>
    simp [find_quoted_loop, hc, hq] at h
    have := ih h
    simp only [List.length_cons] at this ⊢
    omega

theorem find_word_break_bound (c : Char) (cs : List Char) (n : Nat)
    (hw : is_whitespace c = false) (h : find_word_break (c :: cs) = some n) :
    1 ≤ n ∧ n ≤ (c :: cs).length := by
  simp only [find_word_break] at h
  split_ifs at h with hq
  · simp only [find_quoted_word_break] at h
    have := find_quoted_loop_bound c cs 1 n h
    simp only [List.length_cons]
    omega
  · simp only [Option.some.injEq] at h
    subst h
    exact ⟨find_whitespace_word_break_pos c cs hw, find_whitespace_word_break_le _⟩

theorem find_quoted_loop_none (qt : Char) (hqt : qt ≠ BACKSLASH) (l : List Char) (off : Nat)
    (prev : Char) (hprev : prev = BACKSLASH → l.head? ≠ some qt)
    (hno : ∀ j, ¬ closing_at qt (prev :: l) (j + 1)) :
    find_quoted_loop qt l off = none := by
  induction l, off using find_quoted_loop.induct qt generalizing prev with
  | case1 x => simp [find_quoted_loop]
  | case2 off => simp [find_quoted_loop]
  | case3 off hq =>
    exfalso
    apply hno 0
    refine ⟨by simp, ?_, by simp⟩
    simp only [Nat.zero_add, Nat.sub_self, List.getElem?_cons_zero, ne_eq, Option.some.injEq]
    intro hp
    exact hprev hp (by simp)
  | case4 c off hc hq => simp [find_quoted_loop, hc, hq]
  | case5 rest off ih =>
    simp only [find_quoted_loop]
    simp only [if_true]
    apply ih qt (fun h => absurd h hqt)
    intro j hj
    apply hno (j + 2)
    obtain ⟨h1, h2, h3⟩ := hj
    refine ⟨by simpa using h1, by simpa using h2, by simpa using h3⟩
  | case6 d rest off hd ih =>
    simp only [find_quoted_loop, if_true, if_neg hd]
    apply ih BACKSLASH (fun _ => by simpa using hd)
    intro j hj
    apply hno (j + 1)
    obtain ⟨h1, h2, h3⟩ := hj
    refine ⟨by simpa using h1, by simpa using h2, by simpa using h3⟩
  | case7 d rest off hw hq =>
    exfalso
    apply hno 0
    refine ⟨by simp, ?_, Or.inr ⟨d, by simp, hw⟩⟩
    simp only [Nat.zero_add, Nat.sub_self, List.getElem?_cons_zero, ne_eq, Option.some.injEq]
    intro hp
    exact hprev hp (by simp)
  | case8 d rest off hw hq ih =>
    have e : find_quoted_loop qt (qt :: d :: rest) off = find_quoted_loop qt (d :: rest) (off + 1) := by
      simp [find_quoted_loop, hq, hw]
    rw [e]
    apply ih qt (fun h => absurd h hqt)
    intro j hj
    apply hno (j + 1)
    obtain ⟨h1, h2, h3⟩ := hj
    refine ⟨by simpa using h1, by simpa using h2, by simpa using h3⟩
  | case9 c d rest off hc hq ih =>
    have e : find_quoted_loop qt (c :: d :: rest) off = find_quoted_loop qt (d :: rest) (off + 1) := by
      simp [find_quoted_loop, hq, hc]
    rw [e]
    apply ih c (fun h => absurd h hc)
    intro j hj
    apply hno (j + 1)
    obtain ⟨h1, h2, h3⟩ := hj
    refine ⟨by simpa using h1, by simpa using h2, by simpa using h3⟩

theorem find_quoted_loop_some (qt : Char) (hqt : qt ≠ BACKSLASH) (l : List Char) (off : Nat)
    (prev : Char) (n : Nat) (hprev : prev = BACKSLASH → l.head? ≠ some qt)
    (h : find_quoted_loop qt l off = some n) :
    ∃ j, n = off + j + 1 ∧ closing_at qt (prev :: l) (j + 1) ∧
      ∀ i, i < j → ¬ closing_at qt (prev :: l) (i + 1) := by
  induction l, off using find_quoted_loop.induct qt generalizing prev with
  | case1 x => simp [find_quoted_loop] at h
  | case2 off => simp [find_quoted_loop] at h
  | case3 off hq =>
    simp [find_quoted_loop, hq] at h
    refine ⟨0, by omega, ⟨by simp, ?_, by simp⟩, fun i hi => absurd hi (Nat.not_lt_zero i)⟩
    simp only [Nat.zero_add, Nat.sub_self, List.getElem?_cons_zero, ne_eq, Option.some.injEq]
    intro hp
    exact hprev hp (by simp)
  | case4 c off hc hq => simp [find_quoted_loop, hc, hq] at h
  | case5 rest off ih =>
    simp [find_quoted_loop] at h
    obtain ⟨j, hn, ⟨h1, h2, h3⟩, hmin⟩ := ih qt (fun e => absurd e hqt) h
    refine ⟨j + 2, by omega, ⟨by simpa using h1, by simpa using h2, by simpa using h3⟩, ?_⟩
    intro i hi hc
    obtain ⟨c1, c2, c3⟩ := hc
    match i, hi with
    | 0, _ =>
      simp at c1
      exact hqt c1.symm
    | 1, _ => simp at c2
    | k + 2, hk =>
      exact hmin k (by omega) ⟨by simpa using c1, by simpa using c2, by simpa using c3⟩
  | case6 d rest off hd ih =>
    simp [find_quoted_loop, hd] at h
    obtain ⟨j, hn, ⟨h1, h2, h3⟩, hmin⟩ := ih BACKSLASH (fun _ => by simpa using hd) h
    refine ⟨j + 1, by omega, ⟨by simpa using h1, by simpa using h2, by simpa using h3⟩, ?_⟩
    intro i hi hc
    obtain ⟨c1, c2, c3⟩ := hc
    match i, hi with
    | 0, _ =>
      simp at c1
      exact hqt c1.symm
    | k + 1, hk =>
      exact hmin k (by omega) ⟨by simpa using c1, by simpa using c2, by simpa using c3⟩
  | case7 d rest off hw hq =>
    simp [find_quoted_loop, hq, hw] at h
    refine ⟨0, by omega, ⟨by simp, ?_, Or.inr ⟨d, by simp, hw⟩⟩,
      fun i hi => absurd hi (Nat.not_lt_zero i)⟩
    simp only [Nat.zero_add, Nat.sub_self, List.getElem?_cons_zero, ne_eq, Option.some.injEq]
    intro hp
    exact hprev hp (by simp)
  | case8 d rest off hw hq ih =>
    simp [find_quoted_loop, hq, hw] at h
    obtain ⟨j, hn, ⟨h1, h2, h3⟩, hmin⟩ := ih qt (fun e => absurd e hqt) h
    refine ⟨j + 1, by omega, ⟨by simpa using h1, by simpa using h2, by simpa using h3⟩, ?_⟩
    intro i hi hc
    obtain ⟨c1, c2, c3⟩ := hc
    match i, hi with
    | 0, _ =>
      simp at c3
      exact hw c3
    | k + 1, hk =>
      exact hmin k (by omega) ⟨by simpa using c1, by simpa using c2, by simpa using c3⟩
  | case9 c d rest off hc hq ih =>
    simp [find_quoted_loop, hq, hc] at h
    obtain ⟨j, hn, ⟨h1, h2, h3⟩, hmin⟩ := ih c (fun e => absurd e hc) h
    refine ⟨j + 1, by omega, ⟨by simpa using h1, by simpa using h2, by simpa using h3⟩, ?_⟩
    intro i hi hcl
    obtain ⟨c1, c2, c3⟩ := hcl
    match i, hi with
    | 0, _ =>
      simp at c1
      exact hq c1
    | k + 1, hk =>
      exact hmin k (by omega) ⟨by simpa using c1, by simpa using c2, by simpa using c3⟩

theorem is_quote_ne_backslash (q : Char) (hq : q = SQUOTE ∨ q = DQUOTE) : q ≠ BACKSLASH := by
  rcases hq with h | h <;> subst h <;> decide

theorem find_quoted_word_break_none (qt : Char) (rest : List Char)
    (hq : qt = SQUOTE ∨ qt = DQUOTE)
    (hno : ∀ k, 1 ≤ k → ¬ closing_at qt (qt :: rest) k) :
    find_quoted_word_break (qt :: rest) = none := by
  have hqt := is_quote_ne_backslash qt hq
  simp only [find_quoted_word_break]
  exact find_quoted_loop_none qt hqt rest 1 qt (fun e => absurd e hqt)
    (fun j => hno (j + 1) (by omega))

theorem find_quoted_word_break_some (qt : Char) (rest : List Char) (n : Nat)
    (hq : qt = SQUOTE ∨ qt = DQUOTE)
    (h : find_quoted_word_break (qt :: rest) = some n) :
    2 ≤ n ∧ closing_at qt (qt :: rest) (n - 1) ∧
      ∀ k, 1 ≤ k → k < n - 1 → ¬ closing_at qt (qt :: rest) k := by
  have hqt := is_quote_ne_backslash qt hq
  simp only [find_quoted_word_break] at h
  obtain ⟨j, hn, hc, hmin⟩ :=
    find_quoted_loop_some qt hqt rest 1 qt n (fun e => absurd e hqt) h
  subst hn
  refine ⟨by omega, ?_, ?_⟩
  · have e : 1 + j + 1 - 1 = j + 1 := by omega
    rw [e]
    exact hc
  · intro k hk1 hk2
    obtain ⟨i, rfl⟩ : ∃ i, k = i + 1 := ⟨k - 1, by omega⟩
    exact hmin i (by omega)

theorem find_quoted_loop_none_of_no_closing (qt : Char) (hqt : qt ≠ BACKSLASH) (l : List Char)
    (off : Nat) (prev : Char) (h : find_quoted_loop qt l off = none) :
    ∀ j, ¬ closing_at qt (prev :: l) (j + 1) := by
  induction l, off using find_quoted_loop.induct qt generalizing prev with
  | case1 x =>
    intro j hc
    simpa using hc.1
  | case2 off =>
    intro j hc
    obtain ⟨c1, -, -⟩ := hc
    match j with
    | 0 =>
      simp at c1
      exact hqt c1.symm
    | k + 1 => simp at c1
  | case3 off hq => simp [find_quoted_loop, hq] at h
  | case4 c off hc hq =>
    intro j hcl
    obtain ⟨c1, -, -⟩ := hcl
    match j with
    | 0 =>
      simp at c1
      exact hq c1
    | k + 1 => simp at c1
  | case5 rest off ih =>
    simp [find_quoted_loop] at h
    intro j hc
    obtain ⟨c1, c2, c3⟩ := hc
    match j with
    | 0 =>
      simp at c1
      exact hqt c1.symm
    | 1 => simp at c2
    | k + 2 => exact ih qt h k ⟨by simpa using c1, by simpa using c2, by simpa using c3⟩
  | case6 d rest off hd ih =>
    simp [find_quoted_loop, hd] at h
    intro j hc
    obtain ⟨c1, c2, c3⟩ := hc
    match j with
    | 0 =>
      simp at c1
      exact hqt c1.symm
    | k + 1 => exact ih BACKSLASH h k ⟨by simpa using c1, by simpa using c2, by simpa using c3⟩
  | case7 d rest off hw hq => simp [find_quoted_loop, hq, hw] at h
  | case8 d rest off hw hq ih =>
    simp [find_quoted_loop, hq, hw] at h
    intro j hc
    obtain ⟨c1, c2, c3⟩ := hc
    match j with
    | 0 =>
      simp at c3
      exact hw c3
    | k + 1 => exact ih qt h k ⟨by simpa using c1, by simpa using c2, by simpa using c3⟩
  | case9 c d rest off hc hq ih =>
    simp [find_quoted_loop, hq, hc] at h
    intro j hcl
    obtain ⟨c1, c2, c3⟩ := hcl
    match j with
    | 0 =>
      simp at c1
      exact hq c1
    | k + 1 => exact ih c h k ⟨by simpa using c1, by simpa using c2, by simpa using c3⟩

theorem find_quoted_word_break_none_iff (qt : Char) (rest : List Char)
    (hq : qt = SQUOTE ∨ qt = DQUOTE) :
    find_quoted_word_break (qt :: rest) = none ↔
      ∀ k, 1 ≤ k → ¬ closing_at qt (qt :: rest) k := by
  constructor
  · intro h k hk
    obtain ⟨i, rfl⟩ : ∃ i, k = i + 1 := ⟨k - 1, by omega⟩
    exact find_quoted_loop_none_of_no_closing qt (is_quote_ne_backslash qt hq) rest 1 qt h i
  · exact find_quoted_word_break_none qt rest hq

theorem find_word_break_quote (qt : Char) (rest : List Char) (hq : qt = SQUOTE ∨ qt = DQUOTE) :
    find_word_break (qt :: rest) = find_quoted_word_break (qt :: rest) := by
  simp [find_word_break, hq]

theorem find_word_break_bare (c : Char) (cs : List Char) (hq : ¬ (c = SQUOTE ∨ c = DQUOTE)) :
    find_word_break (c :: cs) = some (find_whitespace_word_break (c :: cs)) := by
  simp only [find_word_break, if_neg hq]

/-! ## Facts about the loop of `parse_words` -/

theorem parse_words_loop_succ (line : List Char) (ig : Bool) (fuel p : Nat) (words : parsed_words_t) :
    parse_words_loop line ig (fuel + 1) p words =
      if line.drop p = [] then some (true, words)
      else if line.drop (p + skip_whitespace (line.drop p)) = [] then some (true, words)
      else
        match find_word_break (line.drop (p + skip_whitespace (line.drop p))) with
        | some n =>
          parse_words_loop line ig fuel (p + skip_whitespace (line.drop p) + n)
            { words := new_word line (p + skip_whitespace (line.drop p))
                (p + skip_whitespace (line.drop p) + n) :: words.words
              word_count := words.word_count + 1 }
        | none =>
          if ig = true then
            parse_words_loop line ig fuel (p + skip_whitespace (line.drop p) +
                find_whitespace_word_break (line.drop (p + skip_whitespace (line.drop p))))
              { words := new_word line (p + skip_whitespace (line.drop p))
                  (p + skip_whitespace (line.drop p) +
                    find_whitespace_word_break (line.drop (p + skip_whitespace (line.drop p))))
                    :: words.words
                word_count := words.word_count + 1 }
          else some (false, words) := by
  rfl

theorem word_start_facts (line : List Char) (p : Nat)
    (h : line.drop (p + skip_whitespace (line.drop p)) ≠ []) :
    ∃ c cs, line.drop (p + skip_whitespace (line.drop p)) = c :: cs ∧
      is_whitespace c = false ∧ (line)[p + skip_whitespace (line.drop p)]? = some c ∧
      p + skip_whitespace (line.drop p) < line.length ∧
      (c :: cs).length = line.length - (p + skip_whitespace (line.drop p)) := by
  cases hd : line.drop (p + skip_whitespace (line.drop p)) with
  | nil => exact absurd hd h
  | cons c cs =>
    have hw : is_whitespace c = false :=
      skip_whitespace_stop (line.drop p) c cs (by rw [List.drop_drop]; exact hd)
    have hlt : p + skip_whitespace (line.drop p) < line.length := by
      by_contra hge
      have : line.drop (p + skip_whitespace (line.drop p)) = [] :=
        List.drop_eq_nil_iff.2 (by omega)
      exact h this
    refine ⟨c, cs, rfl, hw, ?_, hlt, ?_⟩
    · have := congrArg (fun l => l[0]?) hd
      simpa [List.getElem?_drop] using this
    · rw [← hd, List.length_drop]

theorem parse_words_loop_spec_push (line : List Char) (ig : Bool) (p start n : Nat)
    (acc r : parsed_words_t) (new : List arg_word_t) (hp : p ≤ start)
    (hw : is_word_at line ig (new_word line start (start + n)))
    (e1 : r.words = new ++ (new_word line start (start + n) :: acc.words))
    (e2 : r.word_count = acc.word_count + 1 + new.length)
    (e3 : ∀ w ∈ new, start + n ≤ w.start ∧ is_word_at line ig w)
    (e4 : new.Pairwise (fun a b => b.end_ ≤ a.start)) :
    ∃ new' : List arg_word_t, r.words = new' ++ acc.words ∧
      r.word_count = acc.word_count + new'.length ∧
      (∀ w ∈ new', p ≤ w.start ∧ is_word_at line ig w) ∧
      new'.Pairwise (fun a b => b.end_ ≤ a.start) := by
  refine ⟨new ++ [new_word line start (start + n)], ?_, ?_, ?_, ?_⟩
  · rw [e1]
    simp
  · rw [e2]
    simp
    omega
  · intro w hwm
    rcases List.mem_append.1 hwm with h | h
    · have := e3 w h
      exact ⟨by omega, this.2⟩
    · simp only [List.mem_singleton] at h
      subst h
      exact ⟨hp, hw⟩
  · rw [List.pairwise_append]
    refine ⟨e4, List.pairwise_singleton _ _, ?_⟩
    intro a ha b hb
    simp only [List.mem_singleton] at hb
    subst hb
    exact (e3 a ha).1

theorem parse_words_loop_spec (line : List Char) (ig : Bool) :
    ∀ (fuel p : Nat) (acc : parsed_words_t) (b : Bool) (r : parsed_words_t),
      parse_words_loop line ig fuel p acc = some (b, r) →
      ∃ new : List arg_word_t, r.words = new ++ acc.words ∧
        r.word_count = acc.word_count + new.length ∧
        (∀ w ∈ new, p ≤ w.start ∧ is_word_at line ig w) ∧
        new.Pairwise (fun a b => b.end_ ≤ a.start) := by
  intro fuel
  induction fuel with
  | zero =>
    intro p acc b r h
    simp [parse_words_loop] at h
  | succ fuel ih =>
    intro p acc b r h
    rw [parse_words_loop_succ] at h
    by_cases h1 : line.drop p = []
    · rw [if_pos h1] at h
      simp only [Option.some.injEq, Prod.mk.injEq] at h
      obtain ⟨-, rfl⟩ := h
      exact ⟨[], by simp, by simp, by simp, List.Pairwise.nil⟩
    rw [if_neg h1] at h
    by_cases h2 : line.drop (p + skip_whitespace (line.drop p)) = []
    · rw [if_pos h2] at h
      simp only [Option.some.injEq, Prod.mk.injEq] at h
      obtain ⟨-, rfl⟩ := h
      exact ⟨[], by simp, by simp, by simp, List.Pairwise.nil⟩
    rw [if_neg h2] at h
    · obtain ⟨c, cs, hd, hw, hget, hlt, hlen⟩ := word_start_facts line p h2
      cases hf : find_word_break (line.drop (p + skip_whitespace (line.drop p))) with
      | some n =>
        rw [hf] at h
        simp only at h
        have hb := find_word_break_bound c cs n hw (by rw [← hd]; exact hf)
        obtain ⟨new, e1, e2, e3, e4⟩ := ih _ _ _ _ h
        refine parse_words_loop_spec_push line ig p _ n acc r new (by omega) ?_ e1 e2 e3 e4
        exact ⟨n, c, hb.1, by simp only [new_word]; omega, rfl, hget, hw, Or.inl hf⟩
      | none =>
        rw [hf] at h
        simp only at h
        split_ifs at h with hig
        · have hb1 := find_whitespace_word_break_pos c cs hw
          have hb2 := find_whitespace_word_break_le (c :: cs)
          rw [← hd] at hb1 hb2
          obtain ⟨new, e1, e2, e3, e4⟩ := ih _ _ _ _ h
          refine parse_words_loop_spec_push line ig p _ _ acc r new (by omega) ?_ e1 e2 e3 e4
          refine ⟨_, c, hb1, ?_, rfl, hget, hw, Or.inr ⟨hig, hf, rfl⟩⟩
          simp only [new_word]
          rw [List.length_drop] at hb2
          omega
        · simp only [Option.some.injEq, Prod.mk.injEq] at h
          obtain ⟨-, rfl⟩ := h
          exact ⟨[], by simp, by simp, by simp, List.Pairwise.nil⟩

theorem parse_words_loop_fuel (line : List Char) (ig : Bool) :
    ∀ (fuel p : Nat) (acc : parsed_words_t), line.length - p < fuel →
      ∃ b r, parse_words_loop line ig fuel p acc = some (b, r) ∧ (ig = true → b = true) := by
  intro fuel
  induction fuel with
  | zero =>
    intro p acc h
    omega
  | succ fuel ih =>
    intro p acc hfuel
    rw [parse_words_loop_succ]
    by_cases h1 : line.drop p = []
    · rw [if_pos h1]
      exact ⟨true, acc, rfl, fun _ => rfl⟩
    rw [if_neg h1]
    by_cases h2 : line.drop (p + skip_whitespace (line.drop p)) = []
    · rw [if_pos h2]
      exact ⟨true, acc, rfl, fun _ => rfl⟩
    rw [if_neg h2]
    · obtain ⟨c, cs, hd, hw, hget, hlt, hlen⟩ := word_start_facts line p h2
      cases hf : find_word_break (line.drop (p + skip_whitespace (line.drop p))) with
      | some n =>
        simp only
        have hb := find_word_break_bound c cs n hw (by rw [← hd]; exact hf)
        exact ih _ _ (by omega)
      | none =>
        simp only
        split_ifs with hig
        · have hb1 := find_whitespace_word_break_pos c cs hw
          rw [← hd] at hb1
          exact ih _ _ (by omega)
        · exact ⟨false, acc, rfl, fun h => absurd h hig⟩

theorem parse_words_loop_strict_lenient (line : List Char) :
    ∀ (fuel p : Nat) (acc r : parsed_words_t),
      parse_words_loop line false fuel p acc = some (true, r) →
      parse_words_loop line true fuel p acc = some (true, r) := by
  intro fuel
  induction fuel with
  | zero =>
    intro p acc r h
    simp [parse_words_loop] at h
  | succ fuel ih =>
    intro p acc r h
    rw [parse_words_loop_succ] at h ⊢
    by_cases h1 : line.drop p = []
    · rw [if_pos h1] at h ⊢
      exact h
    rw [if_neg h1] at h ⊢
    by_cases h2 : line.drop (p + skip_whitespace (line.drop p)) = []
    · rw [if_pos h2] at h ⊢
      exact h
    rw [if_neg h2] at h ⊢
    · cases hf : find_word_break (line.drop (p + skip_whitespace (line.drop p))) with
      | some n =>
        rw [hf] at h
        simp only at h ⊢
        exact ih _ _ _ h
      | none =>
        rw [hf] at h
        simp at h

theorem parse_words_loop_cover (line : List Char) (ig : Bool) :
    ∀ (fuel p : Nat) (acc r : parsed_words_t),
      parse_words_loop line ig fuel p acc = some (true, r) →
      ∀ i c, p ≤ i → (line)[i]? = some c → is_whitespace c = false →
        ∃ w ∈ r.words, w.start ≤ i ∧ i < w.end_ := by
  intro fuel
  induction fuel with
  | zero =>
    intro p acc r h
    simp [parse_words_loop] at h
  | succ fuel ih =>
    intro p acc r h i c hpi hic hcw
    have hilt : i < line.length := by
      by_contra hge
      have : (line)[i]? = none := List.getElem?_eq_none (by omega)
      rw [this] at hic
      exact Option.noConfusion hic
    rw [parse_words_loop_succ] at h
    by_cases h1 : line.drop p = []
    · have := List.drop_eq_nil_iff.1 h1
      omega
    rw [if_neg h1] at h
    have hskip : p + skip_whitespace (line.drop p) ≤ i := by
      by_contra hlt
      obtain ⟨d, hd, hdw⟩ := skip_whitespace_skipped (line.drop p) (i - p) (by omega)
      rw [List.getElem?_drop] at hd
      have e : p + (i - p) = i := by omega
      rw [e, hic] at hd
      simp only [Option.some.injEq] at hd
      subst hd
      rw [hcw] at hdw
      exact Bool.noConfusion hdw
    by_cases h2 : line.drop (p + skip_whitespace (line.drop p)) = []
    · have := List.drop_eq_nil_iff.1 h2
      omega
    rw [if_neg h2] at h
    have key : ∀ n, parse_words_loop line ig fuel (p + skip_whitespace (line.drop p) + n)
        { words := new_word line (p + skip_whitespace (line.drop p))
            (p + skip_whitespace (line.drop p) + n) :: acc.words
          word_count := acc.word_count + 1 } = some (true, r) →
        ∃ w ∈ r.words, w.start ≤ i ∧ i < w.end_ := by
      intro n hn
      by_cases hin : i < p + skip_whitespace (line.drop p) + n
      · obtain ⟨new, e1, -, -, -⟩ := parse_words_loop_spec line ig _ _ _ _ _ hn
        refine ⟨new_word line (p + skip_whitespace (line.drop p))
          (p + skip_whitespace (line.drop p) + n), ?_, hskip, hin⟩
        rw [e1]
        simp
      · exact ih _ _ _ hn i c (by omega) hic hcw
    cases hf : find_word_break (line.drop (p + skip_whitespace (line.drop p))) with
    | some n =>
      rw [hf] at h
      exact key n h
    | none =>
      rw [hf] at h
      simp only at h
      by_cases hig : ig = true
      · rw [if_pos hig] at h
        exact key _ h
      · rw [if_neg hig] at h
        simp at h

/-! ## Facts about `reverse_word_order` and `parse_words` -/

theorem reverse_loop_eq (l result : List arg_word_t) :
    reverse_loop l result = l.reverse ++ result := by
  induction l generalizing result with
  | nil => simp [reverse_loop]
  | cons w next ih => simp [reverse_loop, ih]

theorem renumber_length (l : List arg_word_t) (k : Nat) : (renumber l k).length = l.length := by
  induction l generalizing k with
  | nil => simp [renumber]
  | cons w next ih => simp [renumber, ih]

theorem renumber_getElem? (l : List arg_word_t) (k i : Nat) :
    (renumber l k)[i]? = (l[i]?).map (fun w => { w with index := k + i }) := by
  induction l generalizing k i with
  | nil => simp [renumber]
  | cons w next ih =>
    cases i with
    | zero => simp [renumber]
    | succ j =>
      simp only [renumber, List.getElem?_cons_succ, ih]
      have e : k + 1 + j = k + (j + 1) := by omega
      rw [e]

theorem renumber_mem (l : List arg_word_t) (k : Nat) (w : arg_word_t) (h : w ∈ renumber l k) :
    ∃ v ∈ l, w.text = v.text ∧ w.start = v.start ∧ w.end_ = v.end_ := by
  induction l generalizing k with
  | nil => simp [renumber] at h
  | cons a next ih =>
    simp only [renumber, List.mem_cons] at h
    rcases h with h | h
    · subst h
      exact ⟨a, by simp, rfl, rfl, rfl⟩
    · obtain ⟨v, hv, e⟩ := ih _ h
      exact ⟨v, by simp [hv], e⟩

theorem mem_renumber (l : List arg_word_t) (k : Nat) (v : arg_word_t) (h : v ∈ l) :
    ∃ w ∈ renumber l k, w.text = v.text ∧ w.start = v.start ∧ w.end_ = v.end_ := by
  induction l generalizing k with
  | nil => simp at h
  | cons a next ih =>
    simp only [List.mem_cons] at h
    rcases h with h | h
    · refine ⟨{ a with index := k }, by simp [renumber], ?_, ?_, ?_⟩ <;> rw [h]
    · obtain ⟨w, hw, e⟩ := ih (k + 1) h
      exact ⟨w, by simp [renumber, hw], e⟩

theorem renumber_map_start (l : List arg_word_t) (k : Nat) :
    (renumber l k).map (fun w => w.start) = l.map (fun w => w.start) := by
  induction l generalizing k with
  | nil => simp [renumber]
  | cons a next ih => simp [renumber, ih]

theorem reverse_word_order_eq (words : parsed_words_t) :
    reverse_word_order words =
      { words := renumber words.words.reverse 0, word_count := words.word_count } := by
  unfold reverse_word_order
  split_ifs with h
  · cases words with
    | mk ws n =>
      simp only at h
      subst h
      simp [renumber]
  · simp [reverse_loop_eq]

theorem parse_words_eq_some (line : List Char) (ig : Bool) (pw : parsed_words_t)
    (h : parse_words line ig = some pw) :
    line ≠ [] ∧ ∃ r, parse_words_loop line ig (line.length + 1) 0
        { words := [], word_count := 0 } = some (true, r) ∧
      pw = { words := renumber r.words.reverse 0, word_count := r.word_count } := by
  unfold parse_words at h
  split_ifs at h with he
  refine ⟨?_, ?_⟩
  · rintro rfl
    simp [scu_is_empty_str] at he
  · split at h
    · rename_i r hr
      simp only [Option.some.injEq] at h
      exact ⟨r, hr, by rw [← h, reverse_word_order_eq]⟩
    · exact Option.noConfusion h

theorem parse_words_of_loop (line : List Char) (ig : Bool) (r : parsed_words_t) (hne : line ≠ [])
    (h : parse_words_loop line ig (line.length + 1) 0 { words := [], word_count := 0 } =
      some (true, r)) :
    parse_words line ig =
      some { words := renumber r.words.reverse 0, word_count := r.word_count } := by
  unfold parse_words
  rw [if_neg (by simp [scu_is_empty_str_of_ne_nil line hne]), h]
  simp only [reverse_word_order_eq]

theorem parse_words_spec (line : List Char) (ig : Bool) (pw : parsed_words_t)
    (h : parse_words line ig = some pw) :
    ∃ new : List arg_word_t, pw.words = renumber new.reverse 0 ∧ pw.word_count = new.length ∧
      (∀ w ∈ new, is_word_at line ig w) ∧ new.Pairwise (fun a b => b.end_ ≤ a.start) := by
  obtain ⟨-, r, hr, rfl⟩ := parse_words_eq_some line ig pw h
  obtain ⟨new, e1, e2, e3, e4⟩ := parse_words_loop_spec line ig _ _ _ _ _ hr
  simp only [List.append_nil] at e1
  refine ⟨new, by simp [e1], by simpa using e2, fun w hw => (e3 w hw).2, e4⟩

theorem is_word_at_facts (line : List Char) (ig : Bool) (w : arg_word_t)
    (h : is_word_at line ig w) :
    ∃ n c, 1 ≤ n ∧ w.start + n ≤ line.length ∧ w.end_ = w.start + n ∧
      w.text = some ((line.drop w.start).take n) ∧
      (line)[w.start]? = some c ∧ is_whitespace c = false ∧
      (find_word_break (line.drop w.start) = some n ∨
        (ig = true ∧ find_word_break (line.drop w.start) = none ∧
          n = find_whitespace_word_break (line.drop w.start))) := by
  obtain ⟨n, c, h1, h2, h3, h4, h5, h6⟩ := h
  refine ⟨n, c, h1, h2, ?_, ?_, h4, h5, h6⟩
  · have := congrArg arg_word_t.end_ h3
    simpa [new_word] using this
  · have := congrArg arg_word_t.text h3
    rw [this]
    have hlt : w.start < line.length := by omega
    rw [new_word, List.drop_eq_getElem_cons hlt]
    have e : w.start + n - w.start = n := by omega
    simp only [scu_strndup, e]
    rw [if_neg (by omega)]

theorem parse_words_word (line : List Char) (ig : Bool) (pw : parsed_words_t) (w : arg_word_t)
    (h : parse_words line ig = some pw) (hw : w ∈ pw.words) :
    ∃ n c, 1 ≤ n ∧ w.start + n ≤ line.length ∧ w.end_ = w.start + n ∧
      w.text = some ((line.drop w.start).take n) ∧
      (line)[w.start]? = some c ∧ is_whitespace c = false ∧
      (find_word_break (line.drop w.start) = some n ∨
        (ig = true ∧ find_word_break (line.drop w.start) = none ∧
          n = find_whitespace_word_break (line.drop w.start))) := by
  obtain ⟨new, e1, -, e3, -⟩ := parse_words_spec line ig pw h
  rw [e1] at hw
  obtain ⟨v, hv, t1, t2, t3⟩ := renumber_mem _ _ _ hw
  obtain ⟨n, c, f1, f2, f3, f4, f5, f6, f7⟩ :=
    is_word_at_facts line ig v (e3 v (List.mem_reverse.1 hv))
  exact ⟨n, c, f1, by omega, by omega, by rw [t1, t2]; exact f4, by rw [t2]; exact f5, f6,
    by rw [t2]; exact f7⟩

theorem parse_words_strict_lenient (line : List Char) (pw : parsed_words_t)
    (h : parse_words line false = some pw) : parse_words line true = some pw := by
  obtain ⟨hne, r, hr, rfl⟩ := parse_words_eq_some line false pw h
  exact parse_words_of_loop line true r hne (parse_words_loop_strict_lenient line _ _ _ _ hr)

theorem parse_words_lenient_total (line : List Char) (hne : line ≠ []) :
    ∃ pw, parse_words line true = some pw := by
  obtain ⟨b, r, hr, hb⟩ :=
    parse_words_loop_fuel line true (line.length + 1) 0 { words := [], word_count := 0 }
      (by omega)
  rw [hb rfl] at hr
  exact ⟨_, parse_words_of_loop line true r hne hr⟩

theorem strict_fails_of_unterminated (line : List Char) (pw : parsed_words_t) (w : arg_word_t)
    (h : parse_words line true = some pw) (hw : w ∈ pw.words)
    (hbad : find_word_break (line.drop w.start) = none) :
    parse_words line false = none := by
  cases hs : parse_words line false with
  | none => rfl
  | some pw' =>
    exfalso
    have hl := parse_words_strict_lenient line pw' hs
    rw [h] at hl
    simp only [Option.some.injEq] at hl
    subst hl
    obtain ⟨n, c, -, -, -, -, -, -, f7⟩ := parse_words_word line false pw w hs hw
    rcases f7 with f | ⟨f, -, -⟩
    · rw [hbad] at f
      exact Option.noConfusion f
    · exact Bool.noConfusion f

theorem closing_at_lt (qt : Char) (s : List Char) (k : Nat) (h : closing_at qt s k) :
    k < s.length := by
  by_contra hge
  have h1 := h.1
  rw [List.getElem?_eq_none (by omega)] at h1
  exact Option.noConfusion h1

theorem drop_of_getElem? (L : List Char) (i : Nat) (c : Char) (h : L[i]? = some c) :
    L.drop i = c :: L.drop (i + 1) := by
  have hlt : i < L.length := by
    by_contra hge
    have : L[i]? = none := List.getElem?_eq_none (by omega)
    rw [this] at h
    exact Option.noConfusion h
  rw [List.drop_eq_getElem_cons hlt]
  rw [List.getElem?_eq_getElem hlt] at h
  simp only [Option.some.injEq] at h
  rw [h]

theorem unterminated_of_no_closing (L : List Char) (s : Nat) (q : Char)
    (hq : q = SQUOTE ∨ q = DQUOTE) (hstart : L[s]? = some q)
    (hno : ∀ k, 1 ≤ k → ¬ closing_at q (L.drop s) k) :
    find_word_break (L.drop s) = none := by
  rw [drop_of_getElem? L s q hstart] at hno ⊢
  rw [find_word_break_quote q _ hq]
  exact find_quoted_word_break_none q _ hq hno

theorem parse_words_cover (L : List Char) (ig : Bool) (pw : parsed_words_t)
    (h : parse_words L ig = some pw) (i : Nat) (c : Char) (hic : L[i]? = some c)
    (hcw : is_whitespace c = false) : ∃ w ∈ pw.words, w.start ≤ i ∧ i < w.end_ := by
  obtain ⟨-, r, hr, rfl⟩ := parse_words_eq_some L ig pw h
  obtain ⟨v, hv, h1, h2⟩ := parse_words_loop_cover L ig _ _ _ _ hr i c (Nat.zero_le i) hic hcw
  obtain ⟨w, hw, -, t2, t3⟩ := mem_renumber r.words.reverse 0 v (List.mem_reverse.2 hv)
  exact ⟨w, hw, by omega, by omega⟩

theorem parse_words_none_loop (L : List Char) (ig : Bool) (hne : L ≠ [])
    (h : parse_words L ig = none) :
    ∃ r, parse_words_loop L ig (L.length + 1) 0 { words := [], word_count := 0 } =
      some (false, r) := by
  obtain ⟨b, r, hr, -⟩ :=
    parse_words_loop_fuel L ig (L.length + 1) 0 { words := [], word_count := 0 } (by omega)
  cases b with
  | false => exact ⟨r, hr⟩
  | true =>
    rw [parse_words_of_loop L ig r hne hr] at h
    exact Option.noConfusion h

theorem strict_fails_in_loop (L : List Char) (pw : parsed_words_t) (w : arg_word_t)
    (h : parse_words L true = some pw) (hw : w ∈ pw.words)
    (hbad : find_word_break (L.drop w.start) = none) :
    parse_words L false = none ∧
      ∃ r, parse_words_loop L false (L.length + 1) 0 { words := [], word_count := 0 } =
        some (false, r) := by
  have hn := strict_fails_of_unterminated L pw w h hw hbad
  exact ⟨hn, parse_words_none_loop L false (parse_words_eq_some L true pw h).1 hn⟩

/-! ## Claims on the tokenizer -/

/-- C5: when a word reached by the scan (a word of the lenient tokenization,
which does not stop at a fault) starts with a quote `q` and `q` does not occur
again in the rest of the line, strict tokenization fails: `parse_words` returns
NULL, so no word is returned, not even those before the fault; the loop has
ended with `succeeded` false (it has not run out of iterations). -/
theorem C5_strict_fails_on_unclosed_quote (L : List Char) (pw : parsed_words_t) (w : arg_word_t)
    (q : Char) (hlen : parse_words L true = some pw) (hw : w ∈ pw.words)
    (hq : q = SQUOTE ∨ q = DQUOTE) (hstart : L[w.start]? = some q)
    (hno : q ∉ L.drop (w.start + 1)) :
    parse_words L false = none ∧
      ∃ r, parse_words_loop L false (L.length + 1) 0 { words := [], word_count := 0 } =
        some (false, r) := by
  apply strict_fails_in_loop L pw w hlen hw
  apply unterminated_of_no_closing L w.start q hq hstart
  intro k hk hc
  apply hno
  have h1 := hc.1
  rw [List.getElem?_drop] at h1
  have e : w.start + k = w.start + 1 + (k - 1) := by omega
  rw [e, ← List.getElem?_drop] at h1
  exact List.getElem?_mem h1

/-- C5 at the line `ls "abc`. -/
theorem C5_strict_fails_on_unclosed_quote_witness :
    parse_words "ls \"abc".toList false = none ∧
      ∃ r, parse_words_loop "ls \"abc".toList false ("ls \"abc".toList.length + 1) 0
        { words := [], word_count := 0 } = some (false, r) :=
  C5_strict_fails_on_unclosed_quote "ls \"abc".toList
    { words := [{ index := 0, text := some "ls".toList, start := 0, end_ := 2 },
                { index := 1, text := some "\"abc".toList, start := 3, end_ := 7 }]
      word_count := 2 }
    { index := 1, text := some "\"abc".toList, start := 3, end_ := 7 } DQUOTE
    (by decide) (by decide) (Or.inr rfl) (by decide) (by decide)

/-- C6, counterexample: in the line `"a"b" c` the first closing quote is
followed by `b`, and strict tokenization succeeds with the two words `"a"b"`
and `c`. -/
theorem C6_quote_followed_by_letter_accepted :
    "\"a\"b\" c".toList[0]? = some DQUOTE ∧ "\"a\"b\" c".toList[2]? = some DQUOTE ∧
      "\"a\"b\" c".toList[3]? = some 'b' ∧
      parse_words "\"a\"b\" c".toList false =
        some { words := [{ index := 0, text := some "\"a\"b\"".toList, start := 0, end_ := 5 },
                         { index := 1, text := some "c".toList, start := 6, end_ := 7 }]
               word_count := 2 } := by
  decide

/-- C6, amended: when a word reached by the scan starts with a quote `q` and
no later `q` of the line is both free of a preceding backslash and followed by
a space, a tab or the end of the line, strict tokenization fails: the loop
ends with `succeeded` false and `parse_words` returns NULL.  (A quote followed
by another character does not end the search for such a `q`.) -/
theorem C6_strict_fails_without_closing_quote (L : List Char) (pw : parsed_words_t)
    (w : arg_word_t) (q : Char) (hlen : parse_words L true = some pw) (hw : w ∈ pw.words)
    (hq : q = SQUOTE ∨ q = DQUOTE) (hstart : L[w.start]? = some q)
    (hno : ∀ k, 1 ≤ k → ¬ closing_at q (L.drop w.start) k) :
    parse_words L false = none ∧
      ∃ r, parse_words_loop L false (L.length + 1) 0 { words := [], word_count := 0 } =
        some (false, r) :=
  strict_fails_in_loop L pw w hlen hw
    (unterminated_of_no_closing L w.start q hq hstart hno)

/-- C6, amended, at the line `"a"b c`. -/
theorem C6_strict_fails_without_closing_quote_witness :
    parse_words "\"a\"b c".toList false = none ∧
      ∃ r, parse_words_loop "\"a\"b c".toList false ("\"a\"b c".toList.length + 1) 0
        { words := [], word_count := 0 } = some (false, r) :=
  C6_strict_fails_without_closing_quote "\"a\"b c".toList
    { words := [{ index := 0, text := some "\"a\"b".toList, start := 0, end_ := 4 },
                { index := 1, text := some "c".toList, start := 5, end_ := 6 }]
      word_count := 2 }
    { index := 0, text := some "\"a\"b".toList, start := 0, end_ := 4 } DQUOTE
    (by decide) (by decide) (Or.inr rfl) (by decide)
    (fun k hk hc =>
      (by decide : ∀ k, k < 6 → 1 ≤ k → ¬ closing_at DQUOTE ("\"a\"b c".toList.drop 0) k)
        k (closing_at_lt _ _ _ hc) hk hc)

/-- C7, counterexample: for the line `'a b'` the text of the word is `'a b'`,
with its two quotes, not `a b`. -/
theorem C7_text_keeps_quotes_example :
    parse_words "'a b'".toList false =
      some { words := [{ index := 0, text := some "'a b'".toList, start := 0, end_ := 5 }]
             word_count := 1 } := by
  decide

/-- C7, amended: for a well-formed quoted word (it starts with a quote `q` and
a later `q`, free of a preceding backslash, is followed by a space, a tab or
the end of the line) the text returned by `parse_words` is the slice of the
line as it stands: the opening quote, the characters between the quotes
unchanged (backslashes kept), and the closing quote. -/
theorem C7_quoted_word_text_is_raw (L : List Char) (ig : Bool) (pw : parsed_words_t)
    (w : arg_word_t) (q : Char) (h : parse_words L ig = some pw) (hw : w ∈ pw.words)
    (hq : q = SQUOTE ∨ q = DQUOTE) (hstart : L[w.start]? = some q)
    (hwf : ∃ k, 1 ≤ k ∧ closing_at q (L.drop w.start) k) :
    w.text = some ((L.drop w.start).take (w.end_ - w.start)) ∧
      ∃ content, w.text = some (q :: content ++ [q]) ∧
        content = (L.drop (w.start + 1)).take content.length := by
  obtain ⟨n, c, f1, f2, f3, f4, f5, f6, f7⟩ := parse_words_word L ig pw w h hw
  have hd := drop_of_getElem? L w.start q hstart
  have hfind : find_quoted_word_break (q :: L.drop (w.start + 1)) = some n := by
    rw [hd, find_word_break_quote q _ hq] at f7
    rcases f7 with f | ⟨-, f, -⟩
    · exact f
    · exfalso
      obtain ⟨k, hk, hc⟩ := hwf
      rw [hd] at hc
      exact (find_quoted_word_break_none_iff q _ hq).1 f k hk hc
  obtain ⟨g1, g2, -⟩ := find_quoted_word_break_some q _ n hq hfind
  have e : w.end_ - w.start = n := by omega
  refine ⟨by rw [e]; exact f4, (L.drop (w.start + 1)).take (n - 2), ?_, ?_⟩
  · rw [f4, hd]
    obtain ⟨m, rfl⟩ : ∃ m, n = m + 2 := ⟨n - 2, by omega⟩
    have hq2 : (L.drop (w.start + 1))[m]? = some q := by
      have := g2.1
      simpa using this
    simp only [List.take_succ_cons, Nat.add_sub_cancel, List.cons_append, Option.some.injEq,
      List.cons.injEq, true_and]
    rw [List.take_succ, hq2]
    rfl
  · have hlen : n - 2 ≤ (L.drop (w.start + 1)).length := by
      rw [List.length_drop]
      omega
    rw [List.length_take, Nat.min_eq_left hlen]

/-- C7, amended, at the line `'a b'`. -/
theorem C7_quoted_word_text_is_raw_witness :
    (some "'a b'".toList = some (("'a b'".toList.drop 0).take (5 - 0))) ∧
      ∃ content, some "'a b'".toList = some (SQUOTE :: content ++ [SQUOTE]) ∧
        content = ("'a b'".toList.drop (0 + 1)).take content.length :=
  C7_quoted_word_text_is_raw "'a b'".toList false
    { words := [{ index := 0, text := some "'a b'".toList, start := 0, end_ := 5 }]
      word_count := 1 }
    { index := 0, text := some "'a b'".toList, start := 0, end_ := 5 } SQUOTE
    (by decide) (by decide) (Or.inl rfl) (by decide) ⟨4, by decide, by decide⟩

/-- C8: every word `w` that `parse_words` returns, in either mode, has
`0 ≤ w.start < w.end_ ≤ length line`, and its text is the slice
`line[w.start, w.end_)`, quotes and backslashes included. -/
theorem C8_word_span_and_text (L : List Char) (ig : Bool) (pw : parsed_words_t) (w : arg_word_t)
    (h : parse_words L ig = some pw) (hw : w ∈ pw.words) :
    0 ≤ w.start ∧ w.start < w.end_ ∧ w.end_ ≤ L.length ∧
      w.text = some ((L.drop w.start).take (w.end_ - w.start)) := by
  obtain ⟨n, c, f1, f2, f3, f4, -, -, -⟩ := parse_words_word L ig pw w h hw
  have e : w.end_ - w.start = n := by omega
  exact ⟨Nat.zero_le _, by omega, by omega, by rw [e]; exact f4⟩

/-- C8 at the second word of the line `cp 'a\'b' c`, in strict mode. -/
theorem C8_word_span_and_text_witness :
    0 ≤ 3 ∧ 3 < 9 ∧ 9 ≤ "cp 'a\\'b' c".toList.length ∧
      some "'a\\'b'".toList = some (("cp 'a\\'b' c".toList.drop 3).take (9 - 3)) :=
  C8_word_span_and_text "cp 'a\\'b' c".toList false
    { words := [{ index := 0, text := some "cp".toList, start := 0, end_ := 2 },
                { index := 1, text := some "'a\\'b'".toList, start := 3, end_ := 9 },
                { index := 2, text := some "c".toList, start := 10, end_ := 11 }]
      word_count := 3 }
    { index := 1, text := some "'a\\'b'".toList, start := 3, end_ := 9 }
    (by decide) (by decide)

/-- C9: on a non-empty line lenient tokenization always returns a word
sequence; a word that starts with a quote that is not properly closed is cut at
the next space, tab or end of line; and the scan goes on to the end of the
line, so every character that is not a space or tab lies in a returned word. -/
theorem C9_lenient_never_fails (L : List Char) (hne : L ≠ []) :
    ∃ pw, parse_words L true = some pw ∧
      (∀ w ∈ pw.words, ∀ q, (q = SQUOTE ∨ q = DQUOTE) → L[w.start]? = some q →
        (∀ k, 1 ≤ k → ¬ closing_at q (L.drop w.start) k) →
        w.text = some ((L.drop w.start).takeWhile (fun c => !is_whitespace c)) ∧
          w.end_ = w.start + ((L.drop w.start).takeWhile (fun c => !is_whitespace c)).length ∧
          (L[w.end_]? = none ∨ ∃ d, L[w.end_]? = some d ∧ is_whitespace d = true)) ∧
      (∀ i c, L[i]? = some c → is_whitespace c = false →
        ∃ w ∈ pw.words, w.start ≤ i ∧ i < w.end_) := by
  obtain ⟨pw, hpw⟩ := parse_words_lenient_total L hne
  refine ⟨pw, hpw, ?_, fun i c hic hcw => parse_words_cover L true pw hpw i c hic hcw⟩
  intro w hw q hq hstart hno
  obtain ⟨n, c, f1, f2, f3, f4, f5, f6, f7⟩ := parse_words_word L true pw w hpw hw
  have hbad := unterminated_of_no_closing L w.start q hq hstart hno
  rcases f7 with f | ⟨-, -, f⟩
  · rw [hbad] at f
    exact Option.noConfusion f
  · have ht := find_whitespace_word_break_take (L.drop w.start)
    rw [← f] at ht
    refine ⟨by rw [f4, ht], ?_, ?_⟩
    · rw [← ht, List.length_take, List.length_drop, f3]
      congr 1
      omega
    · have hs := find_whitespace_word_break_stop (L.drop w.start)
      rw [← f, List.getElem?_drop, ← f3] at hs
      exact hs

/-- C9 at the line `cd "my dir`: the three words `cd`, `"my`, `dir`. -/
theorem C9_lenient_never_fails_witness :
    (∃ pw, parse_words "cd \"my dir".toList true = some pw ∧
      (∀ w ∈ pw.words, ∀ q, (q = SQUOTE ∨ q = DQUOTE) → "cd \"my dir".toList[w.start]? = some q →
        (∀ k, 1 ≤ k → ¬ closing_at q ("cd \"my dir".toList.drop w.start) k) →
        w.text = some (("cd \"my dir".toList.drop w.start).takeWhile
            (fun c => !is_whitespace c)) ∧
          w.end_ = w.start + (("cd \"my dir".toList.drop w.start).takeWhile
            (fun c => !is_whitespace c)).length ∧
          ("cd \"my dir".toList[w.end_]? = none ∨
            ∃ d, "cd \"my dir".toList[w.end_]? = some d ∧ is_whitespace d = true)) ∧
      (∀ i c, "cd \"my dir".toList[i]? = some c → is_whitespace c = false →
        ∃ w ∈ pw.words, w.start ≤ i ∧ i < w.end_)) ∧
    parse_words "cd \"my dir".toList true =
      some { words := [{ index := 0, text := some "cd".toList, start := 0, end_ := 2 },
                       { index := 1, text := some "\"my".toList, start := 3, end_ := 6 },
                       { index := 2, text := some "dir".toList, start := 7, end_ := 10 }]
             word_count := 3 } :=
  ⟨C9_lenient_never_fails "cd \"my dir".toList (by decide), by decide⟩

/-- C10: the words that `parse_words` returns, in either mode, are in line
order: `word_count` is their number, the word at position `i` has index `i`,
and the start offsets strictly increase along the sequence. -/
theorem C10_words_in_line_order (L : List Char) (ig : Bool) (pw : parsed_words_t)
    (h : parse_words L ig = some pw) :
    pw.word_count = pw.words.length ∧
      (∀ (i : Nat) (w : arg_word_t), pw.words[i]? = some w → w.index = i) ∧
      pw.words.Pairwise (fun a b => a.start < b.start) := by
  obtain ⟨new, e1, e2, e3, e4⟩ := parse_words_spec L ig pw h
  refine ⟨by rw [e1, renumber_length, List.length_reverse, e2], ?_, ?_⟩
  · intro i w hi
    rw [e1, renumber_getElem?] at hi
    cases hv : new.reverse[i]? with
    | none =>
      rw [hv] at hi
      exact Option.noConfusion hi
    | some v =>
      rw [hv] at hi
      simp only [Option.map_some', Option.some.injEq] at hi
      rw [← hi]
      simp
  · have hp : new.reverse.Pairwise (fun a b => a.start < b.start) := by
      rw [List.pairwise_reverse]
      refine List.Pairwise.imp_of_mem ?_ e4
      intro a b ha hb hab
      obtain ⟨n, c, f1, f2, f3, -⟩ := is_word_at_facts L ig b (e3 b hb)
      omega
    have hm : (pw.words.map (fun w => w.start)).Pairwise (fun x y => x < y) := by
      rw [e1, renumber_map_start, List.pairwise_map]
      exact hp
    exact List.pairwise_map.1 hm

/-- C10 at the line `grep "a b" f.txt`, in strict mode. -/
theorem C10_words_in_line_order_witness :
    3 = [({ index := 0, text := some "grep".toList, start := 0, end_ := 4 } : arg_word_t),
          { index := 1, text := some "\"a b\"".toList, start := 5, end_ := 10 },
          { index := 2, text := some "f.txt".toList, start := 11, end_ := 16 }].length ∧
      (∀ (i : Nat) (w : arg_word_t), [({ index := 0, text := some "grep".toList, start := 0, end_ := 4 } : arg_word_t),
          { index := 1, text := some "\"a b\"".toList, start := 5, end_ := 10 },
          { index := 2, text := some "f.txt".toList, start := 11, end_ := 16 }][i]? = some w →
        w.index = i) ∧
      [({ index := 0, text := some "grep".toList, start := 0, end_ := 4 } : arg_word_t),
          { index := 1, text := some "\"a b\"".toList, start := 5, end_ := 10 },
          { index := 2, text := some "f.txt".toList, start := 11, end_ := 16 }].Pairwise
        (fun a b => a.start < b.start) :=
  C10_words_in_line_order "grep \"a b\" f.txt".toList false
    { words := [{ index := 0, text := some "grep".toList, start := 0, end_ := 4 },
                { index := 1, text := some "\"a b\"".toList, start := 5, end_ := 10 },
                { index := 2, text := some "f.txt".toList, start := 11, end_ := 16 }]
      word_count := 3 }
    (by decide)

/-! ## More facts about the tokenizer -/

theorem skip_whitespace_all (s : List Char) (h : ∀ c ∈ s, is_whitespace c = true) :
    skip_whitespace s = s.length := by
  induction s with
  | nil => rfl
  | cons a as ih =>
    have ha : is_whitespace a = true := h a (by simp)
    simp only [skip_whitespace, ha, if_true, List.length_cons]
    rw [ih (fun c hc => h c (by simp [hc]))]

theorem find_word_break_stop (c : Char) (cs : List Char) (n : Nat)
    (h : find_word_break (c :: cs) = some n) :
    (c :: cs)[n]? = none ∨ ∃ d, (c :: cs)[n]? = some d ∧ is_whitespace d = true := by
  by_cases hq : c = SQUOTE ∨ c = DQUOTE
  · rw [find_word_break_quote c cs hq] at h
    obtain ⟨g1, g2, -⟩ := find_quoted_word_break_some c cs n hq h
    have e : n - 1 + 1 = n := by omega
    have := g2.2.2
    rw [e] at this
    exact this
  · rw [find_word_break_bare c cs hq] at h
    simp only [Option.some.injEq] at h
    rw [← h]
    exact find_whitespace_word_break_stop (c :: cs)

theorem parse_words_loop_before (line : List Char) (ig : Bool) :
    ∀ (fuel p : Nat) (acc : parsed_words_t) (b : Bool) (r : parsed_words_t),
      (p = 0 ∨ (line)[p]? = none ∨ ∃ d, (line)[p]? = some d ∧ is_whitespace d = true) →
      parse_words_loop line ig fuel p acc = some (b, r) →
      ∀ w ∈ r.words, w ∈ acc.words ∨
        ((w.start = 0 ∨ ∃ d, (line)[w.start - 1]? = some d ∧ is_whitespace d = true) ∧
          ((line)[w.end_]? = none ∨ ∃ d, (line)[w.end_]? = some d ∧ is_whitespace d = true)) := by
  intro fuel
  induction fuel with
  | zero =>
    intro p acc b r _ h
    simp [parse_words_loop] at h
  | succ fuel ih =>
    intro p acc b r hp h
    rw [parse_words_loop_succ] at h
    by_cases h1 : line.drop p = []
    · rw [if_pos h1] at h
      simp only [Option.some.injEq, Prod.mk.injEq] at h
      obtain ⟨-, rfl⟩ := h
      exact fun w hw => Or.inl hw
    rw [if_neg h1] at h
    by_cases h2 : line.drop (p + skip_whitespace (line.drop p)) = []
    · rw [if_pos h2] at h
      simp only [Option.some.injEq, Prod.mk.injEq] at h
      obtain ⟨-, rfl⟩ := h
      exact fun w hw => Or.inl hw
    rw [if_neg h2] at h
    obtain ⟨c, cs, hd, hw, hget, hlt, hlen⟩ := word_start_facts line p h2
    have hbefore : p + skip_whitespace (line.drop p) = 0 ∨
        ∃ d, (line)[p + skip_whitespace (line.drop p) - 1]? = some d ∧
          is_whitespace d = true := by
      by_cases hk : skip_whitespace (line.drop p) = 0
      · rw [hk, Nat.add_zero] at hget ⊢
        rcases hp with hp | hp | ⟨d, hd1, hd2⟩
        · exact Or.inl hp
        · rw [hp] at hget
          exact Option.noConfusion hget
        · rw [hd1] at hget
          simp only [Option.some.injEq] at hget
          rw [hget, hw] at hd2
          exact Bool.noConfusion hd2
      · right
        obtain ⟨d, hd1, hd2⟩ :=
          skip_whitespace_skipped (line.drop p) (skip_whitespace (line.drop p) - 1) (by omega)
        rw [List.getElem?_drop] at hd1
        have e : p + (skip_whitespace (line.drop p) - 1) =
            p + skip_whitespace (line.drop p) - 1 := by omega
        rw [e] at hd1
        exact ⟨d, hd1, hd2⟩
    have key : ∀ n, ((c :: cs)[n]? = none ∨ ∃ d, (c :: cs)[n]? = some d ∧
          is_whitespace d = true) →
        parse_words_loop line ig fuel (p + skip_whitespace (line.drop p) + n)
          { words := new_word line (p + skip_whitespace (line.drop p))
              (p + skip_whitespace (line.drop p) + n) :: acc.words
            word_count := acc.word_count + 1 } = some (b, r) →
        ∀ w ∈ r.words, w ∈ acc.words ∨
          ((w.start = 0 ∨ ∃ d, (line)[w.start - 1]? = some d ∧ is_whitespace d = true) ∧
            ((line)[w.end_]? = none ∨
              ∃ d, (line)[w.end_]? = some d ∧ is_whitespace d = true)) := by
      intro n hstop hn w hwm
      have hstop' : (line)[p + skip_whitespace (line.drop p) + n]? = none ∨
          ∃ d, (line)[p + skip_whitespace (line.drop p) + n]? = some d ∧
            is_whitespace d = true := by
        rw [← hd, List.getElem?_drop] at hstop
        exact hstop
      rcases ih _ _ _ _ (Or.inr hstop') hn w hwm with hin | hP
      · simp only [List.mem_cons] at hin
        rcases hin with rfl | hin
        · exact Or.inr ⟨hbefore, hstop'⟩
        · exact Or.inl hin
      · exact Or.inr hP
    cases hf : find_word_break (line.drop (p + skip_whitespace (line.drop p))) with
    | some n =>
      rw [hf] at h
      exact key n (find_word_break_stop c cs n (by rw [← hd]; exact hf)) h
    | none =>
      rw [hf] at h
      simp only at h
      by_cases hig : ig = true
      · rw [if_pos hig] at h
        refine key _ ?_ h
        rw [hd]
        exact find_whitespace_word_break_stop (c :: cs)
      · rw [if_neg hig] at h
        simp only [Option.some.injEq, Prod.mk.injEq] at h
        obtain ⟨-, rfl⟩ := h
        exact fun w hw => Or.inl hw

theorem parse_words_before (L : List Char) (ig : Bool) (pw : parsed_words_t) (w : arg_word_t)
    (h : parse_words L ig = some pw) (hw : w ∈ pw.words) :
    (w.start = 0 ∨ ∃ d, L[w.start - 1]? = some d ∧ is_whitespace d = true) ∧
      (L[w.end_]? = none ∨ ∃ d, L[w.end_]? = some d ∧ is_whitespace d = true) := by
  obtain ⟨-, r, hr, rfl⟩ := parse_words_eq_some L ig pw h
  obtain ⟨v, hv, -, t2, t3⟩ := renumber_mem _ _ _ hw
  rcases parse_words_loop_before L ig _ _ _ _ _ (Or.inl rfl) hr v (List.mem_reverse.1 hv) with
    hin | hP
  · simp at hin
  · rw [t2, t3]
    exact hP

/-! ## Claims on empty lines, bare words and dequoting -/

/-- C11, counterexample: for the line of length zero `parse_words` returns
NULL in both modes, the result that also signals a parse error. -/
theorem C11_zero_length_line_gives_null :
    parse_words [] false = none ∧ parse_words [] true = none := by
  decide

/-- C11, amended: for a line of spaces and tabs only, in either mode,
`parse_words` returns NULL when the line has length zero (the guard on
`scu_is_empty_str` leaves before any tokenizing) and an empty word sequence
when the line is not of length zero. -/
theorem C11_blank_line (L : List Char) (ig : Bool)
    (hblank : ∀ c ∈ L, is_whitespace c = true) :
    (L = [] → parse_words L ig = none) ∧
      (L ≠ [] → parse_words L ig = some { words := [], word_count := 0 }) := by
  constructor
  · rintro rfl
    simp [parse_words, scu_is_empty_str]
  · intro hne
    have hloop : parse_words_loop L ig (L.length + 1) 0 { words := [], word_count := 0 } =
        some (true, { words := [], word_count := 0 }) := by
      rw [parse_words_loop_succ]
      have h1 : ¬ List.drop 0 L = [] := by simpa using hne
      rw [if_neg h1]
      have h2 : List.drop (0 + skip_whitespace (List.drop 0 L)) L = [] := by
        rw [List.drop_zero, skip_whitespace_all L hblank]
        simp
      rw [if_pos h2]
    rw [parse_words_of_loop L ig _ hne hloop]
    rfl

/-- C11, amended, at the line of three spaces in strict mode. -/
theorem C11_blank_line_witness :
    parse_words "   ".toList false = some { words := [], word_count := 0 } :=
  (C11_blank_line "   ".toList false (by decide)).2 (by decide)

/-- C12: a word returned by `parse_words` whose first character is neither `'`
nor `"` starts at a character that is not a space or tab and that is the first
of the line or follows a space or tab; it ends exactly at the next space, tab
or end of line; its text is that run of the line, unchanged, so it has no
space or tab and keeps its backslashes and quotes. -/
theorem C12_bare_word (L : List Char) (ig : Bool) (pw : parsed_words_t) (w : arg_word_t)
    (c : Char) (h : parse_words L ig = some pw) (hw : w ∈ pw.words)
    (hstart : L[w.start]? = some c) (hs : c ≠ SQUOTE) (hd : c ≠ DQUOTE) :
    is_whitespace c = false ∧
      (w.start = 0 ∨ ∃ d, L[w.start - 1]? = some d ∧ is_whitespace d = true) ∧
      w.text = some ((L.drop w.start).takeWhile (fun x => !is_whitespace x)) ∧
      w.end_ = w.start + ((L.drop w.start).takeWhile (fun x => !is_whitespace x)).length ∧
      (L[w.end_]? = none ∨ ∃ d, L[w.end_]? = some d ∧ is_whitespace d = true) ∧
      (∀ t, w.text = some t → ∀ x ∈ t, x ≠ SPACE ∧ x ≠ TAB) := by
  obtain ⟨n, c', f1, f2, f3, f4, f5, f6, f7⟩ := parse_words_word L ig pw w h hw
  obtain ⟨b1, b2⟩ := parse_words_before L ig pw w h hw
  rw [hstart] at f5
  simp only [Option.some.injEq] at f5
  subst f5
  have hdrop := drop_of_getElem? L w.start c hstart
  have hbare : find_word_break (L.drop w.start) =
      some (find_whitespace_word_break (L.drop w.start)) := by
    rw [hdrop]
    exact find_word_break_bare c _ (by rintro (e | e) <;> contradiction)
  have hn : n = find_whitespace_word_break (L.drop w.start) := by
    rcases f7 with f | ⟨-, f, -⟩
    · rw [hbare] at f
      simp only [Option.some.injEq] at f
      exact f.symm
    · rw [hbare] at f
      exact Option.noConfusion f
  have ht := find_whitespace_word_break_take (L.drop w.start)
  rw [← hn] at ht
  have htext : w.text = some ((L.drop w.start).takeWhile (fun x => !is_whitespace x)) := by
    rw [f4, ht]
  refine ⟨f6, b1, htext, ?_, b2, ?_⟩
  · rw [← ht, List.length_take, List.length_drop, f3]
    congr 1
    omega
  · intro t htx x hx
    rw [htext] at htx
    simp only [Option.some.injEq] at htx
    rw [← htx] at hx
    have := List.mem_takeWhile_imp hx
    simp only [is_whitespace, Bool.not_eq_true', Bool.or_eq_false_iff,
      decide_eq_false_iff_not] at this
    exact this

/-- C12 at the second word of the line `ab"c d"`; the line `a\ b` gives the
words `a\` and `b`, and `ab"c d"` gives `ab"c` and `d"`. -/
theorem C12_bare_word_witness :
    (is_whitespace 'd' = false ∧
      (5 = 0 ∨ ∃ d, "ab\"c d\"".toList[5 - 1]? = some d ∧ is_whitespace d = true) ∧
      some "d\"".toList =
        some (("ab\"c d\"".toList.drop 5).takeWhile (fun x => !is_whitespace x)) ∧
      7 = 5 + (("ab\"c d\"".toList.drop 5).takeWhile (fun x => !is_whitespace x)).length ∧
      ("ab\"c d\"".toList[7]? = none ∨
        ∃ d, "ab\"c d\"".toList[7]? = some d ∧ is_whitespace d = true) ∧
      (∀ t, some "d\"".toList = some t → ∀ x ∈ t, x ≠ SPACE ∧ x ≠ TAB)) ∧
    parse_words "a\\ b".toList false =
      some { words := [{ index := 0, text := some "a\\".toList, start := 0, end_ := 2 },
                       { index := 1, text := some "b".toList, start := 3, end_ := 4 }]
             word_count := 2 } ∧
    parse_words "ab\"c d\"".toList false =
      some { words := [{ index := 0, text := some "ab\"c".toList, start := 0, end_ := 4 },
                       { index := 1, text := some "d\"".toList, start := 5, end_ := 7 }]
             word_count := 2 } :=
  ⟨C12_bare_word "ab\"c d\"".toList false
      { words := [{ index := 0, text := some "ab\"c".toList, start := 0, end_ := 4 },
                  { index := 1, text := some "d\"".toList, start := 5, end_ := 7 }]
        word_count := 2 }
      { index := 1, text := some "d\"".toList, start := 5, end_ := 7 } 'd'
      (by decide) (by decide) (by decide) (by decide) (by decide),
    by decide, by decide⟩

/-- C19, counterexample: the value made of two single quotes passes
`validate_arg` for the kind `SA_NEW_FILENAME`, although its dequoted form is
absent. -/
theorem C19_two_quotes_accepted :
    (validate_arg (scu_initialize_utils zero_mem zero_mem zero_mem zero_mem) (fun _ => none)
        { kind := sct_arg_kind_t.SA_NEW_FILENAME, optional := false,
          value := some [SQUOTE, SQUOTE] } false).1 = true ∧
      scu_dequote (some [SQUOTE, SQUOTE]) = none := by
  decide

/-- C19, amended: for a present value `v`, `validate_arg` with the kind
`SA_NEW_FILENAME` gives what `scu_validate_filename` gives on `v` as it stands,
without dequoting: it is true only if `v` is non-empty and has none of `<`,
`>`, `|`, `&`, and it is true for every non-empty ASCII value without these
four; the filesystem and `err_printed` play no part. -/
theorem C19_new_filename_is_raw_check (m4 mh m6 mf : Mem) (fs fs2 : filesystem)
    (opt e e2 : Bool) (v : List Char) :
    (validate_arg (scu_initialize_utils m4 mh m6 mf) fs
        { kind := sct_arg_kind_t.SA_NEW_FILENAME, optional := opt, value := some v } e).1 =
      scu_validate_filename (scu_initialize_utils m4 mh m6 mf) v ∧
    (validate_arg (scu_initialize_utils m4 mh m6 mf) fs
        { kind := sct_arg_kind_t.SA_NEW_FILENAME, optional := opt, value := some v } e).1 =
      (validate_arg (scu_initialize_utils m4 mh m6 mf) fs2
        { kind := sct_arg_kind_t.SA_NEW_FILENAME, optional := opt, value := some v } e2).1 ∧
    ((validate_arg (scu_initialize_utils m4 mh m6 mf) fs
        { kind := sct_arg_kind_t.SA_NEW_FILENAME, optional := opt, value := some v } e).1 = true →
      v ≠ [] ∧ ∀ c ∈ v, c ∉ filename_denylist) ∧
    (v ≠ [] → (∀ c ∈ v, c.toNat < 128 ∧ c ∉ filename_denylist) →
      (validate_arg (scu_initialize_utils m4 mh m6 mf) fs
        { kind := sct_arg_kind_t.SA_NEW_FILENAME, optional := opt, value := some v } e).1 =
          true) := by
  have hv : ∀ (f : filesystem) (x : Bool),
      (validate_arg (scu_initialize_utils m4 mh m6 mf) f
        { kind := sct_arg_kind_t.SA_NEW_FILENAME, optional := opt, value := some v } x).1 =
      scu_validate_filename (scu_initialize_utils m4 mh m6 mf) v := fun _ _ => rfl
  refine ⟨hv fs e, by rw [hv fs e, hv fs2 e2], ?_, ?_⟩
  · intro h
    rw [hv fs e] at h
    have hne : v ≠ [] := by
      rintro rfl
      simp [scu_validate_filename, scu_is_empty_str] at h
    refine ⟨hne, ?_⟩
    intro c hc hden
    rw [scu_validate_filename_eq _ v hne] at h
    simp only [match_mask, List.all_eq_true, decide_eq_true_eq] at h
    exact h c hc (filename_mask_denied m4 mh m6 mf c hden)
  · intro hne hall
    rw [hv fs e, scu_validate_filename_eq _ v hne]
    simp only [match_mask, List.all_eq_true, decide_eq_true_eq]
    intro c hc
    rw [filename_mask_allowed m4 mh m6 mf c (hall c hc).1 (hall c hc).2]
    decide

/-- C19, amended, at the value of two double quotes. -/
theorem C19_new_filename_is_raw_check_witness :
    (validate_arg (scu_initialize_utils stale_mem zero_mem zero_mem ones_mem) (fun _ => none)
      { kind := sct_arg_kind_t.SA_NEW_FILENAME, optional := false,
        value := some [DQUOTE, DQUOTE] } false).1 = true :=
  (C19_new_filename_is_raw_check stale_mem zero_mem zero_mem ones_mem (fun _ => none)
      (fun _ => none) false false false [DQUOTE, DQUOTE]).2.2.2 (by decide) (by decide)

/-- C20: for a non-empty string `s` of length `n`: when `n > 1`, the first
character is `'` or `"` and the last character equals the first, `scu_dequote`
returns `s` without its first and last character if `n > 2` and NULL if
`n = 2`; in every other case it returns `s` unchanged.  One pair of quotes is
removed, never more. -/
theorem C20_scu_dequote (s : List Char) (hne : s ≠ []) :
    ((1 < s.length ∧ (s[0]? = some SQUOTE ∨ s[0]? = some DQUOTE) ∧
        s[s.length - 1]? = s[0]?) →
      scu_dequote (some s) =
        if 2 < s.length then some ((s.drop 1).take (s.length - 2)) else none) ∧
    (¬ (1 < s.length ∧ (s[0]? = some SQUOTE ∨ s[0]? = some DQUOTE) ∧
        s[s.length - 1]? = s[0]?) →
      scu_dequote (some s) = some s) := by
  cases s with
  | nil => exact absurd rfl hne
  | cons c cs =>
    have hq : (is_quote_char c = true) ↔
        ((c :: cs)[0]? = some SQUOTE ∨ (c :: cs)[0]? = some DQUOTE) := by
      simp [is_quote_char]
    have hlast : (some c = (c :: cs)[(c :: cs).length - 1]?) ↔
        ((c :: cs)[(c :: cs).length - 1]? = (c :: cs)[0]?) := by
      simp only [List.getElem?_cons_zero]
      exact eq_comm
    constructor
    · rintro ⟨h1, h2, h3⟩
      have hcond : 1 < (c :: cs).length ∧ is_quote_char c = true ∧
          some c = (c :: cs)[(c :: cs).length - 1]? := ⟨h1, hq.2 h2, hlast.2 h3⟩
      simp only [scu_dequote]
      rw [if_pos hcond]
      by_cases h2' : 2 < (c :: cs).length
      · rw [if_pos h2', if_pos (by omega)]
        cases cs with
        | nil => simp at h2'
        | cons d ds =>
          simp only [scu_strndup, List.drop_succ_cons, List.drop_zero]
          rw [if_neg (by omega)]
      · rw [if_neg h2', if_neg (by omega)]
    · intro hnot
      have hcond : ¬ (1 < (c :: cs).length ∧ is_quote_char c = true ∧
          some c = (c :: cs)[(c :: cs).length - 1]?) := by
        rintro ⟨h1, h2, h3⟩
        exact hnot ⟨h1, hq.1 h2, hlast.1 h3⟩
      simp only [scu_dequote]
      rw [if_neg hcond]
      rfl

/-- C20 at the string of two quotes, `a`, two quotes: one pair is removed. -/
theorem C20_scu_dequote_witness :
    scu_dequote (some [SQUOTE, SQUOTE, 'a', SQUOTE, SQUOTE]) = some [SQUOTE, 'a', SQUOTE] ∧
      scu_dequote (some [SQUOTE, 'a', 'b', 'c', DQUOTE]) =
        some [SQUOTE, 'a', 'b', 'c', DQUOTE] ∧
      scu_dequote (some [DQUOTE]) = some [DQUOTE] :=
  ⟨(C20_scu_dequote [SQUOTE, SQUOTE, 'a', SQUOTE, SQUOTE] (by decide)).1 (by decide),
    (C20_scu_dequote [SQUOTE, 'a', 'b', 'c', DQUOTE] (by decide)).2 (by decide),
    (C20_scu_dequote [DQUOTE] (by decide)).2 (by decide)⟩

/-! ## Facts about `strcmp` and the registry -/

theorem strcmp_self (x : List Char) : strcmp x x = 0 := by
  induction x with
  | nil => rfl
  | cons a as ih => simp [strcmp, ih]

theorem strcmp_eq_zero (x y : List Char) (h : strcmp x y = 0) : x = y := by
  induction x generalizing y with
  | nil =>
    cases y with
    | nil => rfl
    | cons b bs => simp [strcmp] at h
  | cons a as ih =>
    cases y with
    | nil => simp [strcmp] at h
    | cons b bs =>
      simp only [strcmp] at h
      split_ifs at h with h1 h2
      · rw [h1, ih bs h]
      · omega

theorem strcmp_eq_zero_iff (x y : List Char) : strcmp x y = 0 ↔ x = y :=
  ⟨strcmp_eq_zero x y, fun h => h ▸ strcmp_self x⟩

theorem strcmp_cons_le (a b : Char) (x y : List Char) :
    strcmp (a :: x) (b :: y) ≤ 0 ↔ a.toNat < b.toNat ∨ (a = b ∧ strcmp x y ≤ 0) := by
  simp only [strcmp]
  split_ifs with h1 h2
  · subst h1
    simp
  · simp [h2]
  · constructor
    · intro h
      omega
    · rintro (h | ⟨h, -⟩)
      · exact absurd h h2
      · exact absurd h h1

theorem strcmp_total (x y : List Char) : strcmp x y ≤ 0 ∨ strcmp y x ≤ 0 := by
  induction x generalizing y with
  | nil =>
    cases y with
    | nil => simp [strcmp]
    | cons b bs => simp [strcmp]
  | cons a as ih =>
    cases y with
    | nil => simp [strcmp]
    | cons b bs =>
      rw [strcmp_cons_le, strcmp_cons_le]
      by_cases hab : a = b
      · subst hab
        rcases ih bs with h | h
        · exact Or.inl (Or.inr ⟨rfl, h⟩)
        · exact Or.inr (Or.inr ⟨rfl, h⟩)
      · have := toNat_ne_of_ne a b hab
        rcases Nat.lt_or_gt_of_ne this with h | h
        · exact Or.inl (Or.inl h)
        · exact Or.inr (Or.inl h)

theorem strcmp_trans (x y z : List Char) (h1 : strcmp x y ≤ 0) (h2 : strcmp y z ≤ 0) :
    strcmp x z ≤ 0 := by
  induction x generalizing y z with
  | nil =>
    cases z with
    | nil => simp [strcmp]
    | cons c cs => simp [strcmp]
  | cons a as ih =>
    cases y with
    | nil => simp [strcmp] at h1
    | cons b bs =>
      cases z with
      | nil => simp [strcmp] at h2
      | cons c cs =>
        rw [strcmp_cons_le] at h1 h2 ⊢
        rcases h1 with h1 | ⟨rfl, h1⟩
        · rcases h2 with h2 | ⟨rfl, h2⟩
          · exact Or.inl (by omega)
          · exact Or.inl h1
        · rcases h2 with h2 | ⟨rfl, h2⟩
          · exact Or.inl h2
          · exact Or.inr ⟨rfl, ih bs cs h1 h2⟩

theorem qsort_perm (cmp : Nat → Nat → Int) (base : List Nat) : (qsort cmp base).Perm base :=
  List.perm_insertionSort _ base

theorem qsort_sorted (core : sct_core_t) (base : List Nat) :
    (qsort (cmp_cmds core) base).Pairwise (fun a b => cmp_cmds core a b ≤ 0) := by
  haveI : IsTotal Nat (fun a b => cmp_cmds core a b ≤ 0) :=
    ⟨fun a b => strcmp_total _ _⟩
  haveI : IsTrans Nat (fun a b => cmp_cmds core a b ≤ 0) :=
    ⟨fun a b c => strcmp_trans _ _ _⟩
  exact List.sorted_insertionSort (fun a b => cmp_cmds core a b ≤ 0) base

theorem get_command_by_name_loop_none (core : sct_core_t) (name : List Char) (l : List Nat) :
    get_command_by_name_loop core name l = none ↔ ∀ p ∈ l, name_at core p ≠ name := by
  induction l with
  | nil => simp [get_command_by_name_loop]
  | cons p rest ih =>
    simp only [get_command_by_name_loop, List.mem_cons, forall_eq_or_imp]
    by_cases h : strcmp (name_at core p) name = 0
    · rw [if_pos h]
      simp [strcmp_eq_zero _ _ h]
    · rw [if_neg h, ih]
      have : name_at core p ≠ name := fun e => h ((strcmp_eq_zero_iff _ _).2 e)
      simp [this]

theorem get_command_by_name_loop_some (core : sct_core_t) (name : List Char) (l : List Nat)
    (p : Nat) (h : get_command_by_name_loop core name l = some p) :
    p ∈ l ∧ name_at core p = name := by
  induction l with
  | nil => simp [get_command_by_name_loop] at h
  | cons q rest ih =>
    simp only [get_command_by_name_loop] at h
    by_cases hq : strcmp (name_at core q) name = 0
    · rw [if_pos hq] at h
      simp only [Option.some.injEq] at h
      subst h
      exact ⟨by simp, strcmp_eq_zero _ _ hq⟩
    · rw [if_neg hq] at h
      obtain ⟨h1, h2⟩ := ih h
      exact ⟨by simp [h1], h2⟩

theorem check_optional_order_iff (args : List sct_arg_t) (had_opt : Bool) :
    check_optional_order args had_opt = false ↔
      (had_opt = true ∧ ∃ b ∈ args, b.optional = false) ∨ required_after_optional args := by
  induction args generalizing had_opt with
  | nil =>
    simp [check_optional_order, required_after_optional]
  | cons a rest ih =>
    have hrao : required_after_optional (a :: rest) ↔
        (a.optional = true ∧ ∃ b ∈ rest, b.optional = false) ∨
          required_after_optional rest := by
      constructor
      · rintro ⟨i, j, x, y, hij, hx, hy, ox, oy⟩
        obtain ⟨j', rfl⟩ : ∃ j', j = j' + 1 := ⟨j - 1, by omega⟩
        simp only [List.getElem?_cons_succ] at hy
        cases i with
        | zero =>
          simp only [List.getElem?_cons_zero, Option.some.injEq] at hx
          subst hx
          exact Or.inl ⟨ox, y, List.getElem?_mem hy, oy⟩
        | succ i' =>
          simp only [List.getElem?_cons_succ] at hx
          exact Or.inr ⟨i', j', x, y, by omega, hx, hy, ox, oy⟩
      · rintro (⟨oa, b, hb, ob⟩ | ⟨i, j, x, y, hij, hx, hy, ox, oy⟩)
        · obtain ⟨j, hj⟩ := List.mem_iff_getElem?.1 hb
          exact ⟨0, j + 1, a, b, by omega, by simp, by simpa using hj, oa, ob⟩
        · exact ⟨i + 1, j + 1, x, y, by omega, by simpa using hx, by simpa using hy, ox, oy⟩
    simp only [check_optional_order]
    by_cases ha : a.optional = true
    · rw [if_pos ha, ih true, hrao]
      simp only [true_and, List.mem_cons, exists_eq_or_imp, ha, Bool.true_eq_false, false_or]
      constructor
      · rintro (h | h)
        · exact Or.inr (Or.inl h)
        · exact Or.inr (Or.inr h)
      · rintro (⟨-, h⟩ | h | h)
        · exact Or.inl h
        · exact Or.inl h
        · exact Or.inr h
    · rw [if_neg ha]
      have ha' : a.optional = false := by simpa using ha
      by_cases hh : had_opt = true
      · rw [if_pos hh]
        simp only [true_iff]
        exact Or.inl ⟨hh, a, by simp, ha'⟩
      · rw [if_neg hh, ih had_opt, hrao]
        simp [hh, ha']

theorem getD_append_old (heap : List sct_command_t) (x : sct_command_t) (p : Nat)
    (h : p < heap.length) : (heap ++ [x]).getD p zero_command = heap.getD p zero_command := by
  simp [List.getD_eq_getElem?_getD, List.getElem?_append_left h]

theorem getD_append_new (heap : List sct_command_t) (x : sct_command_t) :
    (heap ++ [x]).getD heap.length zero_command = x := by
  simp [List.getD_eq_getElem?_getD]

theorem set_append_new (heap : List sct_command_t) (x y : sct_command_t) :
    (heap ++ [x]).set heap.length y = heap ++ [y] := by
  induction heap with
  | nil => rfl
  | cons a as ih => simp [ih]

theorem name_at_append_congr (c1 c2 : sct_core_t) (heap : List sct_command_t)
    (x y : sct_command_t) (h1 : c1.heap = heap ++ [x]) (h2 : c2.heap = heap ++ [y])
    (hxy : x.name = y.name) : name_at c1 = name_at c2 := by
  funext p
  simp only [name_at, deref, h1, h2, List.getD_eq_getElem?_getD]
  rcases Nat.lt_trichotomy p heap.length with h | h | h
  · rw [List.getElem?_append_left h, List.getElem?_append_left h]
  · subst h
    simp [hxy]
  · rw [List.getElem?_eq_none (by simp; omega), List.getElem?_eq_none (by simp; omega)]

theorem sct_add_command_success (core : sct_core_t) (name : List Char) (args : List sct_arg_t)
    (exec_fn : sct_exec_cb_t) (h1 : check_optional_order args false = true)
    (h2 : get_command_by_name core name = none) :
    ∃ (c : sct_core_t) (x : sct_command_t),
      sct_add_command core name args exec_fn = (c, true) ∧
      c.heap = core.heap ++ [x] ∧ x.name = scu_strdup (some name) ∧ x.exec_fn = exec_fn ∧
      x.argc = args.length ∧
      x.args = copy_args (List.replicate SCT_MAX_ARGS zero_arg) args 0 ∧
      c.commands = core.heap.length :: core.commands ∧
      c.cmd_count = core.cmd_count + 1 ∧
      c.cmd_idx = qsort (cmp_cmds c) c.commands := by
  unfold sct_add_command
  rw [if_neg (by simp [h1]), if_neg (by simp [h2])]
  simp only [create_and_install_command, deref]
  rw [getD_append_new, set_append_new]
  refine ⟨_, _, rfl, rfl, rfl, rfl, rfl, rfl, rfl, rfl, ?_⟩
  simp only
  congr 1
  funext a b
  unfold cmp_cmds
  congr 1 <;> exact congrFun (name_at_append_congr _ _ core.heap _ _ (by rfl) (by rfl) (by rfl)) _

theorem sct_add_command_failure (core : sct_core_t) (name : List Char) (args : List sct_arg_t)
    (exec_fn : sct_exec_cb_t)
    (h : check_optional_order args false = false ∨ get_command_by_name core name ≠ none) :
    sct_add_command core name args exec_fn = (core, false) := by
  unfold sct_add_command
  by_cases h1 : check_optional_order args false = false
  · rw [if_pos h1]
  · rw [if_neg h1]
    rcases h with h | h
    · exact absurd h h1
    · rw [if_pos (by
        cases hg : get_command_by_name core name with
        | none => exact absurd hg h
        | some p => rfl)]

theorem sct_add_command_result (core : sct_core_t) (name : List Char) (args : List sct_arg_t)
    (exec_fn : sct_exec_cb_t) :
    (sct_add_command core name args exec_fn).2 = true ↔
      check_optional_order args false = true ∧ get_command_by_name core name = none := by
  by_cases h1 : check_optional_order args false = true
  · cases h2 : get_command_by_name core name with
    | none =>
      obtain ⟨c, x, e, -⟩ := sct_add_command_success core name args exec_fn h1 h2
      simp [e, h1]
    | some p =>
      rw [sct_add_command_failure core name args exec_fn (Or.inr (by simp [h2]))]
      simp
  · rw [sct_add_command_failure core name args exec_fn (Or.inl (by simpa using h1))]
    simp [h1]

theorem name_at_eq (core : sct_core_t) (p : Nat) :
    name_at core p = ((core.heap.getD p zero_command).name).getD [] := rfl

theorem scu_strdup_getD (name : List Char) : (scu_strdup (some name)).getD [] = name := by
  cases name <;> rfl

theorem scu_strdup_of_ne_nil (name : List Char) (h : name ≠ []) :
    scu_strdup (some name) = some name := by
  cases name with
  | nil => exact absurd rfl h
  | cons c cs => rfl

theorem names_distinct_of_sorted (core : sct_core_t) (l : List Nat)
    (h : l.Pairwise (fun a b => cmp_cmds core a b < 0)) :
    l.Pairwise (fun a b => name_at core a ≠ name_at core b) := by
  refine h.imp ?_
  intro a b hab e
  unfold cmp_cmds at hab
  rw [e, strcmp_self] at hab
  omega

theorem registry_ok_not_found (core : sct_core_t) (hok : registry_ok core) (name : List Char) :
    get_command_by_name core name = none ↔ ∀ p ∈ core.commands, name_at core p ≠ name := by
  obtain ⟨h1, h2, -, -, -⟩ := hok
  unfold get_command_by_name
  rw [← h1, List.take_length, get_command_by_name_loop_none]
  constructor
  · intro h p hp
    exact h p (h2.mem_iff.2 hp)
  · intro h p hp
    exact h p (h2.mem_iff.1 hp)

theorem sct_initialize_ok : registry_ok sct_initialize := by
  refine ⟨rfl, List.Perm.refl _, List.Pairwise.nil, ?_, ?_⟩ <;> simp [ sct_initialize]

theorem sct_add_command_ok (core : sct_core_t) (hok : registry_ok core) (name : List Char)
    (hname : name ≠ []) (args : List sct_arg_t) (exec_fn : sct_exec_cb_t) :
    registry_ok (sct_add_command core name args exec_fn).1 := by
  by_cases h1 : check_optional_order args false = true
  swap
  · rw [sct_add_command_failure core name args exec_fn (Or.inl (by simpa using h1))]
    exact hok
  cases h2 : get_command_by_name core name with
  | some p =>
    rw [sct_add_command_failure core name args exec_fn (Or.inr (by simp [h2]))]
    exact hok
  | none =>
    obtain ⟨c, x, e, c1, x1, -, -, -, c2, c3, c4⟩ :=
      sct_add_command_success core name args exec_fn h1 h2
    rw [e]
    show registry_ok c
    have hnf := (registry_ok_not_found core hok name).1 h2
    obtain ⟨k1, k2, k3, k4, k5⟩ := hok
    have hold : ∀ p, p < core.heap.length → deref c p = deref core p := by
      intro p hp
      simp only [deref, c1]
      exact getD_append_old core.heap x p hp
    have hnew : deref c core.heap.length = x := by
      simp only [deref, c1]
      exact getD_append_new core.heap x
    have n1 : ∀ p ∈ core.commands, name_at c p = name_at core p := by
      intro p hp
      simp only [name_at, hold p (k4 p hp)]
    have n2 : name_at c core.heap.length = name := by
      simp only [name_at, hnew, x1, scu_strdup_getD]
    have hdist : c.commands.Pairwise (fun a b => name_at c a ≠ name_at c b) := by
      rw [c2, List.pairwise_cons]
      constructor
      · intro b hb
        rw [n2, n1 b hb]
        exact fun e => hnf b hb e.symm
      · have hd := names_distinct_of_sorted core core.cmd_idx k3
        have hd2 : core.commands.Pairwise (fun a b => name_at core a ≠ name_at core b) :=
          (k2.pairwise_iff (fun {a b} h e => h e.symm)).1 hd
        refine hd2.imp_of_mem ?_
        intro a b ha hb hab
        rw [n1 a ha, n1 b hb]
        exact hab
    have hperm : c.cmd_idx.Perm c.commands := by
      rw [c4]
      exact qsort_perm _ _
    refine ⟨?_, hperm, ?_, ?_, ?_⟩
    · rw [hperm.length_eq, c2, c3, List.length_cons, ← k2.length_eq, k1]
    · have hs : c.cmd_idx.Pairwise (fun a b => cmp_cmds c a b ≤ 0) := by
        rw [c4]
        exact qsort_sorted c c.commands
      have hd' : c.cmd_idx.Pairwise (fun a b => name_at c a ≠ name_at c b) :=
        (hperm.pairwise_iff (fun {a b} h e => h e.symm)).2 hdist
      refine (hs.and hd').imp ?_
      rintro a b ⟨hle, hne⟩
      unfold cmp_cmds at hle ⊢
      have : strcmp (name_at c a) (name_at c b) ≠ 0 := fun e => hne (strcmp_eq_zero _ _ e)
      omega
    · intro p hp
      rw [c2] at hp
      simp only [List.mem_cons] at hp
      rw [c1]
      simp only [List.length_append, List.length_singleton]
      rcases hp with rfl | hp
      · omega
      · have := k4 p hp
        omega
    · intro p hp
      rw [c2] at hp
      simp only [List.mem_cons] at hp
      rcases hp with rfl | hp
      · rw [hnew, x1]
        exact ⟨name, scu_strdup_of_ne_nil name hname, hname⟩
      · rw [hold p (k4 p hp)]
        exact k5 p hp

theorem reachable_ok (core : sct_core_t) (h : reachable core) : registry_ok core := by
  induction h with
  | init => exact sct_initialize_ok
  | add core name args exec_fn _ hname _ ih => exact sct_add_command_ok core ih name hname args exec_fn

theorem copy_args_take (args : List sct_arg_t) (h : args.length ≤ SCT_MAX_ARGS) :
    (copy_args (List.replicate SCT_MAX_ARGS zero_arg) args 0).take args.length = args ∧
      (copy_args (List.replicate SCT_MAX_ARGS zero_arg) args 0).length = SCT_MAX_ARGS := by
  match args, h with
  | [], _ => exact ⟨rfl, rfl⟩
  | [a], _ => exact ⟨rfl, rfl⟩
  | [a, b], _ => exact ⟨rfl, rfl⟩
  | a :: b :: c :: rest, h =>
    simp only [List.length_cons, SCT_MAX_ARGS] at h
    omega

theorem registry_ok_name_iff (core : sct_core_t) (hok : registry_ok core) (name : List Char)
    (p : Nat) (hp : p ∈ core.commands) :
    name_at core p ≠ name ↔ (deref core p).name ≠ some name := by
  obtain ⟨n, hn, hne⟩ := hok.2.2.2.2 p hp
  simp only [name_at, hn, Option.getD_some, ne_eq, Option.some.injEq]

/-! ## Claims on the registry -/

/-- C13: in a consistent registry state, with a non-empty name and at most
`SCT_MAX_ARGS` specifications, `sct_add_command` returns true exactly when no
required specification follows an optional one and no command of the list has
that name; when it returns false the registry is the one it was; when it
returns true one command has been put in front of the list, with that name,
callback and specifications. -/
theorem C13_sct_add_command (core : sct_core_t) (hok : registry_ok core) (name : List Char)
    (hname : name ≠ []) (args : List sct_arg_t) (hargc : args.length ≤ SCT_MAX_ARGS)
    (exec_fn : sct_exec_cb_t) :
    ((sct_add_command core name args exec_fn).2 = true ↔
      ¬ required_after_optional args ∧
        ∀ p ∈ core.commands, (deref core p).name ≠ some name) ∧
    ((sct_add_command core name args exec_fn).2 = false →
      (sct_add_command core name args exec_fn).1 = core) ∧
    ((sct_add_command core name args exec_fn).2 = true →
      ∃ p, (sct_add_command core name args exec_fn).1.commands = p :: core.commands ∧
        p ∉ core.commands ∧
        (deref (sct_add_command core name args exec_fn).1 p).name = some name ∧
        (deref (sct_add_command core name args exec_fn).1 p).exec_fn = exec_fn ∧
        (deref (sct_add_command core name args exec_fn).1 p).argc = args.length ∧
        (deref (sct_add_command core name args exec_fn).1 p).args.take args.length = args) := by
  have hcheck : check_optional_order args false = true ↔ ¬ required_after_optional args := by
    have := check_optional_order_iff args false
    simp only [Bool.false_eq_true, false_and, false_or] at this
    rw [← this]
    simp
  have hfind : get_command_by_name core name = none ↔
      ∀ p ∈ core.commands, (deref core p).name ≠ some name := by
    rw [registry_ok_not_found core hok name]
    constructor
    · intro h p hp
      exact (registry_ok_name_iff core hok name p hp).1 (h p hp)
    · intro h p hp
      exact (registry_ok_name_iff core hok name p hp).2 (h p hp)
  refine ⟨?_, ?_, ?_⟩
  · rw [sct_add_command_result, hcheck, hfind]
  · intro hf
    have hnot : ¬ (check_optional_order args false = true ∧
        get_command_by_name core name = none) := by
      rw [← sct_add_command_result core name args exec_fn, hf]
      simp
    by_cases h1 : check_optional_order args false = true
    · rw [sct_add_command_failure core name args exec_fn (Or.inr (fun h2 => hnot ⟨h1, h2⟩))]
    · rw [sct_add_command_failure core name args exec_fn (Or.inl (by simpa using h1))]
  · intro ht
    obtain ⟨h1, h2⟩ := (sct_add_command_result core name args exec_fn).1 ht
    obtain ⟨c, x, e, c1, x1, x2, x3, x4, c2, -, -⟩ :=
      sct_add_command_success core name args exec_fn h1 h2
    rw [e]
    have hnew : deref c core.heap.length = x := by
      simp only [deref, c1]
      exact getD_append_new core.heap x
    refine ⟨core.heap.length, c2, ?_, ?_, ?_, ?_, ?_⟩
    · intro hin
      exact Nat.lt_irrefl _ (hok.2.2.2.1 _ hin)
    · show (deref c core.heap.length).name = some name
      rw [hnew, x1, scu_strdup_of_ne_nil name hname]
    · show (deref c core.heap.length).exec_fn = exec_fn
      rw [hnew, x2]
    · show (deref c core.heap.length).argc = args.length
      rw [hnew, x3]
    · show (deref c core.heap.length).args.take args.length = args
      rw [hnew, x4]
      exact (copy_args_take args hargc).1

/-- C13 in the empty registry: the list required, optional is accepted and the
list optional, required is rejected and leaves the registry as it was. -/
theorem C13_sct_add_command_witness :
    (¬ required_after_optional
        [{ kind := sct_arg_kind_t.SA_FILENAME, optional := false, value := none },
         { kind := sct_arg_kind_t.SA_TEXT, optional := true, value := none }] ∧
      ∀ p ∈ sct_initialize.commands, (deref sct_initialize p).name ≠ some "cp".toList) ∧
    (sct_add_command sct_initialize "cp".toList
        [{ kind := sct_arg_kind_t.SA_TEXT, optional := true, value := none },
         { kind := sct_arg_kind_t.SA_FILENAME, optional := false, value := none }]
        (some 6)).1 = sct_initialize :=
  ⟨(C13_sct_add_command sct_initialize sct_initialize_ok "cp".toList (by decide)
      [{ kind := sct_arg_kind_t.SA_FILENAME, optional := false, value := none },
       { kind := sct_arg_kind_t.SA_TEXT, optional := true, value := none }]
      (by decide) (some 6)).1.1 (by decide),
    (C13_sct_add_command sct_initialize sct_initialize_ok "cp".toList (by decide)
      [{ kind := sct_arg_kind_t.SA_TEXT, optional := true, value := none },
       { kind := sct_arg_kind_t.SA_FILENAME, optional := false, value := none }]
      (by decide) (some 6)).2.1 (by decide)⟩

/-- C14: in every registry state reached from `sct_initialize` by calls of
`sct_add_command`, successful or not, the index has `cmd_count` entries, is an
arrangement of the pointers of the command list, and ascends strictly under
`strcmp` of the names; every name is a non-empty string and no two commands
of the list have the same name. -/
theorem C14_index_invariant (core : sct_core_t) (h : reachable core) :
    core.cmd_idx.length = core.cmd_count ∧
      core.cmd_idx.Perm core.commands ∧
      core.cmd_idx.Pairwise (fun a b => strcmp (name_at core a) (name_at core b) < 0) ∧
      (∀ p ∈ core.commands, ∃ n, (deref core p).name = some n ∧ n ≠ [] ∧ name_at core p = n) ∧
      core.commands.Pairwise (fun p q => (deref core p).name ≠ (deref core q).name) := by
  obtain ⟨k1, k2, k3, k4, k5⟩ := reachable_ok core h
  refine ⟨k1, k2, k3, ?_, ?_⟩
  · intro p hp
    obtain ⟨n, hn, hne⟩ := k5 p hp
    exact ⟨n, hn, hne, by simp [name_at, hn]⟩
  · have hd := names_distinct_of_sorted core core.cmd_idx k3
    have hd2 : core.commands.Pairwise (fun a b => name_at core a ≠ name_at core b) :=
      (k2.pairwise_iff (fun {a b} h e => h e.symm)).1 hd
    refine hd2.imp ?_
    intro a b hab e
    apply hab
    simp only [name_at, e]

/-- C14 after the registration of the built-in commands: the index lists `cd`,
`cp`, `grep`, `ls`, `ping`, `pwd` in this order. -/
theorem C14_index_invariant_witness :
    ((sct_init_builtin_commands sct_initialize).cmd_idx.length =
        (sct_init_builtin_commands sct_initialize).cmd_count ∧
      (sct_init_builtin_commands sct_initialize).cmd_idx.Perm
        (sct_init_builtin_commands sct_initialize).commands ∧
      (sct_init_builtin_commands sct_initialize).cmd_idx.Pairwise
        (fun a b => strcmp (name_at (sct_init_builtin_commands sct_initialize) a)
          (name_at (sct_init_builtin_commands sct_initialize) b) < 0) ∧
      (∀ p ∈ (sct_init_builtin_commands sct_initialize).commands,
        ∃ n, (deref (sct_init_builtin_commands sct_initialize) p).name = some n ∧ n ≠ [] ∧
          name_at (sct_init_builtin_commands sct_initialize) p = n) ∧
      (sct_init_builtin_commands sct_initialize).commands.Pairwise
        (fun p q => (deref (sct_init_builtin_commands sct_initialize) p).name ≠
          (deref (sct_init_builtin_commands sct_initialize) q).name)) ∧
    (sct_init_builtin_commands sct_initialize).cmd_idx.map
        (name_at (sct_init_builtin_commands sct_initialize)) =
      ["cd".toList, "cp".toList, "grep".toList, "ls".toList, "ping".toList, "pwd".toList] :=
  ⟨C14_index_invariant (sct_init_builtin_commands sct_initialize)
      (reachable.add _ "cp".toList _ (some 6)
        (reachable.add _ "ping".toList _ (some 5)
          (reachable.add _ "grep".toList _ (some 4)
            (reachable.add _ "pwd".toList _ (some 3)
              (reachable.add _ "cd".toList _ (some 2)
                (reachable.add _ "ls".toList _ (some 1) reachable.init
                  (by decide) (by decide))
                (by decide) (by decide))
              (by decide) (by decide))
            (by decide) (by decide))
          (by decide) (by decide))
        (by decide) (by decide)),
    by decide⟩

/-! ## Facts about `command_from_words` -/

theorem deref_set_same (core : sct_core_t) (p : Nat) (x : sct_command_t)
    (h : p < core.heap.length) :
    deref { core with heap := core.heap.set p x } p = x := by
  simp [deref, List.getD_eq_getElem?_getD, List.getElem?_set_self h]

theorem deref_set_other (core : sct_core_t) (p q : Nat) (x : sct_command_t) (h : p ≠ q) :
    deref { core with heap := core.heap.set p x } q = deref core q := by
  simp [deref, List.getD_eq_getElem?_getD, List.getElem?_set_ne h]

theorem reset_args_length (argc : Nat) (args : List sct_arg_t) :
    (reset_args argc args).length = args.length := by
  induction args generalizing argc with
  | nil => cases argc <;> rfl
  | cons a rest ih =>
    cases argc with
    | zero => rfl
    | succ n => simp [reset_args, ih]

theorem reset_args_getElem? (argc : Nat) (args : List sct_arg_t) (i : Nat) :
    (reset_args argc args)[i]? =
      (args[i]?).map (fun a => if i < argc then { a with value := none } else a) := by
  induction args generalizing argc i with
  | nil => cases argc <;> simp [reset_args]
  | cons a rest ih =>
    cases argc with
    | zero => simp [reset_args]
    | succ n =>
      cases i with
      | zero => simp [reset_args]
      | succ j => simp [reset_args, ih]

theorem bind_words_cons (argc k : Nat) (w : arg_word_t) (rest : List arg_word_t)
    (args : List sct_arg_t) (hw : w.index = k + 1) :
    bind_words argc (w :: rest) args =
      if argc ≤ k then args
      else bind_words argc rest
        (args.modify (fun arg => { arg with value := scu_strdup w.text }) k) := by
  simp only [bind_words, hw]
  have e : ((k + 1 : Nat) : Int) - 1 = (k : Int) := by omega
  rw [e]
  by_cases h : argc ≤ k
  · rw [if_pos h, if_pos (by omega)]
  · rw [if_neg h, if_neg (by omega), if_neg (by omega)]
    simp

theorem bind_words_spec (argc : Nat) (rest : List arg_word_t) :
    ∀ (args : List sct_arg_t) (k : Nat),
      (∀ (j : Nat) (w : arg_word_t), rest[j]? = some w → w.index = k + j + 1) →
      (bind_words argc rest args).length = args.length ∧
      ∀ i, (bind_words argc rest args)[i]? =
        (args[i]?).map (fun a =>
          if k ≤ i ∧ i < argc ∧ i - k < rest.length then
            { a with value := scu_strdup ((rest[i - k]?).bind (fun w => w.text)) }
          else a) := by
  induction rest with
  | nil =>
    intro args k _
    refine ⟨rfl, fun i => ?_⟩
    simp [bind_words]
  | cons w rest ih =>
    intro args k hidx
    have hw : w.index = k + 1 := by simpa using hidx 0 w (by simp)
    rw [bind_words_cons argc k w rest args hw]
    by_cases h : argc ≤ k
    · rw [if_pos h]
      refine ⟨rfl, fun i => ?_⟩
      have : ¬ (k ≤ i ∧ i < argc ∧ i - k < (w :: rest).length) := by omega
      simp only [this, if_false]
      simp
    · rw [if_neg h]
      obtain ⟨h1, h2⟩ := ih (args.modify (fun arg => { arg with value := scu_strdup w.text }) k)
        (k + 1) (fun j v hv => by
          have := hidx (j + 1) v (by simpa using hv)
          omega)
      refine ⟨by rw [h1, List.length_modify], fun i => ?_⟩
      rw [h2 i, List.getElem?_modify]
      cases ha : args[i]? with
      | none => simp
      | some a =>
        simp only [Option.map_eq_map, Option.map_some', List.length_cons, Option.some.injEq]
        by_cases hki : k = i
        · subst hki
          have c1 : ¬ (k + 1 ≤ k ∧ k < argc ∧ k - (k + 1) < rest.length) := by omega
          have c2 : k ≤ k ∧ k < argc ∧ k - k < rest.length + 1 := by omega
          simp [c1, c2]
        · rw [if_neg hki]
          by_cases hc : k + 1 ≤ i ∧ i < argc ∧ i - (k + 1) < rest.length
          · have c2 : k ≤ i ∧ i < argc ∧ i - k < rest.length + 1 := by omega
            rw [if_pos hc, if_pos c2]
            obtain ⟨m, hm⟩ : ∃ m, i - k = m + 1 := ⟨i - k - 1, by omega⟩
            have e : i - (k + 1) = m := by omega
            rw [hm, e]
            simp
          · have c2 : ¬ (k ≤ i ∧ i < argc ∧ i - k < rest.length + 1) := by omega
            rw [if_neg hc, if_neg c2]

theorem command_from_words_found (core : sct_core_t) (words : parsed_words_t)
    (first : arg_word_t) (rest : List arg_word_t) (p : Nat)
    (hcount : words.word_count > 0) (hwords : words.words = first :: rest)
    (hfind : get_command_by_name core (first.text.getD []) = some p)
    (hp : p < core.heap.length) :
    ∃ c, command_from_words core words = (c, some p) ∧
      c.commands = core.commands ∧ c.cmd_idx = core.cmd_idx ∧ c.cmd_count = core.cmd_count ∧
      c.heap.length = core.heap.length ∧
      (∀ q, q ≠ p → deref c q = deref core q) ∧
      deref c p = { deref core p with
        args := bind_words (deref core p).argc rest
          (reset_args (deref core p).argc (deref core p).args) } := by
  unfold command_from_words
  rw [if_pos hcount, hwords]
  simp only [hfind]
  have h1 : deref (reset_command_args core p) p =
      { deref core p with args := reset_args (deref core p).argc (deref core p).args } :=
    deref_set_same core p _ hp
  have hlen : (reset_command_args core p).heap.length = core.heap.length := by
    simp [reset_command_args]
  refine ⟨_, rfl, rfl, rfl, rfl, ?_, ?_, ?_⟩
  · simp [reset_command_args]
  · intro q hq
    rw [deref_set_other _ p q _ (fun e => hq e.symm)]
    exact deref_set_other core p q _ (fun e => hq e.symm)
  · rw [deref_set_same _ p _ (by rw [hlen]; exact hp), h1]

theorem command_from_words_none (core : sct_core_t) (words : parsed_words_t)
    (h : words.word_count = 0 ∨ words.words = [] ∨
      ∃ first rest, words.words = first :: rest ∧
        get_command_by_name core (first.text.getD []) = none) :
    command_from_words core words = (core, none) := by
  unfold command_from_words
  by_cases hc : words.word_count > 0
  · rw [if_pos hc]
    rcases h with h | h | ⟨first, rest, h, hg⟩
    · omega
    · rw [h]
    · rw [h]
      simp only [hg]
  · rw [if_neg hc]

theorem parse_words_index (L : List Char) (ig : Bool) (pw : parsed_words_t)
    (h : parse_words L ig = some pw) :
    pw.word_count = pw.words.length ∧
      ∀ (i : Nat) (w : arg_word_t), pw.words[i]? = some w →
        w.index = i ∧ ∃ t, w.text = some t ∧ t ≠ [] := by
  obtain ⟨new, e1, e2, -, -⟩ := parse_words_spec L ig pw h
  refine ⟨by rw [e1, renumber_length, List.length_reverse, e2], ?_⟩
  intro i w hi
  have hmem : w ∈ pw.words := List.getElem?_mem hi
  obtain ⟨n, c, f1, f2, -, f4, -, -, -⟩ := parse_words_word L ig pw w h hmem
  constructor
  · rw [e1, renumber_getElem?] at hi
    cases hv : new.reverse[i]? with
    | none =>
      rw [hv] at hi
      exact Option.noConfusion hi
    | some v =>
      rw [hv] at hi
      simp only [Option.map_some', Option.some.injEq] at hi
      rw [← hi]
      simp
  · refine ⟨_, f4, ?_⟩
    intro e
    have := congrArg List.length e
    simp only [List.length_take, List.length_drop, List.length_nil] at this
    omega

theorem scu_strdup_some_ne_nil (t : List Char) (h : t ≠ []) : scu_strdup (some t) = some t :=
  scu_strdup_of_ne_nil t h

/-! ## Claims on binding and dispatch -/

/-- C17: when the first word of a word sequence returned by `parse_words`
names a registered command (an allocated block with `argc ≤ SCT_MAX_ARGS`
slots in its array), then after `command_from_words`, whatever the slots held
before, slot `i < argc` holds the text of word `i + 1` if `i + 1 < word_count`
and no value otherwise; further words are dropped; the name, `argc`, callback,
kinds and optional flags of the command, the other commands and the index are
as before. -/
theorem C17_command_from_words (core : sct_core_t) (L : List Char) (ig : Bool)
    (pw : parsed_words_t) (first : arg_word_t) (rest : List arg_word_t) (p : Nat)
    (hpw : parse_words L ig = some pw) (hwords : pw.words = first :: rest)
    (hfind : get_command_by_name core (first.text.getD []) = some p)
    (hp : p < core.heap.length) (hargc : (deref core p).argc ≤ SCT_MAX_ARGS)
    (hargs : (deref core p).args.length = SCT_MAX_ARGS) :
    (command_from_words core pw).2 = some p ∧
      (deref (command_from_words core pw).1 p).name = (deref core p).name ∧
      (deref (command_from_words core pw).1 p).argc = (deref core p).argc ∧
      (deref (command_from_words core pw).1 p).exec_fn = (deref core p).exec_fn ∧
      (deref (command_from_words core pw).1 p).args.length = SCT_MAX_ARGS ∧
      (∀ i, i < (deref core p).argc →
        ∃ a b, (deref core p).args[i]? = some a ∧
          (deref (command_from_words core pw).1 p).args[i]? = some b ∧
          b.kind = a.kind ∧ b.optional = a.optional ∧
          b.value = if i + 1 < pw.word_count then (pw.words[i + 1]?).bind (fun w => w.text)
            else none) ∧
      (∀ i, (deref core p).argc ≤ i →
        (deref (command_from_words core pw).1 p).args[i]? = (deref core p).args[i]?) ∧
      (∀ q, q ≠ p → deref (command_from_words core pw).1 q = deref core q) ∧
      (command_from_words core pw).1.commands = core.commands ∧
      (command_from_words core pw).1.cmd_idx = core.cmd_idx ∧
      (command_from_words core pw).1.cmd_count = core.cmd_count := by
  obtain ⟨hcnt, hidx⟩ := parse_words_index L ig pw hpw
  have hcount : pw.word_count > 0 := by
    rw [hcnt, hwords]
    simp
  obtain ⟨c, e, c1, c2, c3, -, c5, c6⟩ :=
    command_from_words_found core pw first rest p hcount hwords hfind hp
  rw [e]
  show some p = some p ∧ (deref c p).name = _ ∧ (deref c p).argc = _ ∧ (deref c p).exec_fn = _ ∧
    (deref c p).args.length = _ ∧ (∀ i, i < (deref core p).argc →
        ∃ a b, (deref core p).args[i]? = some a ∧ (deref c p).args[i]? = some b ∧
          b.kind = a.kind ∧ b.optional = a.optional ∧
          b.value = if i + 1 < pw.word_count then (pw.words[i + 1]?).bind (fun w => w.text)
            else none) ∧
    (∀ i, (deref core p).argc ≤ i → (deref c p).args[i]? = (deref core p).args[i]?) ∧
    (∀ q, q ≠ p → deref c q = deref core q) ∧ c.commands = _ ∧ c.cmd_idx = _ ∧ c.cmd_count = _
  obtain ⟨b1, b2⟩ := bind_words_spec (deref core p).argc rest
    (reset_args (deref core p).argc (deref core p).args) 0
    (fun j w hj => by
      have := (hidx (j + 1) w (by rw [hwords]; simpa using hj)).1
      omega)
  rw [c6]
  refine ⟨rfl, rfl, rfl, rfl, ?_, ?_, ?_, c5, c1, c2, c3⟩
  · show (bind_words _ _ _).length = _
    rw [b1, reset_args_length, hargs]
  · intro i hi
    have hlt : i < (deref core p).args.length := by omega
    have hb : (bind_words (deref core p).argc rest
        (reset_args (deref core p).argc (deref core p).args))[i]? =
        some { kind := ((deref core p).args[i]).kind
               optional := ((deref core p).args[i]).optional
               value := if i < rest.length then
                   scu_strdup ((rest[i]?).bind (fun w => w.text))
                 else none } := by
      rw [b2 i, reset_args_getElem?, List.getElem?_eq_getElem hlt]
      simp only [Option.map_some', if_pos hi, Nat.zero_le, true_and, Nat.sub_zero]
      by_cases hr : i < rest.length
      · rw [if_pos ⟨hi, hr⟩, if_pos hr]
      · rw [if_neg (fun h => hr h.2), if_neg hr]
    refine ⟨(deref core p).args[i], _, List.getElem?_eq_getElem hlt, hb, rfl, rfl, ?_⟩
    rw [hcnt, hwords]
    simp only [List.length_cons, List.getElem?_cons_succ]
    by_cases hr : i < rest.length
    · have h1 : i + 1 < rest.length + 1 := by omega
      rw [if_pos hr, if_pos h1]
      have hw := List.getElem?_eq_getElem hr
      obtain ⟨-, t, ht, hne⟩ := hidx (i + 1) rest[i] (by rw [hwords]; simp [hw])
      rw [hw]
      simp only [Option.some_bind, ht]
      exact scu_strdup_some_ne_nil t hne
    · have h1 : ¬ i + 1 < rest.length + 1 := by omega
      rw [if_neg hr, if_neg h1]
  · intro i hi
    show (bind_words _ _ _)[i]? = _
    rw [b2 i, reset_args_getElem?]
    have h1 : ¬ i < (deref core p).argc := by omega
    have h2 : ∀ (a : sct_arg_t),
        (if 0 ≤ i ∧ i < (deref core p).argc ∧ i - 0 < rest.length then
          ({ a with value := scu_strdup ((rest[i - 0]?).bind (fun w => w.text)) } : sct_arg_t)
        else a) = a := fun a => if_neg (by omega)
    simp only [h2]
    cases (deref core p).args[i]? <;> simp [h1]

/-- C17 for `cp` among the built-in commands and the line `cp a b c`: the
command found is `cp`, and its two slots hold `a` and `b`. -/
theorem C17_command_from_words_witness :
    (command_from_words (sct_init_builtin_commands sct_initialize)
      { words := [{ index := 0, text := some "cp".toList, start := 0, end_ := 2 },
                  { index := 1, text := some "a".toList, start := 3, end_ := 4 },
                  { index := 2, text := some "b".toList, start := 5, end_ := 6 },
                  { index := 3, text := some "c".toList, start := 7, end_ := 8 }]
        word_count := 4 }).2 = some 5 ∧
    (deref (command_from_words (sct_init_builtin_commands sct_initialize)
      { words := [{ index := 0, text := some "cp".toList, start := 0, end_ := 2 },
                  { index := 1, text := some "a".toList, start := 3, end_ := 4 },
                  { index := 2, text := some "b".toList, start := 5, end_ := 6 },
                  { index := 3, text := some "c".toList, start := 7, end_ := 8 }]
        word_count := 4 }).1 5).args =
      [{ kind := sct_arg_kind_t.SA_FILENAME, optional := false, value := some "a".toList },
       { kind := sct_arg_kind_t.SA_NEW_FILENAME, optional := false, value := some "b".toList }] :=
  ⟨(C17_command_from_words (sct_init_builtin_commands sct_initialize) "cp a b c".toList false
      { words := [{ index := 0, text := some "cp".toList, start := 0, end_ := 2 },
                  { index := 1, text := some "a".toList, start := 3, end_ := 4 },
                  { index := 2, text := some "b".toList, start := 5, end_ := 6 },
                  { index := 3, text := some "c".toList, start := 7, end_ := 8 }]
        word_count := 4 }
      { index := 0, text := some "cp".toList, start := 0, end_ := 2 }
      [{ index := 1, text := some "a".toList, start := 3, end_ := 4 },
       { index := 2, text := some "b".toList, start := 5, end_ := 6 },
       { index := 3, text := some "c".toList, start := 7, end_ := 8 }] 5
      (by decide) (by decide) (by decide) (by decide) (by decide) (by decide)).1,
    by decide⟩

theorem validate_arg_indep (st : utils_state) (fs : filesystem) (a : sct_arg_t) (e : Bool) :
    (validate_arg st fs a e).1 = (validate_arg st fs a false).1 := by
  unfold validate_arg
  cases a.value with
  | none => rfl
  | some v =>
    cases a.kind <;> simp only [scu_file_exists, scu_file_or_dir_exists, scu_directory_exists]
    all_goals (split <;> [rfl; (split <;> rfl)])

theorem validate_args_true_iff (st : utils_state) (fs : filesystem) (l : List sct_arg_t)
    (e : Bool) :
    (validate_args st fs l e).1 = true ↔ ∀ a ∈ l, (validate_arg st fs a false).1 = true := by
  induction l generalizing e with
  | nil => simp [validate_args]
  | cons a rest ih =>
    simp only [validate_args, List.mem_cons, forall_eq_or_imp]
    by_cases h : (validate_arg st fs a e).1 = false
    · rw [if_pos h]
      rw [validate_arg_indep] at h
      simp [h]
    · rw [if_neg h, ih]
      rw [validate_arg_indep] at h
      simp only [Bool.not_eq_false] at h
      simp [h]

theorem validate_args_stop (st : utils_state) (fs : filesystem) (pre post : List sct_arg_t)
    (a : sct_arg_t) (e : Bool) (hpre : ∀ x ∈ pre, (validate_arg st fs x false).1 = true)
    (ha : (validate_arg st fs a false).1 = false) :
    validate_args st fs (pre ++ a :: post) e = validate_args st fs (pre ++ [a]) e ∧
      (validate_args st fs (pre ++ a :: post) e).1 = false := by
  induction pre generalizing e with
  | nil =>
    have h : (validate_arg st fs a e).1 = false := by rw [validate_arg_indep, ha]
    simp only [List.nil_append, validate_args, if_pos h, and_self]
  | cons x rest ih =>
    have hx : ¬ (validate_arg st fs x e).1 = false := by
      rw [validate_arg_indep, hpre x (by simp)]
      simp
    simp only [List.cons_append, validate_args, if_neg hx]
    exact ih _ (fun y hy => hpre y (by simp [hy]))

theorem command_from_words_snd (core : sct_core_t) (words : parsed_words_t) :
    (command_from_words core words).2 =
      if words.word_count > 0 then
        match words.words with
        | [] => none
        | first :: _ => get_command_by_name core (first.text.getD [])
      else none := by
  unfold command_from_words
  split_ifs with h
  · cases hw : words.words with
    | nil => rfl
    | cons first rest =>
      simp only
      cases hg : get_command_by_name core (first.text.getD []) <;> rfl
  · rfl

theorem parse_final_command_some (st : utils_state) (fs : filesystem) (core : sct_core_t)
    (line : List Char) (p : Nat) :
    (parse_final_command st fs core line).2.1 = some p ↔
      ∃ pw, parse_words line false = some pw ∧ (command_from_words core pw).2 = some p ∧
        (validate_args st fs
          ((deref (command_from_words core pw).1 p).args.take
            (deref (command_from_words core pw).1 p).argc) false).1 = true := by
  unfold parse_final_command
  cases hp : parse_words line false with
  | none => simp
  | some pw =>
    simp only [Option.some.injEq, exists_eq_left']
    cases hc : command_from_words core pw with
    | mk c r =>
      cases r with
      | none => simp
      | some q =>
        simp only
        by_cases hv : (validate_args st fs ((deref c q).args.take (deref c q).argc) false).1 = true
        · rw [if_pos hv]
          simp only [Option.some.injEq]
          constructor
          · rintro rfl
            exact ⟨rfl, hv⟩
          · rintro ⟨rfl, -⟩
            rfl
        · rw [if_neg hv]
          have : (if (validate_args st fs ((deref c q).args.take (deref c q).argc) false).2 = true
              then (c, (none : Option Nat), ([] : List sct_event))
              else (c, none, [sct_event.print "Invalid argument(s).\n"])).2.1 = none := by
            split_ifs <;> rfl
          rw [this]
          constructor
          · intro h
            exact Option.noConfusion h
          · rintro ⟨hq, h⟩
            simp only [Option.some.injEq] at hq
            subst hq
            exact absurd h hv

theorem parse_final_command_prints (st : utils_state) (fs : filesystem) (core : sct_core_t)
    (line : List Char) : exec_events (parse_final_command st fs core line).2.2 = [] := by
  unfold parse_final_command
  cases parse_words line false with
  | none => rfl
  | some pw =>
    simp only
    cases command_from_words core pw with
    | mk c r =>
      cases r with
      | none => rfl
      | some q =>
        simp only
        split_ifs <;> rfl

theorem exec_events_append (l1 l2 : List sct_event) :
    exec_events (l1 ++ l2) = exec_events l1 ++ exec_events l2 := by
  induction l1 with
  | nil => rfl
  | cons a rest ih =>
    cases a <;> simp [exec_events, ih]

theorem sct_run_single (st : utils_state) (fs : filesystem)
    (terminates : sct_exec_cb_t → List sct_arg_t → Nat → Bool) (core : sct_core_t)
    (line : List Char) (hline : line ≠ []) :
    exec_events (sct_run st fs terminates core false [some line]).2.1 =
      match (parse_final_command st fs core line).2.1 with
      | some p =>
        [sct_event.exec (deref (parse_final_command st fs core line).1 p).exec_fn
          (deref (parse_final_command st fs core line).1 p).args
          (deref (parse_final_command st fs core line).1 p).argc]
      | none => [] := by
  have he : scu_is_empty_str (some line) = false := scu_is_empty_str_of_ne_nil line hline
  simp only [sct_run, Bool.false_eq_true, if_false, he, Option.getD_some]
  have hpr := parse_final_command_prints st fs core line
  cases hc : (parse_final_command st fs core line).2.1 with
  | none =>
    simp only [List.append_nil, exec_events]
    exact hpr
  | some p =>
    simp only [exec_events, exec_events_append, hpr, List.nil_append]

/-- C16, counterexample: with `cp` registered and the regular file `a b.txt`
present, dispatching `cp 'a b.txt' c.txt` calls the callback once, and the
value bound to slot 0 is `'a b.txt'` with its quotes, not `a b.txt`. -/
theorem C16_slot_keeps_quotes :
    (sct_run (scu_initialize_utils zero_mem zero_mem zero_mem zero_mem) fs_with_ab_file
        (fun _ _ _ => false) registry_with_cp false [some "cp 'a b.txt' c.txt".toList]).2.1 =
      [sct_event.history "cp 'a b.txt' c.txt".toList,
       sct_event.exec (some 6)
         [{ kind := sct_arg_kind_t.SA_FILENAME, optional := false,
            value := some "'a b.txt'".toList },
          { kind := sct_arg_kind_t.SA_NEW_FILENAME, optional := false,
            value := some "c.txt".toList }] 2] ∧
      some "'a b.txt'".toList ≠ some "a b.txt".toList := by
  decide

/-- C18: evaluation of the code at the failing input.  With the built-in
commands, `sct_run` does not stop at the line of one space: it hands the line
to `parse_final_command`, prints `Unrecognized command.`, reads the next line
`pwd` and calls its callback.  At a line of length zero it does stop, and the
line `pwd` after it is not read. -/
theorem C18_blank_line_does_not_stop :
    (sct_run (scu_initialize_utils zero_mem zero_mem zero_mem zero_mem) (fun _ => none)
        (fun _ _ _ => false) (sct_init_builtin_commands sct_initialize) false
        [some " ".toList, some "pwd".toList]).2 =
      ([sct_event.history " ".toList, sct_event.print "Unrecognized command.\n",
        sct_event.history "pwd".toList,
        sct_event.exec (some 3)
          [{ kind := sct_arg_kind_t.SA_FILENAME, optional := false, value := none },
           { kind := sct_arg_kind_t.SA_FILENAME, optional := false, value := none }] 0], []) ∧
    (sct_run (scu_initialize_utils zero_mem zero_mem zero_mem zero_mem) (fun _ => none)
        (fun _ _ _ => false) (sct_init_builtin_commands sct_initialize) false
        [some "".toList, some "pwd".toList]).2 = ([], [some "pwd".toList]) := by
  decide

theorem scu_validate_filename_ascii (m4 mh m6 mf : Mem) (v : List Char) (hne : v ≠ [])
    (hall : ∀ c ∈ v, c.toNat < 128 ∧ c ∉ filename_denylist) :
    scu_validate_filename (scu_initialize_utils m4 mh m6 mf) v = true := by
  rw [scu_validate_filename_eq _ v hne]
  simp only [match_mask, List.all_eq_true, decide_eq_true_eq]
  intro c hc
  rw [filename_mask_allowed m4 mh m6 mf c (hall c hc).1 (hall c hc).2]
  decide

theorem validate_cp_slots (m4 mh m6 mf : Mem) (fs : filesystem)
    (hfile : fs "a b.txt".toList = some file_type.regular) :
    validate_args (scu_initialize_utils m4 mh m6 mf) fs
      [{ kind := sct_arg_kind_t.SA_FILENAME, optional := false,
         value := some "'a b.txt'".toList },
       { kind := sct_arg_kind_t.SA_NEW_FILENAME, optional := false,
         value := some "c.txt".toList }] false = (true, false) := by
  have hd : scu_dequote (some "'a b.txt'".toList) = some "a b.txt".toList := by decide
  have h0 : validate_arg (scu_initialize_utils m4 mh m6 mf) fs
      { kind := sct_arg_kind_t.SA_FILENAME, optional := false,
        value := some "'a b.txt'".toList } false = (true, false) := by
    simp only [validate_arg, scu_file_exists, hd, hfile]
    rfl
  have h1 : validate_arg (scu_initialize_utils m4 mh m6 mf) fs
      { kind := sct_arg_kind_t.SA_NEW_FILENAME, optional := false,
        value := some "c.txt".toList } false = (true, false) := by
    simp only [validate_arg]
    rw [scu_validate_filename_ascii m4 mh m6 mf "c.txt".toList (by decide) (by decide)]
  simp only [validate_args, h0, h1, Bool.true_eq_false, if_false]

/-- C16, amended: with `cp` registered with the specifications existing file
and new file, and with a regular file `a b.txt` present, dispatching the line
`cp 'a b.txt' c.txt` binds slot 0 to the word as it stands, `'a b.txt'` with
its quotes (the quotes are taken off only inside the existence check), and
slot 1 to `c.txt`, finds both valid and calls the callback exactly once with
these two values; nothing is printed. -/
theorem C16_dispatch_cp (m4 mh m6 mf : Mem) (fs : filesystem)
    (terminates : sct_exec_cb_t → List sct_arg_t → Nat → Bool)
    (hfile : fs "a b.txt".toList = some file_type.regular) :
    (sct_run (scu_initialize_utils m4 mh m6 mf) fs terminates registry_with_cp false
        [some "cp 'a b.txt' c.txt".toList]).2.1 =
      [sct_event.history "cp 'a b.txt' c.txt".toList,
       sct_event.exec (some 6)
         [{ kind := sct_arg_kind_t.SA_FILENAME, optional := false,
            value := some "'a b.txt'".toList },
          { kind := sct_arg_kind_t.SA_NEW_FILENAME, optional := false,
            value := some "c.txt".toList }] 2] := by
  have hpw : parse_words "cp 'a b.txt' c.txt".toList false =
      some { words := [{ index := 0, text := some "cp".toList, start := 0, end_ := 2 },
                       { index := 1, text := some "'a b.txt'".toList, start := 3, end_ := 12 },
                       { index := 2, text := some "c.txt".toList, start := 13, end_ := 18 }]
             word_count := 3 } := by decide
  have hpfc : ∃ c, parse_final_command (scu_initialize_utils m4 mh m6 mf) fs registry_with_cp
      "cp 'a b.txt' c.txt".toList = (c, some 0, []) ∧
      deref c 0 =
        { name := some "cp".toList
          exec_fn := some 6
          args := [{ kind := sct_arg_kind_t.SA_FILENAME, optional := false,
                     value := some "'a b.txt'".toList },
                   { kind := sct_arg_kind_t.SA_NEW_FILENAME, optional := false,
                     value := some "c.txt".toList }]
          argc := 2 } := by
    unfold parse_final_command
    rw [hpw]
    simp only
    cases hc : command_from_words registry_with_cp
      { words := [{ index := 0, text := some "cp".toList, start := 0, end_ := 2 },
                  { index := 1, text := some "'a b.txt'".toList, start := 3, end_ := 12 },
                  { index := 2, text := some "c.txt".toList, start := 13, end_ := 18 }]
        word_count := 3 } with
    | mk c r =>
      have hr : r = some 0 := by
        have h2 := congrArg Prod.snd hc
        simp only at h2
        rw [← h2]
        decide
      have hcd : deref c 0 =
          { name := some "cp".toList
            exec_fn := some 6
            args := [{ kind := sct_arg_kind_t.SA_FILENAME, optional := false,
                       value := some "'a b.txt'".toList },
                     { kind := sct_arg_kind_t.SA_NEW_FILENAME, optional := false,
                       value := some "c.txt".toList }]
            argc := 2 } := by
        have h1 := congrArg Prod.fst hc
        simp only at h1
        rw [← h1]
        decide
      subst hr
      simp only
      rw [hcd]
      simp only [List.take_succ_cons, List.take_zero]
      simp only [validate_cp_slots m4 mh m6 mf fs hfile, if_true]
      exact ⟨c, rfl, hcd⟩
  obtain ⟨c, h1, h2⟩ := hpfc
  have he : scu_is_empty_str (some "cp 'a b.txt' c.txt".toList) = false := by decide
  simp only [sct_run, Bool.false_eq_true, if_false, he, Option.getD_some, h1, h2,
    List.nil_append]

/-- C16, amended, in the filesystem where `a b.txt` is the only file. -/
theorem C16_dispatch_cp_witness :
    (sct_run (scu_initialize_utils stale_mem zero_mem ones_mem zero_mem) fs_with_ab_file
        (fun _ _ _ => true) registry_with_cp false
        [some "cp 'a b.txt' c.txt".toList]).2.1 =
      [sct_event.history "cp 'a b.txt' c.txt".toList,
       sct_event.exec (some 6)
         [{ kind := sct_arg_kind_t.SA_FILENAME, optional := false,
            value := some "'a b.txt'".toList },
          { kind := sct_arg_kind_t.SA_NEW_FILENAME, optional := false,
            value := some "c.txt".toList }] 2] :=
  C16_dispatch_cp stale_mem zero_mem ones_mem zero_mem fs_with_ab_file (fun _ _ _ => true)
    (by decide)

/-! ## Facts about `scu_dequote` -/

theorem scu_dequote_quoted (s : List Char) (h : enclosed_in_quotes s) :
    scu_dequote (some s) =
      if 2 < s.length then some ((s.drop 1).take (s.length - 2)) else none := by
  obtain ⟨h1, h2, h3⟩ := h
  cases s with
  | nil => simp at h1
  | cons c cs =>
    have hq : is_quote_char c = true := by
      simpa [is_quote_char] using h2
    have hcond : 1 < (c :: cs).length ∧ is_quote_char c = true ∧
        some c = (c :: cs)[(c :: cs).length - 1]? := by
      refine ⟨h1, hq, ?_⟩
      rw [h3]
      simp
    simp only [scu_dequote]
    rw [if_pos hcond]
    by_cases h2' : 2 < (c :: cs).length
    · rw [if_pos h2', if_pos (by omega)]
      cases cs with
      | nil => simp at h2'
      | cons d ds =>
        simp only [scu_strndup, List.drop_succ_cons, List.drop_zero]
        rw [if_neg (by omega)]
    · rw [if_neg h2', if_neg (by omega)]

theorem scu_dequote_unquoted (s : List Char) (hne : s ≠ []) (h : ¬ enclosed_in_quotes s) :
    scu_dequote (some s) = some s := by
  cases s with
  | nil => exact absurd rfl hne
  | cons c cs =>
    have hcond : ¬ (1 < (c :: cs).length ∧ is_quote_char c = true ∧
        some c = (c :: cs)[(c :: cs).length - 1]?) := by
      rintro ⟨h1, h2, h3⟩
      refine h ⟨h1, ?_, ?_⟩
      · simpa [is_quote_char] using h2
      · rw [← h3]
        simp
    simp only [scu_dequote]
    rw [if_neg hcond]
    rfl

theorem scu_dequote_ne_nil (v : Option (List Char)) (w : List Char)
    (h : scu_dequote v = some w) : w ≠ [] := by
  rintro rfl
  cases v with
  | none => simp [scu_dequote] at h
  | some s =>
    cases s with
    | nil => simp [scu_dequote] at h
    | cons c cs =>
      by_cases hq : enclosed_in_quotes (c :: cs)
      · rw [scu_dequote_quoted _ hq] at h
        split_ifs at h with h2
        simp only [Option.some.injEq] at h
        have hl := congrArg List.length h
        simp only [List.length_take, List.length_drop, List.length_nil] at hl
        omega
      · rw [scu_dequote_unquoted _ (by simp) hq] at h
        simp at h

/-! ## Claim on dequoting twice -/

/-- C21, counterexample: the value of two quotes, `a`, two quotes is dequoted
to quote, `a`, quote, and dequoting that again gives `a`, a different
value. -/
theorem C21_dequote_twice_differs :
    scu_dequote (some "''a''".toList) = some "'a'".toList ∧
      scu_dequote (scu_dequote (some "''a''".toList)) = some "a".toList ∧
      scu_dequote (scu_dequote (some "''a''".toList)) ≠ scu_dequote (some "''a''".toList) := by
  decide

/-- C21, amended: when `scu_dequote` gives a value `w`, dequoting `w` again
returns `w` unchanged exactly when `w` does not itself stand between a pair of
quotes; a value `w` that does loses that pair as well.  So dequoting is
idempotent on the values that carry at most one pair of quotes. -/
theorem C21_dequote_again (v : Option (List Char)) (w : List Char)
    (h : scu_dequote v = some w) :
    (scu_dequote (scu_dequote v) = scu_dequote v ↔ ¬ enclosed_in_quotes w) ∧
      (enclosed_in_quotes w →
        scu_dequote (scu_dequote v) =
          if 2 < w.length then some ((w.drop 1).take (w.length - 2)) else none) := by
  have hne := scu_dequote_ne_nil v w h
  rw [h]
  constructor
  · constructor
    · intro h2 hq
      rw [scu_dequote_quoted w hq] at h2
      split_ifs at h2 with h3
      simp only [Option.some.injEq] at h2
      have hl := congrArg List.length h2
      simp only [List.length_take, List.length_drop] at hl
      omega
    · intro hq
      exact scu_dequote_unquoted w hne hq
  · intro hq
    exact scu_dequote_quoted w hq

/-- C21, amended, at the values `'abc'` (dequoted to `abc`, which stays) and
two quotes, `a`, two quotes (dequoted twice to `a`). -/
theorem C21_dequote_again_witness :
    scu_dequote (scu_dequote (some "'abc'".toList)) = scu_dequote (some "'abc'".toList) ∧
      scu_dequote (scu_dequote (some "''a''".toList)) =
        (if 2 < "'a'".toList.length then
          some (("'a'".toList.drop 1).take ("'a'".toList.length - 2)) else none) ∧
      scu_dequote (some "''".toList) = none :=
  ⟨(C21_dequote_again (some "'abc'".toList) "abc".toList (by decide)).1.2 (by decide),
    (C21_dequote_again (some "''a''".toList) "'a'".toList (by decide)).2 (by decide),
    by decide⟩

/-! ## Claims on word spans, the two modes and quoted words -/

theorem renumber_map_span (l : List arg_word_t) (k : Nat) :
    (renumber l k).map (fun w => (w.start, w.end_)) = l.map (fun w => (w.start, w.end_)) := by
  induction l generalizing k with
  | nil => simp [renumber]
  | cons a next ih => simp [renumber, ih]

theorem parse_words_spans_ordered (L : List Char) (ig : Bool) (pw : parsed_words_t)
    (h : parse_words L ig = some pw) :
    pw.words.Pairwise (fun a b => a.end_ ≤ b.start) := by
  obtain ⟨new, e1, -, -, e4⟩ := parse_words_spec L ig pw h
  have hp : new.reverse.Pairwise (fun a b => a.end_ ≤ b.start) := by
    rw [List.pairwise_reverse]
    exact e4
  have hm : (pw.words.map (fun w => (w.start, w.end_))).Pairwise (fun x y => x.2 ≤ y.1) := by
    rw [e1, renumber_map_span, List.pairwise_map]
    exact hp
  exact List.pairwise_map.1 hm

/-- C26: when `parse_words` succeeds, in either mode, the spans of the words
lie one after the other in the line with at least one byte between two of
them, and the byte right after the earlier word is a space or a tab; every
byte of the line outside all spans is a space or a tab; so every byte that is
not a space or a tab lies in the span of a word, whose text is that span of the
line. -/
theorem C26_spans_disjoint_and_cover (L : List Char) (ig : Bool) (pw : parsed_words_t)
    (h : parse_words L ig = some pw) :
    pw.words.Pairwise (fun a b =>
        a.start < a.end_ ∧ a.end_ < b.start ∧
          ∃ d, L[a.end_]? = some d ∧ is_whitespace d = true) ∧
      (∀ (i : Nat) (c : Char), L[i]? = some c →
        (∀ w ∈ pw.words, ¬ (w.start ≤ i ∧ i < w.end_)) → is_whitespace c = true) ∧
      (∀ (i : Nat) (c : Char), L[i]? = some c → is_whitespace c = false →
        ∃ w ∈ pw.words, w.start ≤ i ∧ i < w.end_ ∧
          w.text = some ((L.drop w.start).take (w.end_ - w.start))) := by
  refine ⟨?_, ?_, ?_⟩
  · refine List.Pairwise.imp_of_mem ?_ (parse_words_spans_ordered L ig pw h)
    intro a b ha hb hab
    obtain ⟨n, c, f1, f2, f3, -, -, -, -⟩ := parse_words_word L ig pw a h ha
    obtain ⟨m, c2, g1, g2, g3, -, g5, g6, -⟩ := parse_words_word L ig pw b h hb
    obtain ⟨-, b2⟩ := parse_words_before L ig pw a h ha
    have hlt : a.end_ < L.length := by omega
    rcases b2 with b2 | ⟨d, hd, hdw⟩
    · rw [List.getElem?_eq_none_iff] at b2
      omega
    · refine ⟨by omega, ?_, d, hd, hdw⟩
      rcases Nat.lt_or_ge a.end_ b.start with hlt2 | hge
      · exact hlt2
      · have e : a.end_ = b.start := by omega
        rw [e, g5] at hd
        simp only [Option.some.injEq] at hd
        rw [hd, hdw] at g6
        exact Bool.noConfusion g6
  · intro i c hic hout
    by_contra hw
    have hcw : is_whitespace c = false := by
      cases hx : is_whitespace c
      · rfl
      · exact absurd hx hw
    obtain ⟨w, hw1, hw2⟩ := parse_words_cover L ig pw h i c hic hcw
    exact hout w hw1 hw2
  · intro i c hic hcw
    obtain ⟨w, hw1, hw2, hw3⟩ := parse_words_cover L ig pw h i c hic hcw
    obtain ⟨n, c2, f1, f2, f3, f4, -⟩ := parse_words_word L ig pw w h hw1
    refine ⟨w, hw1, hw2, hw3, ?_⟩
    rw [f4, f3]
    congr 2
    omega

/-- C26 at the line of a tab, `ls`, two spaces, `-l` and a space. -/
theorem C26_spans_disjoint_and_cover_witness :
    [({ index := 0, text := some "ls".toList, start := 1, end_ := 3 } : arg_word_t),
      { index := 1, text := some "-l".toList, start := 5, end_ := 7 }].Pairwise
      (fun a b => a.start < a.end_ ∧ a.end_ < b.start ∧
        ∃ d, [TAB, 'l', 's', SPACE, SPACE, '-', 'l', SPACE][a.end_]? = some d ∧
          is_whitespace d = true) :=
  (C26_spans_disjoint_and_cover [TAB, 'l', 's', SPACE, SPACE, '-', 'l', SPACE] true
    { words := [{ index := 0, text := some "ls".toList, start := 1, end_ := 3 },
                { index := 1, text := some "-l".toList, start := 5, end_ := 7 }]
      word_count := 2 }
    (by decide)).1

/-- C27: evaluation of the code at the failing input.  In the call that builds
the table of host names, `build_match_mask` with `allow_all` false, the entry
of `$` (36) is what the allocated block held before the call, whatever that
is, and `match_mask` accepts the string `$` exactly when that byte is not
zero; with a block that holds 1 there the value `ya$ru` matches; only entry 0
is cleared. -/
theorem C27_entry_keeps_block_content (mem : Mem) :
    build_match_mask mem false true true (some "-_.".toList) (some []) 36 = mem 36 ∧
      match_mask "$".toList (build_match_mask mem false true true (some "-_.".toList) (some [])) =
        decide (mem 36 ≠ 0) ∧
      match_mask "ya$ru".toList
        (build_match_mask stale_mem false true true (some "-_.".toList) (some [])) = true ∧
      build_match_mask mem false true true (some "-_.".toList) (some []) 0 = 0 := by
  have h36 := hostname_mask_eval mem mem mem mem 36
  have h0 := hostname_mask_eval mem mem mem mem 0
  simp only [scu_initialize_utils] at h36 h0
  have e36 : build_match_mask mem false true true (some "-_.".toList) (some []) 36 = mem 36 := by
    rw [h36]
    rw [if_neg (by omega), if_neg (by omega)]
  refine ⟨e36, ?_, by decide, ?_⟩
  · have hs : "$".toList = ['$'] := rfl
    have hc : char_index '$' = 36 := by decide
    simp only [hs, match_mask, List.all_cons, List.all_nil, Bool.and_true, hc, e36]
  · rw [h0, if_neg (by omega)]
    exact if_pos trivial

/-- C28: when strict tokenization of a line succeeds, lenient tokenization
gives the same word sequence, so the results of the two modes are equal on
that line. -/
theorem C28_lenient_equals_strict (L : List Char) (pw : parsed_words_t)
    (h : parse_words L false = some pw) :
    parse_words L true = some pw ∧ parse_words L true = parse_words L false := by
  have h2 := parse_words_strict_lenient L pw h
  exact ⟨h2, by rw [h2, h]⟩

/-- C28 at the line `cp 'a b' c`; on the line `cp 'a b`, which strict
tokenization rejects, the lenient result differs. -/
theorem C28_lenient_equals_strict_witness :
    (parse_words "cp 'a b' c".toList true =
        some { words := [{ index := 0, text := some "cp".toList, start := 0, end_ := 2 },
                         { index := 1, text := some "'a b'".toList, start := 3, end_ := 8 },
                         { index := 2, text := some "c".toList, start := 9, end_ := 10 }]
               word_count := 3 }) ∧
      parse_words "cp 'a b".toList false = none ∧
      parse_words "cp 'a b".toList true ≠ none :=
  ⟨(C28_lenient_equals_strict "cp 'a b' c".toList
      { words := [{ index := 0, text := some "cp".toList, start := 0, end_ := 2 },
                  { index := 1, text := some "'a b'".toList, start := 3, end_ := 8 },
                  { index := 2, text := some "c".toList, start := 9, end_ := 10 }]
        word_count := 3 }
      (by decide)).1,
    by decide, by decide⟩

/-- C29: when strict tokenization succeeds, a returned word whose text starts
with `'` or `"` has a text of at least two characters that ends with the same
quote; the character before that closing quote is not a backslash; the
character of the line right after the word is a space, a tab or the end of the
line; and `scu_dequote` of the text is the text without its first and last
character, or NULL when the text has exactly two characters. -/
theorem C29_quoted_word_closed (L : List Char) (pw : parsed_words_t) (w : arg_word_t)
    (t : List Char) (q : Char) (h : parse_words L false = some pw) (hw : w ∈ pw.words)
    (ht : w.text = some t) (h0 : t[0]? = some q) (hq : q = SQUOTE ∨ q = DQUOTE) :
    2 ≤ t.length ∧ t[t.length - 1]? = some q ∧ t[t.length - 2]? ≠ some BACKSLASH ∧
      (L[w.end_]? = none ∨ ∃ d, L[w.end_]? = some d ∧ is_whitespace d = true) ∧
      scu_dequote (some t) =
        if 2 < t.length then some ((t.drop 1).take (t.length - 2)) else none := by
  obtain ⟨n, c, f1, f2, f3, f4, f5, f6, f7⟩ := parse_words_word L false pw w h hw
  obtain ⟨-, b2⟩ := parse_words_before L false pw w h hw
  rw [ht] at f4
  simp only [Option.some.injEq] at f4
  have hdrop := drop_of_getElem? L w.start c f5
  have hcq : c = q := by
    rw [f4, hdrop] at h0
    cases n with
    | zero => omega
    | succ m =>
      simp only [List.take_succ_cons, List.getElem?_cons_zero, Option.some.injEq] at h0
      exact h0
  subst hcq
  have hbreak : find_quoted_word_break (c :: L.drop (w.start + 1)) = some n := by
    rcases f7 with f | ⟨f, -⟩
    · rw [hdrop, find_word_break_quote c _ hq] at f
      exact f
    · exact Bool.noConfusion f
  obtain ⟨g1, ⟨g2, g3, -⟩, -⟩ := find_quoted_word_break_some c _ n hq hbreak
  have hlen : t.length = n := by
    rw [f4, List.length_take, List.length_drop]
    omega
  have hget : ∀ k, k < n → t[k]? = (c :: L.drop (w.start + 1))[k]? := by
    intro k hk
    rw [f4, hdrop, List.getElem?_take_of_lt hk]
  have hlast : t[t.length - 1]? = some c := by
    rw [hlen, hget (n - 1) (by omega)]
    exact g2
  have hprev : t[t.length - 2]? ≠ some BACKSLASH := by
    rw [hlen, hget (n - 2) (by omega)]
    have e : n - 1 - 1 = n - 2 := by omega
    rw [e] at g3
    exact g3
  refine ⟨by omega, hlast, hprev, b2, ?_⟩
  apply scu_dequote_quoted
  refine ⟨by omega, ?_, ?_⟩
  · rw [h0]
    rcases hq with e | e
    · left
      rw [e]
    · right
      rw [e]
  · rw [hlast, h0]

/-- C29 at the second word of the line `cp "a b" c`. -/
theorem C29_quoted_word_closed_witness :
    2 ≤ "\"a b\"".toList.length ∧
      "\"a b\"".toList["\"a b\"".toList.length - 1]? = some DQUOTE ∧
      "\"a b\"".toList["\"a b\"".toList.length - 2]? ≠ some BACKSLASH ∧
      ("cp \"a b\" c".toList[8]? = none ∨
        ∃ d, "cp \"a b\" c".toList[8]? = some d ∧ is_whitespace d = true) ∧
      scu_dequote (some "\"a b\"".toList) =
        if 2 < "\"a b\"".toList.length then
          some (("\"a b\"".toList.drop 1).take ("\"a b\"".toList.length - 2)) else none :=
  C29_quoted_word_closed "cp \"a b\" c".toList
    { words := [{ index := 0, text := some "cp".toList, start := 0, end_ := 2 },
                { index := 1, text := some "\"a b\"".toList, start := 3, end_ := 8 },
                { index := 2, text := some "c".toList, start := 9, end_ := 10 }]
      word_count := 3 }
    { index := 1, text := some "\"a b\"".toList, start := 3, end_ := 8 }
    "\"a b\"".toList DQUOTE (by decide) (by decide) (by decide) (by decide) (by decide)

/-! ## The bound on the number of slots -/

theorem sct_add_command_bounds (core : sct_core_t) (hok : registry_ok core)
    (hb : args_in_bounds core) (name : List Char) (args : List sct_arg_t)
    (hargc : args.length ≤ SCT_MAX_ARGS) (exec_fn : sct_exec_cb_t) :
    args_in_bounds (sct_add_command core name args exec_fn).1 := by
  by_cases h1 : check_optional_order args false = true
  swap
  · rw [sct_add_command_failure core name args exec_fn (Or.inl (by simpa using h1))]
    exact hb
  cases h2 : get_command_by_name core name with
  | some p =>
    rw [sct_add_command_failure core name args exec_fn (Or.inr (by simp [h2]))]
    exact hb
  | none =>
    obtain ⟨c, x, e, c1, -, -, x3, x4, c2, -, -⟩ :=
      sct_add_command_success core name args exec_fn h1 h2
    rw [e]
    show args_in_bounds c
    intro p hp
    rw [c2] at hp
    simp only [List.mem_cons] at hp
    rcases hp with hp | hp
    · have hnew : deref c p = x := by
        rw [hp]
        simp only [deref, c1]
        exact getD_append_new core.heap x
      rw [hnew, x3, x4]
      exact ⟨hargc, (copy_args_take args hargc).2⟩
    · have hold : deref c p = deref core p := by
        simp only [deref, c1]
        exact getD_append_old core.heap x p (hok.2.2.2.1 p hp)
      rw [hold]
      exact hb p hp

theorem reachable_bounds (core : sct_core_t) (h : reachable core) : args_in_bounds core := by
  induction h with
  | init =>
    intro p hp
    simp [ sct_initialize] at hp
  | add core name args exec_fn hr _ hargc ih =>
    exact sct_add_command_bounds core (reachable_ok core hr) ih name args hargc exec_fn

theorem builtins_reachable : reachable (sct_init_builtin_commands sct_initialize) :=
  reachable.add _ "cp".toList _ (some 6)
    (reachable.add _ "ping".toList _ (some 5)
      (reachable.add _ "grep".toList _ (some 4)
        (reachable.add _ "pwd".toList _ (some 3)
          (reachable.add _ "cd".toList _ (some 2)
            (reachable.add _ "ls".toList _ (some 1) reachable.init
              (by decide) (by decide))
            (by decide) (by decide))
          (by decide) (by decide))
        (by decide) (by decide))
      (by decide) (by decide))
    (by decide) (by decide)

/-- C25: evaluation of the code at the failing input.  `sct_add_command` has no
test of `argc` against `SCT_MAX_ARGS`: a request with three specifications is
accepted, the command is installed with `argc` 3 while its array has
`SCT_MAX_ARGS` = 2 entries, and the third store of the copying loop falls
outside the array (the model drops it).  The registry that results is not
within the bound. -/
theorem C25_three_specs_accepted :
    (sct_add_command sct_initialize "x".toList
        [{ kind := sct_arg_kind_t.SA_TEXT, optional := false, value := none },
         { kind := sct_arg_kind_t.SA_TEXT, optional := false, value := none },
         { kind := sct_arg_kind_t.SA_TEXT, optional := false, value := none }] (some 7)).2 = true ∧
      (deref (sct_add_command sct_initialize "x".toList
        [{ kind := sct_arg_kind_t.SA_TEXT, optional := false, value := none },
         { kind := sct_arg_kind_t.SA_TEXT, optional := false, value := none },
         { kind := sct_arg_kind_t.SA_TEXT, optional := false, value := none }] (some 7)).1
          0).argc = 3 ∧
      (deref (sct_add_command sct_initialize "x".toList
        [{ kind := sct_arg_kind_t.SA_TEXT, optional := false, value := none },
         { kind := sct_arg_kind_t.SA_TEXT, optional := false, value := none },
         { kind := sct_arg_kind_t.SA_TEXT, optional := false, value := none }] (some 7)).1
          0).args.length = SCT_MAX_ARGS ∧
      ¬ args_in_bounds (sct_add_command sct_initialize "x".toList
        [{ kind := sct_arg_kind_t.SA_TEXT, optional := false, value := none },
         { kind := sct_arg_kind_t.SA_TEXT, optional := false, value := none },
         { kind := sct_arg_kind_t.SA_TEXT, optional := false, value := none }] (some 7)).1 := by
  decide

/-! ## Facts about the completion resolver -/

theorem word_index_from_str_pos_loop_eq (wc : Nat) (pos : Int) (l : List arg_word_t) (k : Nat)
    (hidx : ∀ (i : Nat) (w : arg_word_t), l[i]? = some w → w.index = k + i)
    (hwc : wc = k + l.length) :
    word_index_from_str_pos_loop wc pos l =
      k + l.findIdx (fun w => decide (pos < (w.end_ : Int))) := by
  induction l generalizing k with
  | nil => simp [word_index_from_str_pos_loop, hwc]
  | cons w rest ih =>
    have hw : w.index = k := by simpa using hidx 0 w (by simp)
    simp only [word_index_from_str_pos_loop, List.findIdx_cons]
    by_cases h : pos < (w.end_ : Int)
    · rw [if_pos h]
      simp [h, hw]
    · rw [if_neg h]
      rw [ih (k + 1) (fun i v hv => by
        have := hidx (i + 1) v (by simpa using hv)
        omega) (by
        simp only [List.length_cons] at hwc
        omega)]
      simp only [h, decide_False, cond_false]
      omega

theorem word_index_eq (L : List Char) (ig : Bool) (pw : parsed_words_t) (pos : Int)
    (h : parse_words L ig = some pw) :
    word_index_from_str_pos pw pos =
      pw.words.findIdx (fun w => decide (pos < (w.end_ : Int))) := by
  obtain ⟨e1, e2⟩ := parse_words_index L ig pw h
  unfold word_index_from_str_pos
  rw [word_index_from_str_pos_loop_eq pw.word_count pos pw.words 0
    (fun i w hw => by
      rw [(e2 i w hw).1]
      omega) (by omega)]
  omega

theorem kind_to_complete_kind_eq (k : sct_arg_kind_t) :
    kind_to_complete_kind k =
      if k = sct_arg_kind_t.SA_FILENAME ∨ k = sct_arg_kind_t.SA_NEW_FILENAME ∨
          k = sct_arg_kind_t.SA_FILE_OR_DIR_NAME ∨ k = sct_arg_kind_t.SA_DIRNAME then
        complete_kind_t.CK_FILENAME
      else complete_kind_t.CK_NONE := by
  cases k <;> decide

theorem registry_ok_unique (core : sct_core_t) (hok : registry_ok core) (p q : Nat)
    (hp : p ∈ core.commands) (hq : q ∈ core.commands) (h : name_at core p = name_at core q) :
    p = q := by
  obtain ⟨-, k2, k3, -, -⟩ := hok
  have hd := names_distinct_of_sorted core core.cmd_idx k3
  have hd2 : core.commands.Pairwise (fun a b => name_at core a ≠ name_at core b) :=
    (k2.pairwise_iff (fun {a b} h e => h e.symm)).1 hd
  have hs : Symmetric (fun a b : Nat => name_at core a ≠ name_at core b) :=
    fun a b h e => h e.symm
  by_contra hne
  exact hd2.forall hs hp hq hne h

theorem get_command_by_name_mem (core : sct_core_t) (hok : registry_ok core) (t : List Char)
    (p : Nat) (hg : get_command_by_name core t = some p) :
    p ∈ core.commands ∧ (deref core p).name = some t := by
  obtain ⟨hm, hn⟩ := get_command_by_name_loop_some core t _ p hg
  have hmem : p ∈ core.commands := hok.2.1.subset (List.mem_of_mem_take hm)
  refine ⟨hmem, ?_⟩
  by_contra hne
  exact (registry_ok_name_iff core hok t p hmem).2 hne hn

theorem get_command_by_name_find (core : sct_core_t) (hok : registry_ok core) (t : List Char) :
    core.commands.find? (fun p => decide ((deref core p).name = some t)) =
      get_command_by_name core t := by
  cases hg : get_command_by_name core t with
  | none =>
    rw [List.find?_eq_none]
    intro p hp
    have h1 := (registry_ok_not_found core hok t).1 hg p hp
    have h2 := (registry_ok_name_iff core hok t p hp).1 h1
    simpa using h2
  | some p =>
    obtain ⟨hmem, hname⟩ := get_command_by_name_mem core hok t p hg
    cases hf : core.commands.find? (fun p => decide ((deref core p).name = some t)) with
    | none =>
      rw [List.find?_eq_none] at hf
      have := hf p hmem
      simp [hname] at this
    | some q =>
      have hq1 := List.find?_some hf
      have hq2 := List.mem_of_find?_eq_some hf
      simp only [decide_eq_true_eq] at hq1
      have : name_at core q = name_at core p := by
        simp only [name_at, hq1, hname]
      rw [registry_ok_unique core hok q p hq2 hmem this]

/-! ## Claims on the completion resolver -/

/-- C22: in a consistent registry whose commands have at most `SCT_MAX_ARGS`
slots, for every line buffer and position `pos`, the kind that
`resolve_comletion_kind` returns is the one of the reference
`spec_completion_kind`: with the buffer tokenized leniently and `k` the place
of the first word whose end exceeds `pos` (the number of words when there is
none), the kind is the command name for `k = 0`; otherwise it is none when
word 0 names no registered command or `k - 1` is not below the `argc` of the
command, and else it is the file name kind for the four file and directory
kinds of slot `k - 1` and none for text and host names. -/
theorem C22_resolver_equals_reference (core : sct_core_t) (hok : registry_ok core)
    (hb : args_in_bounds core) (L : List Char) (pos : Int) :
    (resolve_comletion_kind core L pos).2 = spec_completion_kind core L pos := by
  cases hp : parse_words L true with
  | none => simp [resolve_comletion_kind, spec_completion_kind, hp]
  | some pw =>
    have hk := word_index_eq L true pw pos hp
    obtain ⟨e1, e2⟩ := parse_words_index L true pw hp
    simp only [resolve_comletion_kind, spec_completion_kind, hp, hk]
    generalize hkk : pw.words.findIdx (fun w => decide (pos < (w.end_ : Int))) = k
    by_cases hk0 : k = 0
    · simp [hk0]
    · have hpos : k > 0 := by omega
      rw [if_pos hpos, if_neg hk0]
      cases hw : pw.words with
      | nil =>
        rw [hw] at hkk
        simp at hkk
        omega
      | cons first rest =>
        obtain ⟨-, t, ht, -⟩ := e2 0 first (by
          rw [hw]
          simp)
        simp only [List.head?_cons]
        rw [ht, get_command_by_name_find core hok t]
        cases hg : get_command_by_name core t with
        | none =>
          rw [command_from_words_none core pw (Or.inr (Or.inr ⟨first, rest, hw, by
            rw [ht]
            exact hg⟩))]
        | some p =>
          obtain ⟨hmem, -⟩ := get_command_by_name_mem core hok t p hg
          have hlt := hok.2.2.2.1 p hmem
          obtain ⟨c, hc, -, -, -, -, -, hd⟩ := command_from_words_found core pw first rest p
            (by
              rw [e1, hw]
              simp)
            hw
            (by
              rw [ht]
              exact hg)
            hlt
          rw [hc]
          simp only [hd]
          by_cases ha : k - 1 ≥ (deref core p).argc
          · rw [if_pos ha, if_pos ha]
          · rw [if_neg ha, if_neg ha]
            obtain ⟨-, hbw⟩ := bind_words_spec (deref core p).argc rest
              (reset_args (deref core p).argc (deref core p).args) 0
              (fun j w hj => by
                have := (e2 (j + 1) w (by
                  rw [hw]
                  simpa using hj)).1
                omega)
            rw [hbw (k - 1), reset_args_getElem?, List.getElem?_take_of_lt (by omega)]
            cases hx : (deref core p).args[k - 1]? with
            | none =>
              obtain ⟨b1, b2⟩ := hb p hmem
              rw [List.getElem?_eq_none_iff] at hx
              omega
            | some a =>
              have hlt2 : k - 1 < (deref core p).argc := by omega
              by_cases hr : k - 1 < rest.length <;> simp [kind_to_complete_kind_eq, hlt2, hr]

/-- C22 for the built-in commands: the buffer `cd ` with the position at its
end gives the kind of a file name, and the buffer `pwd extra ` with the
position after `extra` gives no completion. -/
theorem C22_resolver_equals_reference_witness :
    spec_completion_kind (sct_init_builtin_commands sct_initialize) "cd ".toList 3 =
        complete_kind_t.CK_FILENAME ∧
      spec_completion_kind (sct_init_builtin_commands sct_initialize) "pwd extra ".toList 9 =
        complete_kind_t.CK_NONE :=
  ⟨(C22_resolver_equals_reference (sct_init_builtin_commands sct_initialize)
      (reachable_ok _ builtins_reachable) (reachable_bounds _ builtins_reachable)
      "cd ".toList 3).symm.trans (by decide),
    (C22_resolver_equals_reference (sct_init_builtin_commands sct_initialize)
      (reachable_ok _ builtins_reachable) (reachable_bounds _ builtins_reachable)
      "pwd extra ".toList 9).symm.trans (by decide)⟩

/-- C23: when the line buffer is empty, or only spaces and tabs stand before
the position `pos` (whatever follows it), `resolve_comletion_kind` returns the
kind of a command name, in every registry, and leaves the registry as it
is. -/
theorem C23_blank_before_position (core : sct_core_t) (L : List Char) (pos : Int)
    (hblank : ∀ (i : Nat) (c : Char), (i : Int) < pos → L[i]? = some c →
      is_whitespace c = true) :
    resolve_comletion_kind core L pos = (core, complete_kind_t.CK_COMMAND_NAME) := by
  cases hp : parse_words L true with
  | none => simp [resolve_comletion_kind, hp]
  | some pw =>
    have hk : word_index_from_str_pos pw pos = 0 := by
      rw [word_index_eq L true pw pos hp]
      cases hw : pw.words with
      | nil => rfl
      | cons w0 rest =>
        obtain ⟨n, c, f1, -, f3, -, f5, f6, -⟩ := parse_words_word L true pw w0 hp (by
          rw [hw]
          simp)
        have hlt : pos < (w0.end_ : Int) := by
          by_contra hge
          have := hblank w0.start c (by omega) f5
          rw [this] at f6
          exact Bool.noConfusion f6
        simp [List.findIdx_cons, hlt]
    simp [resolve_comletion_kind, hp, hk]

/-- C23 for the built-in commands: the empty buffer, and the buffer of two
spaces and `ls` with the position after the spaces. -/
theorem C23_blank_before_position_witness :
    resolve_comletion_kind (sct_init_builtin_commands sct_initialize) [] 0 =
        (sct_init_builtin_commands sct_initialize, complete_kind_t.CK_COMMAND_NAME) ∧
      resolve_comletion_kind (sct_init_builtin_commands sct_initialize) "  ls".toList 2 =
        (sct_init_builtin_commands sct_initialize, complete_kind_t.CK_COMMAND_NAME) :=
  ⟨C23_blank_before_position _ [] 0 (by simp),
    C23_blank_before_position _ "  ls".toList 2 (by
      intro i c hi hc
      have h2 : i < 2 := by omega
      interval_cases i
      · simp only [String.toList] at hc
        simp at hc
        rw [← hc]
        decide
      · simp only [String.toList] at hc
        simp at hc
        rw [← hc]
        decide)⟩

/-! ## Facts about `command_names_provider` -/

theorem strncmp_eq_zero_iff (text : List Char) :
    ∀ name : List Char, strncmp name text text.length = 0 ↔ text <+: name := by
  induction text with
  | nil =>
    intro name
    cases name <;> simp [strncmp]
  | cons b bs ih =>
    intro name
    cases name with
    | nil => simp [strncmp]
    | cons a as =>
      simp only [List.length_cons, strncmp]
      by_cases hab : a = b
      · rw [if_pos hab, ih as, hab, List.cons_prefix_cons]
        simp
      · rw [if_neg hab]
        have hne : ¬ (b :: bs <+: a :: as) := by
          rw [List.cons_prefix_cons]
          exact fun h => hab h.1.symm
        simp only [hne, iff_false]
        split_ifs <;> simp

theorem provider_session_succ (core : sct_core_t) (text : List Char) (fuel : Nat)
    (st : provider_state) (state : Int) :
    provider_session core text (fuel + 1) st state =
      match command_names_provider core st text state with
      | (_, none) => some []
      | (st1, some name) => (provider_session core text fuel st1 1).map (fun l => name :: l) :=
  rfl

theorem command_names_provider_first (core : sct_core_t) (st : provider_state)
    (text : List Char) :
    command_names_provider core st text 0 =
      command_names_provider core { list_index := 0, len := text.length } text 1 := by
  simp [command_names_provider]

theorem command_names_provider_next (core : sct_core_t) (text : List Char) (i len : Nat) :
    command_names_provider core { list_index := i, len := len } text 1 =
      ({ list_index := (command_names_provider_loop core text len
            ((core.cmd_idx.take core.cmd_count).drop i) i).1, len := len },
        (command_names_provider_loop core text len
            ((core.cmd_idx.take core.cmd_count).drop i) i).2) := by
  simp [command_names_provider]

theorem provider_session_from (core : sct_core_t) (text : List Char)
    (hnames : ∀ p ∈ core.cmd_idx.take core.cmd_count, name_at core p ≠ []) :
    ∀ (l : List Nat) (i fuel : Nat), (core.cmd_idx.take core.cmd_count).drop i = l →
      l.length + 1 ≤ fuel →
      provider_session core text fuel { list_index := i, len := text.length } 1 =
        some ((l.map (name_at core)).filter (fun n => decide (text <+: n))) := by
  intro l
  induction l with
  | nil =>
    intro i fuel hdrop hfuel
    obtain ⟨f, rfl⟩ : ∃ f, fuel = f + 1 := ⟨fuel - 1, by omega⟩
    rw [provider_session_succ, command_names_provider_next, hdrop]
    rfl
  | cons p rest ih =>
    intro i fuel hdrop hfuel
    obtain ⟨f, rfl⟩ : ∃ f, fuel = f + 1 := ⟨fuel - 1, by omega⟩
    simp only [List.length_cons] at hfuel
    have hnext : (core.cmd_idx.take core.cmd_count).drop (i + 1) = rest := by
      have e : (core.cmd_idx.take core.cmd_count).drop (i + 1) =
          ((core.cmd_idx.take core.cmd_count).drop i).drop 1 := by
        rw [List.drop_drop]
      rw [e, hdrop]
      rfl
    have hp : p ∈ core.cmd_idx.take core.cmd_count := by
      apply List.mem_of_mem_drop (n := i)
      rw [hdrop]
      simp
    by_cases hm : strncmp (name_at core p) text text.length = 0
    · have hpre : text <+: name_at core p := (strncmp_eq_zero_iff text _).1 hm
      have hdup : scu_strdup (some (name_at core p)) = some (name_at core p) := by
        cases hn : name_at core p with
        | nil => exact absurd hn (hnames p hp)
        | cons a as => rfl
      rw [provider_session_succ, command_names_provider_next, hdrop]
      simp only [command_names_provider_loop, hm, if_true, hdup]
      rw [ih (i + 1) f hnext (by omega)]
      simp [hpre]
    · have hpre : ¬ text <+: name_at core p := fun h => hm ((strncmp_eq_zero_iff text _).2 h)
      have hstep : command_names_provider core { list_index := i, len := text.length } text 1 =
          command_names_provider core { list_index := i + 1, len := text.length } text 1 := by
        rw [command_names_provider_next, command_names_provider_next, hdrop, hnext]
        simp only [command_names_provider_loop, hm, if_false]
      have hsess : provider_session core text (f + 1) { list_index := i, len := text.length } 1 =
          provider_session core text (f + 1) { list_index := i + 1, len := text.length } 1 := by
        rw [provider_session_succ, provider_session_succ, hstep]
      rw [hsess, ih (i + 1) (f + 1) hnext (by omega)]
      simp [hpre]

theorem registered_name_iff (core : sct_core_t) (hok : registry_ok core) (n : List Char) :
    n ∈ core.cmd_idx.map (name_at core) ↔ registered_name core n := by
  obtain ⟨-, k2, -, -, k5⟩ := hok
  simp only [List.mem_map, registered_name]
  constructor
  · rintro ⟨p, hp, hn⟩
    have hpc : p ∈ core.commands := k2.subset hp
    obtain ⟨m, hm, -⟩ := k5 p hpc
    refine ⟨p, hpc, ?_⟩
    rw [hm]
    simp only [name_at, hm, Option.getD_some] at hn
    rw [hn]
  · rintro ⟨p, hp, hn⟩
    refine ⟨p, k2.symm.subset hp, ?_⟩
    simp only [name_at, hn, Option.getD_some]

/-! ## Claim on the generator of command names -/

/-- C24: in a consistent registry, for every partial text `t` and whatever the
static variables hold from earlier sessions, the names that
`command_names_provider` returns when called with state 0 and then with a
non-zero state until NULL (`cmd_count + 1` calls are enough) are the names of
the index that have `t` as a prefix, in the order of the index.  This list
ascends strictly under `strcmp`, so no name is repeated; its members are
exactly the registered names with the prefix `t`; with `t` empty it is the
list of all names of the index; a session started again with state 0 gives
the same list. -/
theorem C24_provider_session (core : sct_core_t) (hok : registry_ok core) (t : List Char)
    (st st2 : provider_state) :
    provider_session core t (core.cmd_count + 1) st 0 =
        some ((core.cmd_idx.map (name_at core)).filter (fun n => decide (t <+: n))) ∧
      ((core.cmd_idx.map (name_at core)).filter (fun n => decide (t <+: n))).Pairwise
        (fun a b => strcmp a b < 0) ∧
      (∀ n, n ∈ (core.cmd_idx.map (name_at core)).filter (fun n => decide (t <+: n)) ↔
        registered_name core n ∧ t <+: n) ∧
      (t = [] → (core.cmd_idx.map (name_at core)).filter (fun n => decide (t <+: n)) =
        core.cmd_idx.map (name_at core)) ∧
      provider_session core t (core.cmd_count + 1) st2 0 =
        provider_session core t (core.cmd_count + 1) st 0 := by
  have htake : core.cmd_idx.take core.cmd_count = core.cmd_idx := by
    rw [← hok.1]
    exact List.take_length _
  have hnames : ∀ p ∈ core.cmd_idx.take core.cmd_count, name_at core p ≠ [] := by
    intro p hp
    rw [htake] at hp
    obtain ⟨m, hm, hne⟩ := hok.2.2.2.2 p (hok.2.1.subset hp)
    simp only [name_at, hm, Option.getD_some]
    exact hne
  have hrun : ∀ s : provider_state, provider_session core t (core.cmd_count + 1) s 0 =
      some ((core.cmd_idx.map (name_at core)).filter (fun n => decide (t <+: n))) := by
    intro s
    have h1 : provider_session core t (core.cmd_count + 1) s 0 =
        provider_session core t (core.cmd_count + 1) { list_index := 0, len := t.length } 1 := by
      rw [provider_session_succ, provider_session_succ, command_names_provider_first]
    rw [h1, provider_session_from core t hnames core.cmd_idx 0 (core.cmd_count + 1)
      (by rw [htake, List.drop_zero]) (by rw [hok.1])]
  refine ⟨hrun st, ?_, ?_, ?_, ?_⟩
  · apply List.Pairwise.filter
    rw [List.pairwise_map]
    exact hok.2.2.1
  · intro n
    rw [List.mem_filter, registered_name_iff core hok n]
    simp
  · rintro rfl
    simp
  · rw [hrun st, hrun st2]

/-- C24 for the built-in commands and the text `c`: the session gives `cd` and
`cp`, whatever the static variables held. -/
theorem C24_provider_session_witness :
    provider_session (sct_init_builtin_commands sct_initialize) "c".toList 7
        { list_index := 4, len := 9 } 0 = some ["cd".toList, "cp".toList] :=
  (C24_provider_session (sct_init_builtin_commands sct_initialize)
    (reachable_ok _ builtins_reachable) "c".toList { list_index := 4, len := 9 }
    { list_index := 0, len := 0 }).1.trans (by decide)

/-! ## The slots that the dispatcher validates -/

theorem bind_words_length (argc : Nat) (rest : List arg_word_t) :
    ∀ args : List sct_arg_t, (bind_words argc rest args).length = args.length := by
  induction rest with
  | nil =>
    intro args
    rfl
  | cons w rest ih =>
    intro args
    simp only [bind_words]
    split_ifs
    · rfl
    · exact ih args
    · rw [ih, List.length_modify]

theorem command_from_words_snd_some (core : sct_core_t) (L : List Char) (ig : Bool)
    (pw : parsed_words_t) (p : Nat) (hpw : parse_words L ig = some pw)
    (h : (command_from_words core pw).2 = some p) :
    ∃ first rest, pw.words = first :: rest ∧
      get_command_by_name core (first.text.getD []) = some p := by
  obtain ⟨hcnt, -⟩ := parse_words_index L ig pw hpw
  rw [command_from_words_snd] at h
  cases hw : pw.words with
  | nil =>
    rw [hw] at h
    split_ifs at h
  | cons first rest =>
    rw [hw] at h
    have hpos : pw.word_count > 0 := by
      rw [hcnt, hw]
      simp
    rw [if_pos hpos] at h
    exact ⟨first, rest, rfl, h⟩

theorem command_from_words_slots (core : sct_core_t) (hok : registry_ok core) (L : List Char)
    (ig : Bool) (pw : parsed_words_t) (first : arg_word_t) (rest : List arg_word_t) (p : Nat)
    (hpw : parse_words L ig = some pw) (hw : pw.words = first :: rest)
    (hfind : get_command_by_name core (first.text.getD []) = some p) :
    (command_from_words core pw).2 = some p ∧
      (deref (command_from_words core pw).1 p).exec_fn = (deref core p).exec_fn ∧
      (deref (command_from_words core pw).1 p).argc = (deref core p).argc ∧
      ∀ i, i < (deref core p).argc →
        (deref (command_from_words core pw).1 p).args[i]? =
          ((deref core p).args[i]?).map (fun spec =>
            ({ kind := spec.kind, optional := spec.optional,
               value := (pw.words[i + 1]?).bind (fun w => w.text) } : sct_arg_t)) := by
  obtain ⟨hmem, -⟩ := get_command_by_name_mem core hok _ p hfind
  have hp := hok.2.2.2.1 p hmem
  obtain ⟨hcnt, hidx⟩ := parse_words_index L ig pw hpw
  have hcount : pw.word_count > 0 := by
    rw [hcnt, hw]
    simp
  obtain ⟨c, e, -, -, -, -, -, c6⟩ :=
    command_from_words_found core pw first rest p hcount hw hfind hp
  rw [e]
  show some p = some p ∧ (deref c p).exec_fn = _ ∧ (deref c p).argc = _ ∧
    ∀ i, i < (deref core p).argc → (deref c p).args[i]? = _
  obtain ⟨-, b2⟩ := bind_words_spec (deref core p).argc rest
    (reset_args (deref core p).argc (deref core p).args) 0
    (fun j w hj => by
      have := (hidx (j + 1) w (by
        rw [hw]
        simpa using hj)).1
      omega)
  rw [c6]
  refine ⟨rfl, rfl, rfl, ?_⟩
  intro i hi
  show (bind_words _ _ _)[i]? = _
  rw [b2 i, reset_args_getElem?, hw]
  cases hx : (deref core p).args[i]? with
  | none => rfl
  | some a =>
    simp only [Option.map_some', if_pos hi, Nat.zero_le, true_and, Nat.sub_zero,
      List.getElem?_cons_succ]
    by_cases hr : i < rest.length
    · rw [if_pos ⟨hi, hr⟩]
      have hwi := List.getElem?_eq_getElem hr
      obtain ⟨-, t, ht, hne⟩ := hidx (i + 1) rest[i] (by
        rw [hw]
        simp [hwi])
      rw [hwi]
      simp only [Option.some_bind, ht, scu_strdup_some_ne_nil t hne]
    · rw [if_neg (fun h => hr h.2)]
      have hnone : rest[i]? = none := List.getElem?_eq_none (by omega)
      rw [hnone]
      rfl

theorem command_from_words_cases (core : sct_core_t) (hok : registry_ok core)
    (pw : parsed_words_t) :
    command_from_words core pw = (core, none) ∨
      ∃ c p, command_from_words core pw = (c, some p) ∧ p ∈ core.commands ∧
        c.commands = core.commands ∧ c.cmd_idx = core.cmd_idx ∧
        c.cmd_count = core.cmd_count ∧ c.heap.length = core.heap.length ∧
        (∀ q, q ≠ p → deref c q = deref core q) ∧
        (deref c p).name = (deref core p).name ∧ (deref c p).argc = (deref core p).argc ∧
        (deref c p).args.length = (deref core p).args.length := by
  by_cases hcount : pw.word_count > 0
  swap
  · exact Or.inl (command_from_words_none core pw (Or.inl (by omega)))
  cases hw : pw.words with
  | nil => exact Or.inl (command_from_words_none core pw (Or.inr (Or.inl hw)))
  | cons first rest =>
    cases hg : get_command_by_name core (first.text.getD []) with
    | none =>
      exact Or.inl (command_from_words_none core pw (Or.inr (Or.inr ⟨first, rest, hw, hg⟩)))
    | some p =>
      obtain ⟨hmem, -⟩ := get_command_by_name_mem core hok _ p hg
      obtain ⟨c, e, c1, c2, c3, c4, c5, c6⟩ :=
        command_from_words_found core pw first rest p hcount hw hg (hok.2.2.2.1 p hmem)
      refine Or.inr ⟨c, p, e, hmem, c1, c2, c3, c4, c5, ?_, ?_, ?_⟩
      · rw [c6]
      · rw [c6]
      · rw [c6]
        show (bind_words _ _ _).length = _
        rw [bind_words_length, reset_args_length]

theorem command_from_words_ok (core : sct_core_t) (hok : registry_ok core)
    (hb : args_in_bounds core) (pw : parsed_words_t) :
    registry_ok (command_from_words core pw).1 ∧
      args_in_bounds (command_from_words core pw).1 := by
  rcases command_from_words_cases core hok pw with
    e | ⟨c, p, e, hmem, c1, c2, c3, c4, c5, n1, n2, n3⟩
  · rw [e]
    exact ⟨hok, hb⟩
  · rw [e]
    show registry_ok c ∧ args_in_bounds c
    have hdn : ∀ q, (deref c q).name = (deref core q).name := by
      intro q
      by_cases h : q = p
      · rw [h]
        exact n1
      · rw [c5 q h]
    have hname : ∀ q, name_at c q = name_at core q := by
      intro q
      simp only [name_at, hdn]
    obtain ⟨k1, k2, k3, k4, k5⟩ := hok
    refine ⟨⟨by rw [c2, c3]; exact k1, by rw [c1, c2]; exact k2, ?_, ?_, ?_⟩, ?_⟩
    · rw [c2]
      refine k3.imp ?_
      intro a b h
      show strcmp (name_at c a) (name_at c b) < 0
      rw [hname, hname]
      exact h
    · rw [c1, c4]
      exact k4
    · rw [c1]
      intro q hq
      rw [hdn]
      exact k5 q hq
    · intro q hq
      rw [c1] at hq
      by_cases h : q = p
      · rw [h, n2, n3]
        exact hb p hmem
      · rw [c5 q h]
        exact hb q hq

theorem parse_final_command_fst (st : utils_state) (fs : filesystem) (core : sct_core_t)
    (L : List Char) :
    (parse_final_command st fs core L).1 =
      match parse_words L false with
      | none => core
      | some pw => (command_from_words core pw).1 := by
  unfold parse_final_command
  cases hp : parse_words L false with
  | none => rfl
  | some pw =>
    simp only
    cases hc : command_from_words core pw with
    | mk c r =>
      cases r with
      | none => rfl
      | some q =>
        simp only
        split_ifs <;> rfl

theorem parse_final_command_ok (st : utils_state) (fs : filesystem) (core : sct_core_t)
    (hok : registry_ok core) (hb : args_in_bounds core) (L : List Char) :
    registry_ok (parse_final_command st fs core L).1 ∧
      args_in_bounds (parse_final_command st fs core L).1 := by
  rw [parse_final_command_fst]
  cases parse_words L false with
  | none => exact ⟨hok, hb⟩
  | some pw => exact command_from_words_ok core hok hb pw

/-! ## Claim on the dispatch of one line -/

/-- C15: in a consistent registry whose commands have at most `SCT_MAX_ARGS`
slots, whatever values the slots hold from earlier lines, dispatching a
non-empty line calls a callback at most once, and it calls the callback of the
command at `p` exactly when strict tokenization succeeds, the first word names
the registered command at `p`, and for every `i` below its `argc` the slot
made of the kind and optional flag of specification `i` and of the text of
word `i + 1`, or of no value when the line has no word `i + 1`, passes
`validate_arg`.  The callback receives exactly these slots.  A slot without
value passes exactly when its specification is optional, so a line that gives
no word for a required slot calls no callback.  The slots after the first one
that fails play no part in the result. -/
theorem C15_dispatch (st : utils_state) (fs : filesystem)
    (terminates : sct_exec_cb_t → List sct_arg_t → Nat → Bool) (core : sct_core_t)
    (hok : registry_ok core) (hb : args_in_bounds core)
    (line : List Char) (hline : line ≠ []) :
    (exec_events (sct_run st fs terminates core false [some line]).2.1 =
      match (parse_final_command st fs core line).2.1 with
      | some p =>
        [sct_event.exec (deref (parse_final_command st fs core line).1 p).exec_fn
          (deref (parse_final_command st fs core line).1 p).args
          (deref (parse_final_command st fs core line).1 p).argc]
      | none => []) ∧
    (∀ p, (parse_final_command st fs core line).2.1 = some p ↔
      ∃ pw first rest, parse_words line false = some pw ∧ pw.words = first :: rest ∧
        get_command_by_name core (first.text.getD []) = some p ∧
        ∀ i, i < (deref core p).argc →
          ∃ spec, (deref core p).args[i]? = some spec ∧
            (validate_arg st fs
              { kind := spec.kind, optional := spec.optional,
                value := (pw.words[i + 1]?).bind (fun w => w.text) } false).1 = true) ∧
    (∀ p pw, parse_words line false = some pw →
      (parse_final_command st fs core line).2.1 = some p →
      (deref (parse_final_command st fs core line).1 p).exec_fn = (deref core p).exec_fn ∧
        (deref (parse_final_command st fs core line).1 p).argc = (deref core p).argc ∧
        ∀ i, i < (deref core p).argc →
          (deref (parse_final_command st fs core line).1 p).args[i]? =
            ((deref core p).args[i]?).map (fun spec =>
              ({ kind := spec.kind, optional := spec.optional,
                 value := (pw.words[i + 1]?).bind (fun w => w.text) } : sct_arg_t))) ∧
    (∀ (a : sct_arg_t) (e : Bool), a.value = none →
      (validate_arg st fs a e).1 = a.optional) ∧
    (∀ (pw : parsed_words_t) (first : arg_word_t) (rest : List arg_word_t) (p i : Nat)
        (spec : sct_arg_t),
      parse_words line false = some pw → pw.words = first :: rest →
      get_command_by_name core (first.text.getD []) = some p →
      i < (deref core p).argc → (deref core p).args[i]? = some spec →
      spec.optional = false → pw.words.length ≤ i + 1 →
      exec_events (sct_run st fs terminates core false [some line]).2.1 = []) ∧
    (∀ (pre post : List sct_arg_t) (a : sct_arg_t) (e : Bool),
      (∀ x ∈ pre, (validate_arg st fs x false).1 = true) →
      (validate_arg st fs a false).1 = false →
      validate_args st fs (pre ++ a :: post) e = validate_args st fs (pre ++ [a]) e ∧
        (validate_args st fs (pre ++ a :: post) e).1 = false) := by
  have hnone : ∀ (a : sct_arg_t) (e : Bool), a.value = none →
      (validate_arg st fs a e).1 = a.optional := by
    intro a e ha
    simp only [validate_arg, ha]
  have hiff : ∀ p, (parse_final_command st fs core line).2.1 = some p ↔
      ∃ pw first rest, parse_words line false = some pw ∧ pw.words = first :: rest ∧
        get_command_by_name core (first.text.getD []) = some p ∧
        ∀ i, i < (deref core p).argc →
          ∃ spec, (deref core p).args[i]? = some spec ∧
            (validate_arg st fs
              { kind := spec.kind, optional := spec.optional,
                value := (pw.words[i + 1]?).bind (fun w => w.text) } false).1 = true := by
    intro p
    rw [parse_final_command_some]
    constructor
    · rintro ⟨pw, h1, h2, h3⟩
      obtain ⟨first, rest, hw, hfind⟩ := command_from_words_snd_some core line false pw p h1 h2
      obtain ⟨-, -, s3, s4⟩ :=
        command_from_words_slots core hok line false pw first rest p h1 hw hfind
      refine ⟨pw, first, rest, h1, hw, hfind, ?_⟩
      intro i hi
      obtain ⟨hmem, -⟩ := get_command_by_name_mem core hok _ p hfind
      obtain ⟨b1, b2⟩ := hb p hmem
      have hlt : i < (deref core p).args.length := by omega
      refine ⟨(deref core p).args[i], List.getElem?_eq_getElem hlt, ?_⟩
      apply (validate_args_true_iff st fs _ false).1 h3
      rw [s3]
      apply List.mem_iff_getElem?.2
      refine ⟨i, ?_⟩
      rw [List.getElem?_take_of_lt hi, s4 i hi, List.getElem?_eq_getElem hlt]
      rfl
    · rintro ⟨pw, first, rest, h1, hw, hfind, h4⟩
      obtain ⟨s1, -, s3, s4⟩ :=
        command_from_words_slots core hok line false pw first rest p h1 hw hfind
      refine ⟨pw, h1, s1, (validate_args_true_iff st fs _ false).2 ?_⟩
      intro a ha
      rw [s3] at ha
      obtain ⟨i, hi⟩ := List.mem_iff_getElem?.1 ha
      have hilt : i < (deref core p).argc := by
        by_contra hge
        have hn : (List.take (deref core p).argc
            (deref (command_from_words core pw).1 p).args)[i]? = none := by
          apply List.getElem?_eq_none
          rw [List.length_take]
          omega
        rw [hn] at hi
        exact Option.noConfusion hi
      rw [List.getElem?_take_of_lt hilt, s4 i hilt] at hi
      obtain ⟨spec, hs, hval⟩ := h4 i hilt
      rw [hs] at hi
      simp only [Option.map_some', Option.some.injEq] at hi
      rw [← hi]
      exact hval
  refine ⟨sct_run_single st fs terminates core line hline, hiff, ?_, hnone, ?_,
    fun pre post a e => validate_args_stop st fs pre post a e⟩
  · intro p pw hpw hsome
    obtain ⟨pw2, g1, g2, -⟩ := (parse_final_command_some st fs core line p).1 hsome
    rw [hpw] at g1
    simp only [Option.some.injEq] at g1
    subst g1
    obtain ⟨first, rest, hw, hfind⟩ := command_from_words_snd_some core line false pw p hpw g2
    obtain ⟨-, s2, s3, s4⟩ :=
      command_from_words_slots core hok line false pw first rest p hpw hw hfind
    have hfst : (parse_final_command st fs core line).1 = (command_from_words core pw).1 := by
      rw [parse_final_command_fst, hpw]
    rw [hfst]
    exact ⟨s2, s3, s4⟩
  · intro pw first rest p i spec hpw hw hfind hi hspec hopt hlen
    rw [sct_run_single st fs terminates core line hline]
    cases hc : (parse_final_command st fs core line).2.1 with
    | none => rfl
    | some q =>
      exfalso
      obtain ⟨pw2, first2, rest2, g1, g2, g3, g4⟩ := (hiff q).1 hc
      rw [hpw] at g1
      simp only [Option.some.injEq] at g1
      subst g1
      rw [hw] at g2
      simp only [List.cons.injEq] at g2
      obtain ⟨gf, -⟩ := g2
      subst gf
      rw [hfind] at g3
      simp only [Option.some.injEq] at g3
      subst g3
      obtain ⟨spec2, hs2, hval⟩ := g4 i hi
      rw [hspec] at hs2
      simp only [Option.some.injEq] at hs2
      subst hs2
      have hno : pw.words[i + 1]? = none := List.getElem?_eq_none (by omega)
      rw [hno, hnone _ false rfl] at hval
      rw [hopt] at hval
      exact Bool.noConfusion hval

/-- C15 for the built-in commands: after the line `cp a.txt b` has been
dispatched, the two slots of `cp` hold `a.txt` and `b`; the line `cp`, which
gives no word for the first required slot, then calls no callback, so the two
lines in a row call the callback once. -/
theorem C15_dispatch_witness :
    exec_events (sct_run (scu_initialize_utils zero_mem zero_mem zero_mem zero_mem)
        (fun path => if path = "a.txt".toList then some file_type.regular else none)
        (fun _ _ _ => false)
        (parse_final_command (scu_initialize_utils zero_mem zero_mem zero_mem zero_mem)
          (fun path => if path = "a.txt".toList then some file_type.regular else none)
          (sct_init_builtin_commands sct_initialize) "cp a.txt b".toList).1
        false [some "cp".toList]).2.1 = [] ∧
      exec_events (sct_run (scu_initialize_utils zero_mem zero_mem zero_mem zero_mem)
        (fun path => if path = "a.txt".toList then some file_type.regular else none)
        (fun _ _ _ => false) (sct_init_builtin_commands sct_initialize) false
        [some "cp a.txt b".toList, some "cp".toList]).2.1 =
        [sct_event.exec (some 6)
          [{ kind := sct_arg_kind_t.SA_FILENAME, optional := false,
             value := some "a.txt".toList },
           { kind := sct_arg_kind_t.SA_NEW_FILENAME, optional := false,
             value := some "b".toList }] 2] :=
  ⟨(C15_dispatch (scu_initialize_utils zero_mem zero_mem zero_mem zero_mem)
      (fun path => if path = "a.txt".toList then some file_type.regular else none)
      (fun _ _ _ => false)
      (parse_final_command (scu_initialize_utils zero_mem zero_mem zero_mem zero_mem)
        (fun path => if path = "a.txt".toList then some file_type.regular else none)
        (sct_init_builtin_commands sct_initialize) "cp a.txt b".toList).1
      (parse_final_command_ok _ _ _ (reachable_ok _ builtins_reachable)
        (reachable_bounds _ builtins_reachable) _).1
      (parse_final_command_ok _ _ _ (reachable_ok _ builtins_reachable)
        (reachable_bounds _ builtins_reachable) _).2
      "cp".toList (by decide)).2.2.2.2.1
      { words := [{ index := 0, text := some "cp".toList, start := 0, end_ := 2 }]
        word_count := 1 }
      { index := 0, text := some "cp".toList, start := 0, end_ := 2 } [] 5 0
      { kind := sct_arg_kind_t.SA_FILENAME, optional := false, value := some "a.txt".toList }
      (by decide) (by decide) (by decide) (by decide) (by decide) (by decide) (by decide),
    by decide⟩

end Sctest
